import Mathlib

/-! AVL rank tree: shallow embedding of `avl_utility.h` and `avl_tree.h`.

Data model.

* `tree_t` is the record of `avl_utility.h` (three `int` fields, here `Int`).
* `node_` holds the non-link fields of the C++ class `node_` (value, height, w1, w2).
  The field `height` is an `int` in the source; it is only ever written by the
  constructors (0) and by `updateheight` (1 + max of two values that are at least -1),
  so it is modelled as a natural number.
* `node_ptr` is a possibly-null owning pointer to a node: `nil` is `nullptr`, and a
  non-null pointer is the node together with the two subtrees it owns.
* `Loc` is a non-null `node*` seen together with its chain of `parent` links: the node,
  its two subtrees, and one `Frame` per ancestor (nearest first).  Following
  `curr->parent` pops a frame; `parent->left == curr` is the frame being `inLeft`.
* `avlTree` is the tree object: `root`, `size`, `max`, `min`.

Arithmetic.  The grades are arbitrary `int` values, so the sums of grades (`w1`,
`sumGradesToNode` and the two grade queries) are computed in 32-bit `int` arithmetic:
every addition and subtraction of the source is followed by `wrap32`, the reduction
modulo 2^32 into the range of `int` that the usual two's complement targets perform.
Heights, the counts `w2`, `size` and the ranks are bounded by the number of nodes and
are kept as integers without reduction.
-/

namespace AvlRank

/-! ## Records and their comparison operators (`avl_utility.h`) -/

/-- Record stored in the tree: `struct tree_t`. -/
structure tree_t where
  id : Int
  salary : Int
  grade : Int
  deriving DecidableEq, Repr

/-- The source's `operator==` on `tree_t`: equal ids. -/
def opEq (a b : tree_t) : Bool := decide (a.id = b.id)

/-- The source's `operator<` on `tree_t`: by salary, ties by id. -/
def opLt (a b : tree_t) : Bool :=
  if a.salary = b.salary then decide (a.id < b.id) else decide (a.salary < b.salary)

/-- The source's `operator>` on `tree_t`: by salary, ties by id. -/
def opGt (a b : tree_t) : Bool :=
  if a.salary = b.salary then decide (a.id > b.id) else decide (a.salary > b.salary)

/-! ## Nodes -/

/-- Non-link fields of the class `node_`. -/
structure node_ where
  value : tree_t
  height : Nat
  w1 : Int
  w2 : Int
  deriving DecidableEq, Repr

/-- Constructor `node_(const tree_t& value_)`: height 0, w1 1, w2 the grade. -/
def node_.ofValue (v : tree_t) : node_ := ⟨v, 0, 1, v.grade⟩

/-- Default constructor `node_()`: default record, height 0, w1 1, w2 0. -/
def node_.default : node_ := ⟨⟨0, 0, 0⟩, 0, 1, 0⟩

/-- Possibly-null owning pointer to a node, with the subtrees the node owns. -/
inductive node_ptr where
  | nil : node_ptr
  | node (left : node_ptr) (d : node_) (right : node_ptr) : node_ptr
  deriving DecidableEq, Repr

open node_ptr

/-- The expression `p == nullptr ? -1 : p->height`. -/
def node_ptr.heightOr : node_ptr → Int
  | nil => -1
  | node _ d _ => d.height

/-- The expression `p == nullptr ? 0 : p->w1`. -/
def node_ptr.w1Or : node_ptr → Int
  | nil => 0
  | node _ d _ => d.w1

/-- The expression `p == nullptr ? 0 : p->w2`. -/
def node_ptr.w2Or : node_ptr → Int
  | nil => 0
  | node _ d _ => d.w2

/-- Method `node_::updateheight` of a node with children `l` and `r`. -/
def updateheight (l : node_ptr) (d : node_) (r : node_ptr) : node_ :=
  { d with height := ((if l.heightOr > r.heightOr then l.heightOr else r.heightOr) + 1).toNat }

/-- The value of an `int` expression whose exact result is `x`: reduced modulo 2^32 into
`[-2^31, 2^31)`. -/
def wrap32 (x : Int) : Int := (x + 2147483648) % 4294967296 - 2147483648

/-- Method `node_::updateW1` of a node with children `l` and `r`: the `int` expression
`value.grade + left_sum + right_sum`. -/
def updateW1 (l : node_ptr) (d : node_) (r : node_ptr) : node_ :=
  { d with w1 := wrap32 (wrap32 (d.value.grade + l.w1Or) + r.w1Or) }

/-- Method `node_::updateW2` of a node with children `l` and `r`. -/
def updateW2 (l : node_ptr) (d : node_) (r : node_ptr) : node_ :=
  { d with w2 := 1 + l.w2Or + r.w2Or }

/-- The three calls `updateheight(); updateW1(); updateW2();` in sequence. -/
def refresh (l : node_ptr) (d : node_) (r : node_ptr) : node_ :=
  updateW2 l (updateW1 l (updateheight l d r) r) r

/-- Method `node_::getBf` of a node with children `l` and `r`. -/
def getBf (l r : node_ptr) : Int := l.heightOr - r.heightOr

/-- The expression `p->getBf()` for a child pointer `p`; a null `p` is never
dereferenced by `checkBfAndRotate` (see `getBf_two_left`), the value 0 stands there. -/
def node_ptr.bf : node_ptr → Int
  | nil => 0
  | node l _ r => getBf l r

/-! ## Node pointers with their parent chain -/

/-- One ancestor of a node: its fields, its other subtree, and the side the node hangs on. -/
inductive Frame where
  | inLeft (d : node_) (right : node_ptr) : Frame
  | inRight (left : node_ptr) (d : node_) : Frame
  deriving DecidableEq, Repr

/-- Non-null `node*`: the node, its subtrees, and its ancestors (nearest first). -/
structure Loc where
  left : node_ptr
  d : node_
  right : node_ptr
  ctx : List Frame
  deriving DecidableEq, Repr

/-- The subtree rooted at the node. -/
def Loc.toTree (c : Loc) : node_ptr := node c.left c.d c.right

/-- The parent node of a frame with the given subtree in the child slot. -/
def Frame.plug : Frame → node_ptr → node_ptr
  | Frame.inLeft d r, t => node t d r
  | Frame.inRight l d, t => node l d t

/-- The whole tree seen from a subtree and the ancestors above it. -/
def zipUp : node_ptr → List Frame → node_ptr
  | t, [] => t
  | t, f :: k => zipUp (f.plug t) k

/-- The root of the tree the node lives in. -/
def Loc.root (c : Loc) : node_ptr := zipUp c.toTree c.ctx

/-- The pointer `curr->parent` (`none` is `nullptr`). -/
def Loc.parent (c : Loc) : Option Loc :=
  match c.ctx with
  | [] => none
  | Frame.inLeft d r :: k => some ⟨c.toTree, d, r, k⟩
  | Frame.inRight l d :: k => some ⟨l, d, c.toTree, k⟩

/-- A non-null `node_ptr` seen as a node below the given ancestors. -/
def node_ptr.toLoc (k : List Frame) : node_ptr → Option Loc
  | nil => none
  | node l d r => some ⟨l, d, r, k⟩

/-! ## Rotations (`avl_tree.h`) -/

/-- Rotation `rotationLL(to_rotate)`: the left child rises, `to_rotate` becomes its
right child and takes the left child's former right subtree; then `to_rotate` and the
risen node are refreshed, in this order.  The result is `to_rotate` at its new place. -/
def rotationLL (x : Loc) : Loc :=
  match x.left with
  | nil => x
  | node ll ld lr =>
    let xd := refresh lr x.d x.right
    ⟨lr, xd, x.right, Frame.inRight ll (refresh ll ld (node lr xd x.right)) :: x.ctx⟩

/-- Rotation `rotationRR(to_rotate)`, the mirror image of `rotationLL`. -/
def rotationRR (x : Loc) : Loc :=
  match x.right with
  | nil => x
  | node rl rd rr =>
    let xd := refresh x.left x.d rl
    ⟨x.left, xd, rl, Frame.inLeft (refresh (node x.left xd rl) rd rr) rr :: x.ctx⟩

/-- The subtree left in the slot of `t` by `rotationLL` called on the root of `t`. -/
def rotLLsub : node_ptr → node_ptr
  | node (node ll ld lr) xd xr =>
    let xd1 := refresh lr xd xr
    node ll (refresh ll ld (node lr xd1 xr)) (node lr xd1 xr)
  | t => t

/-- The subtree left in the slot of `t` by `rotationRR` called on the root of `t`. -/
def rotRRsub : node_ptr → node_ptr
  | node xl xd (node rl rd rr) =>
    let xd1 := refresh xl xd rl
    node (node xl xd1 rl) (refresh (node xl xd1 rl) rd rr) rr
  | t => t

/-- Rotation `rotationLR(to_rotate)`: `rotationRR(to_rotate->left)`, which re-hangs the
risen node as the left child of `to_rotate`, then `rotationLL(to_rotate)`. -/
def rotationLR (x : Loc) : Loc :=
  rotationLL { x with left := rotRRsub x.left }

/-- Rotation `rotationRL(to_rotate)`: `rotationLL(to_rotate->right)`, then
`rotationRR(to_rotate)`. -/
def rotationRL (x : Loc) : Loc :=
  rotationRR { x with right := rotLLsub x.right }

/-- Function `checkBfAndRotate(curr)`: two tests in sequence, both on `curr`. -/
def checkBfAndRotate (curr : Loc) : Loc :=
  let c1 :=
    if getBf curr.left curr.right = 2 then
      (if curr.left.bf ≥ 0 then rotationLL curr else rotationLR curr)
    else curr
  if getBf c1.left c1.right = -2 then
    (if c1.right.bf ≤ 0 then rotationRR c1 else rotationRL c1)
  else c1

/-- The body of one call of `checkBfAndRotateFromNodeToRoot` on a non-null `curr`:
refresh the node, `checkBfAndRotate`, and read `curr_->parent`. -/
def rebalanceStep (curr : Loc) : Loc :=
  checkBfAndRotate { curr with d := refresh curr.left curr.d curr.right }

/-! ### Termination measure of the walk to the root -/

/-- Whether the cached height differs from the value `updateheight` would give (0 or 1). -/
def staleH (l : node_ptr) (d : node_) (r : node_ptr) : Nat :=
  if (d.height : Int) = max l.heightOr r.heightOr + 1 then 0 else 1

/-- Number of nodes whose cached height differs from the value `updateheight` would give. -/
def incons : node_ptr → Nat
  | nil => 0
  | node l d r => incons l + incons r + staleH l d r

/-- Sum of the cached heights of a subtree. -/
def sumH : node_ptr → Nat
  | nil => 0
  | node l d r => sumH l + sumH r + d.height

/-- The subtree hanging off a frame. -/
def Frame.sibling : Frame → node_ptr
  | Frame.inLeft _ r => r
  | Frame.inRight l _ => l

/-- Inconsistent cached heights in the subtrees hanging off the ancestors. -/
def ctxI : List Frame → Nat
  | [] => 0
  | f :: k => incons f.sibling + ctxI k

/-- Sum of the heights the ancestors get once recomputed, plus the cached heights
of the subtrees hanging off them, when the subtree below has height `hc`. -/
def ctxPhi : Int → List Frame → Nat
  | _, [] => 0
  | hc, f :: k =>
    (max hc f.sibling.heightOr + 1).toNat + sumH f.sibling
      + ctxPhi (max hc f.sibling.heightOr + 1) k

/-- First component of the measure. -/
def Loc.mI (c : Loc) : Nat := incons c.left + incons c.right + ctxI c.ctx

/-- Second component of the measure. -/
def Loc.mPhi (c : Loc) : Nat :=
  (max c.left.heightOr c.right.heightOr + 1).toNat + sumH c.left + sumH c.right
    + ctxPhi (max c.left.heightOr c.right.heightOr + 1) c.ctx

/-- Third component of the measure. -/
def Loc.mFlag (c : Loc) : Nat :=
  2 * c.ctx.length
    + (if getBf c.left c.right = 2 ∨ getBf c.left c.right = -2 then 1 else 0)

/-! ### The walk to the root terminates -/

@[simp] theorem heightOr_nil : node_ptr.nil.heightOr = -1 := rfl
@[simp] theorem heightOr_node (l r : node_ptr) (d : node_) : (node l d r).heightOr = d.height := rfl

theorem heightOr_ge (t : node_ptr) : -1 ≤ t.heightOr := by
  cases t with
  | nil => simp
  | node l d r => simp; omega

@[simp] theorem refresh_height (l r : node_ptr) (d : node_) :
    (refresh l d r).height = (max l.heightOr r.heightOr + 1).toNat := by
  simp only [refresh, updateW2, updateW1, updateheight]
  split <;> congr 1 <;> omega

theorem refresh_height_cast (l r : node_ptr) (d : node_) :
    ((refresh l d r).height : Int) = max l.heightOr r.heightOr + 1 := by
  have h1 := heightOr_ge l
  have h2 := heightOr_ge r
  rw [refresh_height]; omega

theorem staleH_refresh (l r : node_ptr) (d : node_) : staleH l (refresh l d r) r = 0 := by
  have h1 := heightOr_ge l
  have h2 := heightOr_ge r
  simp only [staleH, refresh_height]
  rw [if_pos (by omega)]

theorem staleH_cases (l r : node_ptr) (d : node_) :
    (staleH l d r = 0 ∧ (d.height : Int) = max l.heightOr r.heightOr + 1) ∨ staleH l d r = 1 := by
  unfold staleH
  split
  · left; exact ⟨rfl, by assumption⟩
  · right; rfl

@[simp] theorem refresh_value (l r : node_ptr) (d : node_) : (refresh l d r).value = d.value := rfl

theorem ctxPhi_mono (k : List Frame) : ∀ a b : Int, a ≤ b → ctxPhi a k ≤ ctxPhi b k := by
  induction k with
  | nil => intro a b _; simp [ctxPhi]
  | cons f k ih =>
    intro a b hab
    simp only [ctxPhi]
    have := ih (max a f.sibling.heightOr + 1) (max b f.sibling.heightOr + 1) (by omega)
    omega

theorem lex3_iff (a1 a2 a3 b1 b2 b3 : Nat) :
    Prod.Lex (fun a₁ a₂ => a₁ < a₂) (Prod.Lex (fun a₁ a₂ => a₁ < a₂) fun a₁ a₂ => a₁ < a₂)
      (a1, a2, a3) (b1, b2, b3) ↔
    a1 < b1 ∨ (a1 = b1 ∧ (a2 < b2 ∨ (a2 = b2 ∧ a3 < b3))) := by
  simp [Prod.lex_def]


/-- The first two components of the measure, compared lexicographically (strict). -/
def mu2Lt (a b : Loc) : Prop := a.mI < b.mI ∨ (a.mI = b.mI ∧ a.mPhi < b.mPhi)

/-- What a rotation at `x` leaving the node at `x1` does to the measure. -/
def RotOK (x1 x : Loc) : Prop :=
  staleH x1.left x1.d x1.right = 0 ∧ x1.ctx.length = x.ctx.length + 1 ∧
  (mu2Lt x1 x ∨
    (x1.mI = x.mI ∧ x1.mPhi = x.mPhi ∧
      ¬ (getBf x1.left x1.right = 2 ∨ getBf x1.left x1.right = -2) ∧
      ∀ p, x1.parent = some p → ¬ (getBf p.left p.right = 2 ∨ getBf p.left p.right = -2)))

theorem up_measure (c p : Loc) (hst : staleH c.left c.d c.right = 0) (h : c.parent = some p) :
    p.mI = c.mI ∧ p.mPhi = c.mPhi ∧ p.ctx.length + 1 = c.ctx.length := by
  obtain ⟨l, d, r, k⟩ := c
  have h1 := heightOr_ge l
  have h2 := heightOr_ge r
  have hst0 := hst
  simp only [staleH] at hst
  have hd : (d.height : Int) = max l.heightOr r.heightOr + 1 := by
    by_contra hne; rw [if_neg hne] at hst; omega
  simp only [] at hst0
  cases k with
  | nil => simp [Loc.parent] at h
  | cons f k =>
    cases f with
    | inLeft fd fr =>
      simp only [Loc.parent, Option.some.injEq] at h
      subst h
      simp only [Loc.mI, Loc.mPhi, Loc.toTree, incons, sumH, ctxI, ctxPhi, Frame.sibling,
        heightOr_node, List.length_cons, hst0, hd, and_true]
      omega
    | inRight fl fd =>
      simp only [Loc.parent, Option.some.injEq] at h
      subst h
      simp only [Loc.mI, Loc.mPhi, Loc.toTree, incons, sumH, ctxI, ctxPhi, Frame.sibling,
        heightOr_node, List.length_cons, hst0, hd, and_true]
      rw [max_comm fl.heightOr]
      omega

theorem rotOK_of (l r l1 r1 : node_ptr) (d d1 : node_) (f : Frame) (k : List Frame)
    (hst : staleH l1 d1 r1 = 0)
    (hA : (incons l1 : Int) + incons r1 + incons f.sibling ≤ incons l + incons r)
    (hB : (incons l1 : Int) + incons r1 + incons f.sibling = incons l + incons r →
      max (max l1.heightOr r1.heightOr + 1) f.sibling.heightOr ≤ max l.heightOr r.heightOr ∧
      (max l1.heightOr r1.heightOr + sumH l1 + sumH r1
            + max (max l1.heightOr r1.heightOr + 1) f.sibling.heightOr + 1 + sumH f.sibling
          < max l.heightOr r.heightOr + sumH l + sumH r ∨
        (max l1.heightOr r1.heightOr + sumH l1 + sumH r1
            + max (max l1.heightOr r1.heightOr + 1) f.sibling.heightOr + 1 + sumH f.sibling
            = max l.heightOr r.heightOr + sumH l + sumH r ∧
          ¬ (l1.heightOr - r1.heightOr = 2 ∨ l1.heightOr - r1.heightOr = -2) ∧
          ¬ (f.sibling.heightOr - (max l1.heightOr r1.heightOr + 1) = 2 ∨
              f.sibling.heightOr - (max l1.heightOr r1.heightOr + 1) = -2)))) :
    RotOK ⟨l1, d1, r1, f :: k⟩ ⟨l, d, r, k⟩ := by
  have a1 := heightOr_ge l
  have a2 := heightOr_ge l1
  have a3 := heightOr_ge r
  have a4 := heightOr_ge r1
  have a5 := heightOr_ge f.sibling
  have hm := ctxPhi_mono k (max (max l1.heightOr r1.heightOr + 1) f.sibling.heightOr + 1)
    (max l.heightOr r.heightOr + 1)
  refine ⟨hst, rfl, ?_⟩
  simp only [staleH] at hst
  have hd : (d1.height : Int) = max l1.heightOr r1.heightOr + 1 := by
    by_contra hne; rw [if_neg hne] at hst; omega
  have hT : -1 ≤ max l.heightOr r.heightOr := le_trans a1 (le_max_left _ _)
  have hT1 : -1 ≤ max l1.heightOr r1.heightOr := le_trans a2 (le_max_left _ _)
  have hU : 0 ≤ max (max l1.heightOr r1.heightOr + 1) f.sibling.heightOr :=
    le_trans (by omega) (le_max_left _ _)
  have hpar : ∀ p, (Loc.mk l1 d1 r1 (f :: k)).parent = some p →
      (getBf p.left p.right = 2 ∨ getBf p.left p.right = -2) →
      (f.sibling.heightOr - (max l1.heightOr r1.heightOr + 1) = 2 ∨
        f.sibling.heightOr - (max l1.heightOr r1.heightOr + 1) = -2) := by
    intro p hp
    cases f with
    | inLeft fd fr =>
      simp only [Loc.parent, Option.some.injEq] at hp
      subst hp
      simp only [Loc.toTree, heightOr_node, hd, Frame.sibling, getBf]
      omega
    | inRight fl fd =>
      simp only [Loc.parent, Option.some.injEq] at hp
      subst hp
      simp only [Loc.toTree, heightOr_node, hd, Frame.sibling, getBf]
      omega
  simp only [mu2Lt, Loc.mI, Loc.mPhi, ctxI, ctxPhi, getBf]
  generalize max (max l1.heightOr r1.heightOr + 1) f.sibling.heightOr = U at *
  generalize max l.heightOr r.heightOr = T at *
  generalize max l1.heightOr r1.heightOr = T1 at *
  rcases lt_or_eq_of_le hA with hlt | heq
  · left; left; omega
  · obtain ⟨hU, hP⟩ := hB heq
    have hm1 := hm (by omega)
    rcases hP with hP | ⟨hP1, hP2, hP3⟩
    · left; right; omega
    · by_cases he : ctxPhi (U + 1) k = ctxPhi (T + 1) k
      · right
        refine ⟨by omega, by omega, hP2, ?_⟩
        intro p hp hbf
        exact hP3 (hpar p hp hbf)
      · left; right; omega

theorem rotLL_ok (ll lr r : node_ptr) (ld d : node_) (k : List Frame)
    (hb : (ld.height : Int) - r.heightOr = 2) (hlb : ll.heightOr - lr.heightOr ≥ 0) :
    RotOK (rotationLL ⟨node ll ld lr, d, r, k⟩) ⟨node ll ld lr, d, r, k⟩ := by
  have hr := heightOr_ge r
  have hll := heightOr_ge ll
  have hlr := heightOr_ge lr
  have c1 := staleH_cases ll lr ld
  simp only [rotationLL]
  apply rotOK_of
  · exact staleH_refresh _ _ _
  · simp only [incons, sumH, heightOr_node, refresh_height_cast, Frame.sibling, Nat.cast_add,
    staleH_refresh, Nat.cast_zero]
    omega
  · simp only [incons, sumH, heightOr_node, refresh_height_cast, Frame.sibling, Nat.cast_add,
    staleH_refresh, Nat.cast_zero]
    intro h0
    rcases c1 with ⟨c1a, c1b⟩ | c1a
    · refine ⟨by omega, ?_⟩
      omega
    · omega

theorem rotRR_ok (l rl rr : node_ptr) (rd d : node_) (k : List Frame)
    (hb : l.heightOr - (rd.height : Int) = -2) (hrb : rl.heightOr - rr.heightOr ≤ 0) :
    RotOK (rotationRR ⟨l, d, node rl rd rr, k⟩) ⟨l, d, node rl rd rr, k⟩ := by
  have hl := heightOr_ge l
  have hrl := heightOr_ge rl
  have hrr := heightOr_ge rr
  have c1 := staleH_cases rl rr rd
  simp only [rotationRR]
  apply rotOK_of
  · exact staleH_refresh _ _ _
  · simp only [incons, sumH, heightOr_node, refresh_height_cast, Frame.sibling, Nat.cast_add,
    staleH_refresh, Nat.cast_zero]
    omega
  · simp only [incons, sumH, heightOr_node, refresh_height_cast, Frame.sibling, Nat.cast_add,
    staleH_refresh, Nat.cast_zero]
    intro h0
    rcases c1 with ⟨c1a, c1b⟩ | c1a
    · refine ⟨by omega, ?_⟩
      omega
    · omega

theorem rotLR_ok (ll lra lrb r : node_ptr) (ld lrd d : node_) (k : List Frame)
    (hb : (ld.height : Int) - r.heightOr = 2) (hlb : ¬ ll.heightOr - (lrd.height : Int) ≥ 0) :
    RotOK (rotationLR ⟨node ll ld (node lra lrd lrb), d, r, k⟩)
      ⟨node ll ld (node lra lrd lrb), d, r, k⟩ := by
  have hr := heightOr_ge r
  have hll := heightOr_ge ll
  have hlra := heightOr_ge lra
  have hlrb := heightOr_ge lrb
  have c1 := staleH_cases ll (node lra lrd lrb) ld
  have c2 := staleH_cases lra lrb lrd
  simp only [heightOr_node] at c1
  simp only [rotationLR, rotRRsub, rotationLL]
  apply rotOK_of
  · exact staleH_refresh _ _ _
  · simp only [incons, sumH, heightOr_node, refresh_height_cast, Frame.sibling, Nat.cast_add,
    staleH_refresh, Nat.cast_zero]
    omega
  · simp only [incons, sumH, heightOr_node, refresh_height_cast, Frame.sibling, Nat.cast_add,
    staleH_refresh, Nat.cast_zero]
    intro h0
    rcases c1 with ⟨c1a, c1b⟩ | c1a
    · rcases c2 with ⟨c2a, c2b⟩ | c2a
      · refine ⟨by omega, ?_⟩
        omega
      · omega
    · omega

theorem rotRL_ok (l rla rlb rr : node_ptr) (rd rld d : node_) (k : List Frame)
    (hb : l.heightOr - (rd.height : Int) = -2) (hrb : ¬ (rld.height : Int) - rr.heightOr ≤ 0) :
    RotOK (rotationRL ⟨l, d, node (node rla rld rlb) rd rr, k⟩)
      ⟨l, d, node (node rla rld rlb) rd rr, k⟩ := by
  have hl := heightOr_ge l
  have hrr := heightOr_ge rr
  have hrla := heightOr_ge rla
  have hrlb := heightOr_ge rlb
  have c1 := staleH_cases (node rla rld rlb) rr rd
  have c2 := staleH_cases rla rlb rld
  simp only [heightOr_node] at c1
  simp only [rotationRL, rotLLsub, rotationRR]
  apply rotOK_of
  · exact staleH_refresh _ _ _
  · simp only [incons, sumH, heightOr_node, refresh_height_cast, Frame.sibling, Nat.cast_add,
    staleH_refresh, Nat.cast_zero]
    omega
  · simp only [incons, sumH, heightOr_node, refresh_height_cast, Frame.sibling, Nat.cast_add,
    staleH_refresh, Nat.cast_zero]
    intro h0
    rcases c1 with ⟨c1a, c1b⟩ | c1a
    · rcases c2 with ⟨c2a, c2b⟩ | c2a
      · refine ⟨by omega, ?_⟩
        omega
      · omega
    · omega

/-- The first test of `checkBfAndRotate`. -/
def firstTest (curr : Loc) : Loc :=
  if getBf curr.left curr.right = 2 then
    (if curr.left.bf ≥ 0 then rotationLL curr else rotationLR curr)
  else curr

/-- The second test of `checkBfAndRotate`, on the node left by the first test. -/
def secondTest (c1 : Loc) : Loc :=
  if getBf c1.left c1.right = -2 then
    (if c1.right.bf ≤ 0 then rotationRR c1 else rotationRL c1)
  else c1

theorem checkBfAndRotate_eq (curr : Loc) :
    checkBfAndRotate curr = secondTest (firstTest curr) := rfl

theorem firstTest_ok (c : Loc) :
    (¬ getBf c.left c.right = 2 ∧ firstTest c = c) ∨
    (getBf c.left c.right = 2 ∧ RotOK (firstTest c) c) := by
  obtain ⟨l, d, r, k⟩ := c
  have hr := heightOr_ge r
  simp only [firstTest, getBf]
  by_cases hb : l.heightOr - r.heightOr = 2
  · right
    refine ⟨hb, ?_⟩
    rw [if_pos hb]
    cases l with
    | nil => simp at hb; omega
    | node ll ld lr =>
      simp only [heightOr_node] at hb
      by_cases hlb : (node ll ld lr).bf ≥ 0
      · rw [if_pos hlb]
        exact rotLL_ok ll lr r ld d k hb hlb
      · rw [if_neg hlb]
        cases lr with
        | nil => have := heightOr_ge ll; simp [node_ptr.bf, getBf] at hlb; omega
        | node lra lrd lrb => exact rotLR_ok ll lra lrb r ld lrd d k hb hlb
  · left
    exact ⟨hb, if_neg hb⟩

theorem secondTest_ok (c : Loc) :
    (¬ getBf c.left c.right = -2 ∧ secondTest c = c) ∨
    (getBf c.left c.right = -2 ∧ RotOK (secondTest c) c) := by
  obtain ⟨l, d, r, k⟩ := c
  have hl := heightOr_ge l
  simp only [secondTest, getBf]
  by_cases hb : l.heightOr - r.heightOr = -2
  · right
    refine ⟨hb, ?_⟩
    rw [if_pos hb]
    cases r with
    | nil => simp at hb; omega
    | node rl rd rr =>
      simp only [heightOr_node] at hb
      by_cases hrb : (node rl rd rr).bf ≤ 0
      · rw [if_pos hrb]
        exact rotRR_ok l rl rr rd d k hb hrb
      · rw [if_neg hrb]
        cases rl with
        | nil => have := heightOr_ge rr; simp [node_ptr.bf, getBf] at hrb; omega
        | node rla rld rlb => exact rotRL_ok l rla rlb rr rd rld d k hb hrb
  · left
    exact ⟨hb, if_neg hb⟩

theorem mFlag_le (c : Loc) : c.mFlag ≤ 2 * c.ctx.length + 1 := by
  simp only [Loc.mFlag]; split <;> omega

theorem mFlag_of_bf (c : Loc) (h : getBf c.left c.right = 2 ∨ getBf c.left c.right = -2) :
    c.mFlag = 2 * c.ctx.length + 1 := by
  simp only [Loc.mFlag]; rw [if_pos h]

theorem mFlag_of_not_bf (c : Loc) (h : ¬ (getBf c.left c.right = 2 ∨ getBf c.left c.right = -2)) :
    c.mFlag = 2 * c.ctx.length := by
  simp only [Loc.mFlag]; rw [if_neg h]; rfl

theorem rebalanceStep_decreases (curr p : Loc) (h : (rebalanceStep curr).parent = some p) :
    Prod.Lex (fun a₁ a₂ => a₁ < a₂) (Prod.Lex (fun a₁ a₂ => a₁ < a₂) fun a₁ a₂ => a₁ < a₂)
      (p.mI, p.mPhi, p.mFlag) (curr.mI, curr.mPhi, curr.mFlag) := by
  rw [lex3_iff]
  simp only [rebalanceStep, checkBfAndRotate_eq] at h
  generalize hc0 : (Loc.mk curr.left (refresh curr.left curr.d curr.right) curr.right curr.ctx) = c0 at h
  have e1 : c0.mI = curr.mI := by subst hc0; rfl
  have e2 : c0.mPhi = curr.mPhi := by subst hc0; rfl
  have e3 : c0.mFlag = curr.mFlag := by subst hc0; rfl
  have st0 : staleH c0.left c0.d c0.right = 0 := by subst hc0; exact staleH_refresh _ _ _
  rw [← e1, ← e2, ← e3]
  have fp := mFlag_le p
  rcases firstTest_ok c0 with ⟨hb1, hf⟩ | ⟨hb1, hst1, hlen1, hr1⟩
  · rw [hf] at h
    rcases secondTest_ok c0 with ⟨hb2, hs⟩ | ⟨hb2, hst2, hlen2, hr2⟩
    · rw [hs] at h
      obtain ⟨u1, u2, u3⟩ := up_measure c0 p st0 h
      have := mFlag_of_not_bf c0 (by omega)
      omega
    · obtain ⟨u1, u2, u3⟩ := up_measure _ p hst2 h
      have f0 := mFlag_of_bf c0 (Or.inr hb2)
      rcases hr2 with hlt | ⟨q1, q2, q3, q4⟩
      · simp only [mu2Lt] at hlt; omega
      · have := mFlag_of_not_bf p (q4 p h)
        omega
  · have f0 := mFlag_of_bf c0 (Or.inl hb1)
    rcases secondTest_ok (firstTest c0) with ⟨hb2, hs⟩ | ⟨hb2, hst2, hlen2, hr2⟩
    · rw [hs] at h
      obtain ⟨u1, u2, u3⟩ := up_measure _ p hst1 h
      rcases hr1 with hlt | ⟨q1, q2, q3, q4⟩
      · simp only [mu2Lt] at hlt; omega
      · have := mFlag_of_not_bf p (q4 p h)
        omega
    · obtain ⟨u1, u2, u3⟩ := up_measure _ p hst2 h
      rcases hr1 with hlt | ⟨q1, q2, q3, q4⟩
      · simp only [mu2Lt] at hlt
        rcases hr2 with hlt2 | ⟨r1, r2, r3, r4⟩
        · simp only [mu2Lt] at hlt2; omega
        · omega
      · exact absurd (Or.inr hb2) q3

/-- Function `checkBfAndRotateFromNodeToRoot(curr)` for a non-null `curr`: refresh the
node, `checkBfAndRotate`, then the same from `curr_->parent`; when the parent is null
the node is the root of the tree, which is the result. -/
def checkBfAndRotateFromNodeToRoot (curr : Loc) : node_ptr :=
  match h : (rebalanceStep curr).parent with
  | none => (rebalanceStep curr).toTree
  | some p => checkBfAndRotateFromNodeToRoot p
termination_by (curr.mI, curr.mPhi, curr.mFlag)
decreasing_by exact rebalanceStep_decreases curr p h

/-- Evaluation twin of `checkBfAndRotateFromNodeToRoot` with an explicit step budget. -/
def rebalanceFuel : Nat → Loc → Option node_ptr
  | 0, _ => none
  | n + 1, curr =>
    match (rebalanceStep curr).parent with
    | none => some (rebalanceStep curr).toTree
    | some p => rebalanceFuel n p

/-! ## Search, minimum and maximum -/

/-- Function `findNodeInSubTree(root, key)`.  The ancestors of `root` are carried along,
so that the result is the found node with its parent chain (`none` is `nullptr`). -/
def findNodeInSubTree : node_ptr → List Frame → tree_t → Option Loc
  | nil, _, _ => none
  | node l d r, k, key =>
    if opEq d.value key then some ⟨l, d, r, k⟩
    else if opGt d.value key then findNodeInSubTree l (Frame.inLeft d r :: k) key
    else findNodeInSubTree r (Frame.inRight l d :: k) key

/-- Recursion of `getMinInSubTree` on the fields of a non-null node. -/
def getMinAux : node_ptr → node_ → node_ptr → List Frame → Loc
  | nil, d, r, k => ⟨nil, d, r, k⟩
  | node ll ld lr, d, r, k => getMinAux ll ld lr (Frame.inLeft d r :: k)

/-- Function `getMinInSubTree(curr)` for a non-null `curr`. -/
def getMinInSubTree (curr : Loc) : Loc := getMinAux curr.left curr.d curr.right curr.ctx

/-- Recursion of `getMaxInSubTree` on the fields of a non-null node. -/
def getMaxAux : node_ptr → node_ → node_ptr → List Frame → Loc
  | l, d, nil, k => ⟨l, d, nil, k⟩
  | l, d, node rl rd rr, k => getMaxAux rl rd rr (Frame.inRight l d :: k)

/-- Function `getMaxInSubTree(curr)` for a non-null `curr`. -/
def getMaxInSubTree (curr : Loc) : Loc := getMaxAux curr.left curr.d curr.right curr.ctx

/-- The pointer `curr->right` with its parent chain. -/
def Loc.rightChild (c : Loc) : Option Loc := c.right.toLoc (Frame.inRight c.left c.d :: c.ctx)

/-- The pointer `curr->left` with its parent chain. -/
def Loc.leftChild (c : Loc) : Option Loc := c.left.toLoc (Frame.inLeft c.d c.right :: c.ctx)

/-- Function `getNextNodeInSubTree(curr)`; the source asserts `curr->right != nullptr`
(`none` otherwise).  When `curr->right->left` is null the result is `curr->right`. -/
def getNextNodeInSubTree (curr : Loc) : Option Loc :=
  match curr.rightChild with
  | none => none
  | some rc => if rc.left = nil then some rc else some (getMinInSubTree rc)

/-! ## The tree object -/

/-- Exceptions thrown by the two headers. -/
inductive Error where
  | elementNotExsist : Error
  | iteratorIsNullptr : Error
  | notEnoughElements : Error
  | badIndex : Error
  deriving DecidableEq, Repr

/-- Class `avlTree`: `root`, `size`, `max`, `min`. -/
structure avlTree where
  root : node_ptr
  size : Int
  max : Option Loc
  min : Option Loc
  deriving DecidableEq, Repr

/-- Constructor `avlTree()`. -/
def avlTree.empty : avlTree := ⟨nil, 0, none, none⟩

/-- Method `reset()`. -/
def avlTree.reset (_t : avlTree) : avlTree := ⟨nil, 0, none, none⟩

/-- Method `getSize()`. -/
def avlTree.getSize (t : avlTree) : Int := t.size

/-- The call `getMinInSubTree(root)` (asserted non-null in the source). -/
def minOfRoot (root : node_ptr) : Option Loc := (root.toLoc []).map getMinInSubTree

/-- The call `getMaxInSubTree(root)` (asserted non-null in the source). -/
def maxOfRoot (root : node_ptr) : Option Loc := (root.toLoc []).map getMaxInSubTree

/-- Method `getMin()`; dereferences `min` (`none` when it is null). -/
def avlTree.getMin (t : avlTree) : Option tree_t := t.min.map (fun c => c.d.value)

/-- Method `getMax()`; dereferences `max` (`none` when it is null). -/
def avlTree.getMax (t : avlTree) : Option tree_t := t.max.map (fun c => c.d.value)

/-- Method `isContain(id, salary)`. -/
def avlTree.isContain (t : avlTree) (id salary : Int) : Bool :=
  (findNodeInSubTree t.root [] ⟨id, salary, 0⟩).isSome

/-- Method `find(id, salary)`; throws `elementNotExsist`. -/
def avlTree.find (t : avlTree) (id salary : Int) : Except Error tree_t :=
  match findNodeInSubTree t.root [] ⟨id, salary, 0⟩ with
  | none => Except.error Error.elementNotExsist
  | some c => Except.ok c.d.value

/-! ## Insertion -/

/-- Function `insertNodeToSubTree(root, new_node)`: descend by `operator>` and hang the
new node in the first null slot (`setLeft` / `setRight`); on a null `root` the slot is the
root itself (`setRoot` in `insert`).  The result is the new node with its parent chain. -/
def insertNodeToSubTree : node_ptr → List Frame → node_ → Loc
  | nil, k, nw => ⟨nil, nw, nil, k⟩
  | node l d r, k, nw =>
    if opGt d.value nw.value then insertNodeToSubTree l (Frame.inLeft d r :: k) nw
    else insertNodeToSubTree r (Frame.inRight l d :: k) nw

/-- Method `insert(value)`. -/
def avlTree.insert (t : avlTree) (value : tree_t) : avlTree :=
  if t.isContain value.id value.salary then t
  else
    let new_node := insertNodeToSubTree t.root [] (node_.ofValue value)
    let root1 := checkBfAndRotateFromNodeToRoot new_node
    ⟨root1, t.size + 1, maxOfRoot root1, minOfRoot root1⟩

/-! ## Removal -/

/-- The parent node of a frame, with `t` in the child slot (`replaceChild`). -/
def Frame.toParent : Frame → node_ptr → List Frame → Loc
  | Frame.inLeft d r, t, k => ⟨t, d, r, k⟩
  | Frame.inRight l d, t, k => ⟨l, d, t, k⟩

/-- Function `removeLeaf(to_remove)`: the root after the call and the returned parent. -/
def removeLeaf (to_remove : Loc) : node_ptr × Option Loc :=
  match to_remove.ctx with
  | [] => (nil, none)
  | f :: k => ((f.toParent nil k).root, some (f.toParent nil k))

/-- Function `removeNodeWithOneChild(to_remove)`: the root after the call and the
returned parent. -/
def removeNodeWithOneChild (to_remove : Loc) : node_ptr × Option Loc :=
  let child_of_removed := if to_remove.left ≠ nil then to_remove.left else to_remove.right
  match to_remove.ctx with
  | [] => (child_of_removed, none)
  | f :: k => ((f.toParent child_of_removed k).root, some (f.toParent child_of_removed k))

/-- Function `removeNodeWithTwoChilds(to_remove)`: the values of `to_remove` and of its
in-order successor are swapped, then the successor node is removed. -/
def removeNodeWithTwoChilds (to_remove : Loc) : node_ptr × Option Loc :=
  match getNextNodeInSubTree to_remove with
  | none => (to_remove.root, none)
  | some nx0 =>
    match getNextNodeInSubTree { to_remove with d := { to_remove.d with value := nx0.d.value } } with
    | none => (to_remove.root, none)
    | some nx1 =>
      let next_node : Loc := { nx1 with d := { nx1.d with value := to_remove.d.value } }
      if next_node.right = nil then removeLeaf next_node
      else removeNodeWithOneChild next_node

/-- Function `removeNodeInSubTree(root, key)`: the root after the call and the returned
parent of the removed node.  The source asserts that the key is found. -/
def removeNodeInSubTree (root : node_ptr) (key : tree_t) : node_ptr × Option Loc :=
  match findNodeInSubTree root [] key with
  | none => (root, none)
  | some to_remove =>
    if to_remove.right = nil ∧ to_remove.left = nil then removeLeaf to_remove
    else if to_remove.right = nil ∨ to_remove.left = nil then removeNodeWithOneChild to_remove
    else removeNodeWithTwoChilds to_remove

/-- The call `checkBfAndRotateFromNodeToRoot(parent)` after a removal that left `root`:
a null `parent` returns at once. -/
def rebalanceFrom (root : node_ptr) (parent : Option Loc) : node_ptr :=
  match parent with
  | none => root
  | some p => checkBfAndRotateFromNodeToRoot p

/-- Method `remove(id, salary)`. -/
def avlTree.remove (t : avlTree) (id salary : Int) : avlTree :=
  if t.isContain id salary = false then t
  else
    let res := removeNodeInSubTree t.root ⟨id, salary, 0⟩
    let root1 := rebalanceFrom res.1 res.2
    let size1 := t.size - 1
    ⟨root1, size1, if size1 = 0 then none else maxOfRoot root1,
      if size1 = 0 then none else minOfRoot root1⟩

/-! ## Iterator -/

/-- The `while` loop of `iterator::operator++(int)`: walk up until the node is reached
from a left-child edge; past the root the iterator is `nullptr`.  The argument is the
subtree rooted at `curr` and the ancestors of `curr`. -/
def climb : node_ptr → List Frame → Option Loc
  | _, [] => none
  | t, Frame.inLeft d r :: k => some ⟨t, d, r, k⟩
  | t, Frame.inRight l d :: k => climb (node l d t) k

/-- Operator `iterator::operator++(int)` on the field `curr` (`none` is `nullptr`). -/
def iteratorNext (curr : Option Loc) : Option Loc :=
  match curr with
  | none => none
  | some c => if c.right ≠ nil then getNextNodeInSubTree c else climb c.toTree c.ctx

/-- Method `begin()`: the field `curr` of the iterator. -/
def avlTree.begin (t : avlTree) : Option Loc := t.min

/-- Method `end()`: the field `curr` of the iterator. -/
def avlTree.endIt (_t : avlTree) : Option Loc := none

/-- Operator `iterator::operator==` on the fields `curr`. -/
def iteratorEq (a b : Option Loc) : Bool :=
  match a, b with
  | none, none => true
  | none, some _ => false
  | some _, none => false
  | some x, some y => opEq x.d.value y.d.value

/-- Number of nodes of a subtree. -/
def numNodes : node_ptr → Nat
  | nil => 0
  | node l _ r => numNodes l + 1 + numNodes r

/-- Number of nodes that follow the hole of a context in in-order. -/
def ctxAfter : List Frame → Nat
  | [] => 0
  | Frame.inLeft _ r :: k => 1 + numNodes r + ctxAfter k
  | Frame.inRight _ _ :: k => ctxAfter k

/-- Number of nodes that follow an iterator position in in-order, plus one for the
position itself. -/
def iterRemaining : Option Loc → Nat
  | none => 0
  | some c => 1 + numNodes c.right + ctxAfter c.ctx

/-! ## Range queries -/

/-- Function `findLeftBorderInSubTree(root, salary)`; the result is the found node (its
subtree), `nil` for `nullptr`. -/
def findLeftBorderInSubTree : node_ptr → Int → node_ptr
  | nil, _ => nil
  | node nil d r, salary =>
    if d.value.salary = salary then node nil d r
    else if d.value.salary < salary then findLeftBorderInSubTree r salary
    else node nil d r
  | node (node ll ld lr) d r, salary =>
    if d.value.salary = salary then
      (match findLeftBorderInSubTree (node ll ld lr) salary with
        | nil => node (node ll ld lr) d r
        | node a b c => node a b c)
    else if d.value.salary < salary then findLeftBorderInSubTree r salary
    else if ld.value.salary < salary then
      (match findLeftBorderInSubTree lr salary with
        | nil => node (node ll ld lr) d r
        | node a b c => node a b c)
    else findLeftBorderInSubTree (node ll ld lr) salary

/-- Function `findRightBorderInSubTree(root, salary)`, the mirror image. -/
def findRightBorderInSubTree : node_ptr → Int → node_ptr
  | nil, _ => nil
  | node l d nil, salary =>
    if d.value.salary = salary then node l d nil
    else if d.value.salary > salary then findRightBorderInSubTree l salary
    else node l d nil
  | node l d (node rl rd rr), salary =>
    if d.value.salary = salary then
      (match findRightBorderInSubTree (node rl rd rr) salary with
        | nil => node l d (node rl rd rr)
        | node a b c => node a b c)
    else if d.value.salary > salary then findRightBorderInSubTree l salary
    else if rd.value.salary > salary then
      (match findRightBorderInSubTree rl salary with
        | nil => node l d (node rl rd rr)
        | node a b c => node a b c)
    else findRightBorderInSubTree (node rl rd rr) salary

/-- Function `sumNodesToNode(root, to_find, sum)`; `to_find` is non-null at every call. -/
def sumNodesToNode : node_ptr → node_ptr → Int → Int
  | _, nil, _ => 0
  | nil, _, _ => 0
  | node l d r, node tl td tr, sum =>
    if opEq d.value td.value then sum + 1 + l.w2Or
    else if opLt d.value td.value then sumNodesToNode r (node tl td tr) (sum + l.w2Or + 1)
    else if opGt d.value td.value then sumNodesToNode l (node tl td tr) sum
    else 0

/-- Function `sumGradesToNode(root, to_find, sum)`, in `int` arithmetic. -/
def sumGradesToNode : node_ptr → node_ptr → Int → Int
  | _, nil, _ => 0
  | nil, _, _ => 0
  | node l d r, node tl td tr, sum =>
    if opEq d.value td.value then wrap32 (wrap32 (sum + d.value.grade) + l.w1Or)
    else if opLt d.value td.value then
      sumGradesToNode r (node tl td tr) (wrap32 (wrap32 (sum + l.w1Or) + d.value.grade))
    else if opGt d.value td.value then sumGradesToNode l (node tl td tr) sum
    else 0

/-- Method `getSumOfNodesFromStartToEnd(start, end)`. -/
def avlTree.getSumOfNodesFromStartToEnd (t : avlTree) (start stop : Int) : Int :=
  match findLeftBorderInSubTree t.root start, findRightBorderInSubTree t.root stop with
  | nil, _ => 0
  | _, nil => 0
  | node sl sd sr, node el ed er =>
    sumNodesToNode t.root (node el ed er) 0 - sumNodesToNode t.root (node sl sd sr) 0 + 1

/-- Method `getSumOfGradesFromStartToEnd(start, end)`, in `int` arithmetic. -/
def avlTree.getSumOfGradesFromStartToEnd (t : avlTree) (start stop : Int) : Int :=
  match findLeftBorderInSubTree t.root start, findRightBorderInSubTree t.root stop with
  | nil, _ => 0
  | _, nil => 0
  | node sl sd sr, node el ed er =>
    wrap32
      (wrap32 (sumGradesToNode t.root (node el ed er) 0
        - sumGradesToNode t.root (node sl sd sr) 0) + sd.value.grade)

/-- Function `findIndexAux(root, m, sum)`; the result is the found node (its subtree),
`nil` for `nullptr`. -/
def findIndexAux : node_ptr → Int → Int → node_ptr
  | nil, _, _ => nil
  | node l d r, m, sum =>
    if l.w2Or + 1 = m - sum then node l d r
    else if l.w2Or + 1 < m - sum then findIndexAux r m (sum + l.w2Or + 1)
    else if l.w2Or + 1 > m - sum then findIndexAux l m sum
    else nil

/-- Method `getSumGradesOfTopNodes(m)`; throws `notEnoughElements` when `size < m`.  The
returned expression reads `root->w1` without a null test: the result is `none` when the
read dereferences a null `root`.  The subtraction of the two grade sums is an `int`
subtraction. -/
def avlTree.getSumGradesOfTopNodes (t : avlTree) (m : Int) : Except Error (Option Int) :=
  if t.size < m then Except.error Error.notEnoughElements
  else
    let n_m_node := findIndexAux t.root (t.size - m) 0
    match t.root with
    | nil => Except.ok none
    | node _ d _ => Except.ok (some (wrap32 (d.w1 - sumGradesToNode t.root n_m_node 0)))

/-! ## Merge (`extend`) -/

/-- The loop of `getArrayFromTree`: `for (it = begin; it != end; it++) arr[i++] = *it`
on an array with `room` free cells left; `operator[]` throws `badIndex` past the end. -/
def fillArray : Nat → Option Loc → List tree_t → Except Error (List tree_t)
  | room, none, acc => Except.ok (acc ++ List.replicate room ⟨0, 0, 0⟩)
  | 0, some _, _ => Except.error Error.badIndex
  | room + 1, some c, acc => fillArray room (iteratorNext (some c)) (acc ++ [c.d.value])

/-- Function `getArrayFromTree(tree)`: an array of `getSize()` cells filled by iteration. -/
def getArrayFromTree (t : avlTree) : Except Error (List tree_t) :=
  fillArray t.getSize.toNat t.begin []

/-- Function `myArray_::mergeArrays(arr1, arr2)` on the sequences of the array cells:
the two-pointer merge; the element of `arr1` is taken when `arr2[ib] > arr1[ia]`,
otherwise the element of `arr2`.  The loops with their indices are `myArray_.mergeArrays`
below, which returns this sequence (`mergeArrays_loops`). -/
def mergeArrays : List tree_t → List tree_t → List tree_t
  | [], bs => bs
  | a :: as, [] => a :: as
  | a :: as, b :: bs =>
    if opGt b a then a :: mergeArrays as (b :: bs) else b :: mergeArrays (a :: as) bs

/-- Operator `myArray_::operator[]` used for reading: `badIndex` outside `[0, size)`.
The indices of `mergeArrays` start at 0 and only grow, so they are natural numbers. -/
def myArray_.read (arr : List tree_t) (i : Nat) : Except Error tree_t :=
  match arr[i]? with
  | some v => Except.ok v
  | none => Except.error Error.badIndex

/-- Operator `myArray_::operator[]` used as the target of an assignment. -/
def myArray_.write (arr : List tree_t) (i : Nat) (v : tree_t) : Except Error (List tree_t) :=
  if i < arr.length then Except.ok (arr.set i v) else Except.error Error.badIndex

/-- First loop of `myArray_::mergeArrays`, `while (ia < arr1.size && ib < arr2.size)`, on
the state `ia`, `ib`, `merge_array`; every round adds one to `ia + ib`, so the loop makes
at most `arr1.size + arr2.size` rounds. -/
def myArray_.mergeBoth (arr1 arr2 : List tree_t) :
    Nat → Nat → Nat → List tree_t → Except Error (Nat × Nat × List tree_t)
  | 0, ia, ib, m => Except.ok (ia, ib, m)
  | fuel + 1, ia, ib, m =>
    if ia < arr1.length ∧ ib < arr2.length then
      match myArray_.read arr2 ib, myArray_.read arr1 ia with
      | Except.error e, _ => Except.error e
      | _, Except.error e => Except.error e
      | Except.ok b, Except.ok a =>
        if opGt b a then
          match myArray_.write m (ia + ib) a with
          | Except.error e => Except.error e
          | Except.ok m1 => myArray_.mergeBoth arr1 arr2 fuel (ia + 1) ib m1
        else
          match myArray_.write m (ia + ib) b with
          | Except.error e => Except.error e
          | Except.ok m1 => myArray_.mergeBoth arr1 arr2 fuel ia (ib + 1) m1
    else Except.ok (ia, ib, m)

/-- Second and third loop of `myArray_::mergeArrays`: copy the rest of `arr` from index
`i` on to `merge_array[j + i]`, where `j` is the index into the other array. -/
def myArray_.mergeRest (arr : List tree_t) :
    Nat → Nat → Nat → List tree_t → Except Error (Nat × List tree_t)
  | 0, _, i, m => Except.ok (i, m)
  | fuel + 1, j, i, m =>
    if i < arr.length then
      match myArray_.read arr i with
      | Except.error e => Except.error e
      | Except.ok v =>
        match myArray_.write m (j + i) v with
        | Except.error e => Except.error e
        | Except.ok m1 => myArray_.mergeRest arr fuel j (i + 1) m1
    else Except.ok (i, m)

/-- Function `myArray_::mergeArrays(arr1, arr2)` with its index arithmetic and the bound
checks of `operator[]`.  The assertion on `isSorted` is a precondition of the call. -/
def myArray_.mergeArrays (arr1 arr2 : List tree_t) : Except Error (List tree_t) :=
  let merge_array := List.replicate (arr1.length + arr2.length) (⟨0, 0, 0⟩ : tree_t)
  match myArray_.mergeBoth arr1 arr2 (arr1.length + arr2.length) 0 0 merge_array with
  | Except.error e => Except.error e
  | Except.ok (ia, ib, m1) =>
    match myArray_.mergeRest arr2 arr2.length ia ib m1 with
    | Except.error e => Except.error e
    | Except.ok (ib2, m2) =>
      match myArray_.mergeRest arr1 arr1.length ib2 ia m2 with
      | Except.error e => Except.error e
      | Except.ok (_, m3) => Except.ok m3

/-- Method `myArray_::isSorted`. -/
def isSorted : List tree_t → Bool
  | [] => true
  | [_] => true
  | a :: b :: rest => if opGt a b then false else isSorted (b :: rest)

/-- The loop of `getHeightAndNumOfNodesInCompleteBinaryTree`: state `h`, `k`, `m`. -/
def heightLoop (n : Int) : Nat → Int → Int → Int → Int × Int
  | 0, h, _, m => (h, m)
  | fuel + 1, h, k, m => if m < n then heightLoop n fuel (h + 1) (k * 2) (m + k * 2) else (h, m)

/-- Function `getHeightAndNumOfNodesInCompleteBinaryTree(n)`: the pair `(*height,
*number_of_nodes)`.  The loop adds at least 2 to `m` in each round, so `n` rounds suffice. -/
def getHeightAndNumOfNodesInCompleteBinaryTree (n : Int) : Int × Int :=
  heightLoop n n.toNat 0 1 1

/-- Complete tree with the given number of levels, as built by `createCompleteBinaryTree`:
default nodes, `updateheight` only. -/
def completeLevels : Nat → node_ptr
  | 0 => nil
  | n + 1 =>
    node (completeLevels n) (updateheight (completeLevels n) node_.default (completeLevels n))
      (completeLevels n)

/-- Function `createCompleteBinaryTree(h)`: null for `h < 0`. -/
def createCompleteBinaryTree (h : Int) : node_ptr := completeLevels (h + 1).toNat

/-- Function `removeLeafsFromTheRightInSubTree(root, leafs_to_remove)`: the subtree left
in the slot of `root` and the counter after the call; `hasParent` is `root->parent != nullptr`.
Cached heights are not touched. -/
def removeLeafsFromTheRightInSubTree : node_ptr → Bool → Int → node_ptr × Int
  | nil, _, c => (nil, c)
  | node l d r, hasParent, c =>
    let rr := removeLeafsFromTheRightInSubTree r true c
    if rr.2 > 0 ∧ rr.1 = nil ∧ l = nil ∧ hasParent = true then (nil, rr.2 - 1)
    else
      let ll := removeLeafsFromTheRightInSubTree l true rr.2
      (node ll.1 d rr.1, ll.2)

/-- Function `createAlmostCompleteBinaryTree(n)`. -/
def createAlmostCompleteBinaryTree (n : Int) : node_ptr :=
  let hm := getHeightAndNumOfNodesInCompleteBinaryTree n
  (removeLeafsFromTheRightInSubTree (createCompleteBinaryTree hm.1) false (hm.2 - n)).1

/-- Function `inorderTraversalWithFunctorAux(root, set_functor)` with the functor
`setNodeValue`: the argument list holds the cells `arr[i], arr[i+1], ...` not yet read;
reading past the end throws `badIndex`.  Each node is given its value in in-order, then
`updateW1` and `updateW2` after both subtrees are done. -/
def inorderTraversalWithFunctorAux : node_ptr → List tree_t →
    Except Error (node_ptr × List tree_t)
  | nil, vs => Except.ok (nil, vs)
  | node l d r, vs =>
    match inorderTraversalWithFunctorAux l vs with
    | Except.error e => Except.error e
    | Except.ok (l1, vs1) =>
      match vs1 with
      | [] => Except.error Error.badIndex
      | v :: vs2 =>
        match inorderTraversalWithFunctorAux r vs2 with
        | Except.error e => Except.error e
        | Except.ok (r1, vs3) =>
          Except.ok (node l1 (updateW2 l1 (updateW1 l1 { d with value := v } r1) r1) r1, vs3)

/-- Function `recursiveCopyOfSubTree(root)`: the copy constructor of `node_` keeps value,
height, w1 and w2. -/
def recursiveCopyOfSubTree : node_ptr → node_ptr
  | nil => nil
  | node l d r => node (recursiveCopyOfSubTree l) ⟨d.value, d.height, d.w1, d.w2⟩
      (recursiveCopyOfSubTree r)

/-- Operator `avlTree::operator=`. -/
def avlTree.assign (other : avlTree) : avlTree :=
  let root := recursiveCopyOfSubTree other.root
  ⟨root, other.size, maxOfRoot root, minOfRoot root⟩

/-- The loop of `IsIntersectionEmpty` over the iterator of `b`, cut after the given
number of rounds. -/
def intersectionLoop (a : avlTree) : Nat → Option Loc → Bool
  | _, none => true
  | 0, some _ => true
  | fuel + 1, some c =>
    if a.isContain c.d.value.id c.d.value.salary then false
    else intersectionLoop a fuel (iteratorNext (some c))

/-- Function `IsIntersectionEmpty(a, b)`; the loop over `b` makes `iterRemaining` rounds
before the iterator equals `end()`. -/
def IsIntersectionEmpty (a b : avlTree) : Bool :=
  if a.getSize = 0 ∨ b.getSize = 0 then true
  else intersectionLoop a (iterRemaining b.begin) b.begin

/-- Method `extend(other)`.  The assertion `IsIntersectionEmpty(*this, other)` is a
precondition of the call and is not part of the function. -/
def avlTree.extend (t other : avlTree) : Except Error avlTree :=
  if other.size = 0 then Except.ok t
  else if t.getSize = 0 then Except.ok (avlTree.assign other)
  else
    match getArrayFromTree t, getArrayFromTree other with
    | Except.error e, _ => Except.error e
    | _, Except.error e => Except.error e
    | Except.ok this_values, Except.ok other_values =>
      let merged_values := mergeArrays this_values other_values
      let len := t.getSize + other.getSize
      match inorderTraversalWithFunctorAux (createAlmostCompleteBinaryTree len) merged_values with
      | Except.error e => Except.error e
      | Except.ok (new_merge_tree, _) =>
        Except.ok ⟨new_merge_tree, len, maxOfRoot new_merge_tree, minOfRoot new_merge_tree⟩

/-! ## Verification: in-order sequence and the walk to the root -/

/-- In-order sequence of the records of a subtree. -/
def toList : node_ptr → List tree_t
  | nil => []
  | node l d r => toList l ++ d.value :: toList r

/-- Records that precede the hole of a context in in-order. -/
def ctxLeft : List Frame → List tree_t
  | [] => []
  | Frame.inLeft _ _ :: k => ctxLeft k
  | Frame.inRight l d :: k => ctxLeft k ++ (toList l ++ [d.value])

/-- Records that follow the hole of a context in in-order. -/
def ctxRight : List Frame → List tree_t
  | [] => []
  | Frame.inLeft d r :: k => (d.value :: toList r) ++ ctxRight k
  | Frame.inRight _ _ :: k => ctxRight k

theorem toList_zipUp (k : List Frame) : ∀ t : node_ptr,
    toList (zipUp t k) = ctxLeft k ++ toList t ++ ctxRight k := by
  induction k with
  | nil => intro t; simp [zipUp, ctxLeft, ctxRight]
  | cons f k ih =>
    intro t
    cases f with
    | inLeft d r => simp [zipUp, Frame.plug, ih, ctxLeft, ctxRight, toList]
    | inRight l d => simp [zipUp, Frame.plug, ih, ctxLeft, ctxRight, toList]

theorem Loc.parent_root (c p : Loc) (h : c.parent = some p) : p.root = c.root := by
  obtain ⟨l, d, r, k⟩ := c
  cases k with
  | nil => simp [Loc.parent] at h
  | cons f k =>
    cases f <;> simp only [Loc.parent, Option.some.injEq] at h <;> subst h <;>
      simp [Loc.root, Loc.toTree, zipUp, Frame.plug]

theorem Loc.parent_none (c : Loc) (h : c.parent = none) : c.toTree = c.root := by
  obtain ⟨l, d, r, k⟩ := c
  cases k with
  | nil => simp [Loc.root, zipUp]
  | cons f k => cases f <;> simp [Loc.parent] at h

/-- Induction principle for the walk to the root. -/
theorem rebalance_induct (Inv : Loc → Prop) (Q : node_ptr → Prop)
    (hstep : ∀ c p, Inv c → (rebalanceStep c).parent = some p → Inv p)
    (hend : ∀ c, Inv c → (rebalanceStep c).parent = none → Q (rebalanceStep c).toTree) :
    ∀ c, Inv c → Q (checkBfAndRotateFromNodeToRoot c) := by
  intro c
  induction c using checkBfAndRotateFromNodeToRoot.induct with
  | case1 c hnone =>
    intro hc
    rw [checkBfAndRotateFromNodeToRoot]
    split
    · exact hend c hc hnone
    · rename_i p hp; rw [hnone] at hp; cases hp
  | case2 c p hp ih =>
    intro hc
    rw [checkBfAndRotateFromNodeToRoot]
    split
    · rename_i hn; rw [hp] at hn; cases hn
    · rename_i q hq
      rw [hp] at hq; cases hq
      exact ih (hstep c p hc hp)

theorem rebalanceFuel_eq (n : Nat) : ∀ (c : Loc) (t : node_ptr),
    rebalanceFuel n c = some t → checkBfAndRotateFromNodeToRoot c = t := by
  induction n with
  | zero => intro c t h; simp [rebalanceFuel] at h
  | succ n ih =>
    intro c t h
    rw [checkBfAndRotateFromNodeToRoot]
    simp only [rebalanceFuel] at h
    split
    · rename_i hn; rw [hn] at h; simpa using h
    · rename_i p hp; rw [hp] at h; exact ih p t h


theorem toList_root (c : Loc) :
    toList c.root = ctxLeft c.ctx ++ (toList c.left ++ c.d.value :: toList c.right) ++ ctxRight c.ctx := by
  simp [Loc.root, Loc.toTree, toList_zipUp, toList]

theorem toList_rotLLsub (t : node_ptr) : toList (rotLLsub t) = toList t := by
  unfold rotLLsub
  split <;> simp [toList]

theorem toList_rotRRsub (t : node_ptr) : toList (rotRRsub t) = toList t := by
  unfold rotRRsub
  split <;> simp [toList]

theorem toList_rotationLL (x : Loc) : toList (rotationLL x).root = toList x.root := by
  obtain ⟨l, d, r, k⟩ := x
  cases l with
  | nil => rfl
  | node ll ld lr => simp [rotationLL, toList_root, toList, ctxLeft, ctxRight]

theorem toList_rotationRR (x : Loc) : toList (rotationRR x).root = toList x.root := by
  obtain ⟨l, d, r, k⟩ := x
  cases r with
  | nil => rfl
  | node rl rd rr => simp [rotationRR, toList_root, toList, ctxLeft, ctxRight]

theorem toList_rotationLR (x : Loc) : toList (rotationLR x).root = toList x.root := by
  unfold rotationLR
  rw [toList_rotationLL]
  simp [toList_root, toList_rotRRsub]

theorem toList_rotationRL (x : Loc) : toList (rotationRL x).root = toList x.root := by
  unfold rotationRL
  rw [toList_rotationRR]
  simp [toList_root, toList_rotLLsub]

theorem toList_firstTest (c : Loc) : toList (firstTest c).root = toList c.root := by
  unfold firstTest
  split
  · split
    · exact toList_rotationLL c
    · exact toList_rotationLR c
  · rfl

theorem toList_secondTest (c : Loc) : toList (secondTest c).root = toList c.root := by
  unfold secondTest
  split
  · split
    · exact toList_rotationRR c
    · exact toList_rotationRL c
  · rfl

theorem toList_rebalanceStep (c : Loc) : toList (rebalanceStep c).root = toList c.root := by
  simp only [rebalanceStep, checkBfAndRotate_eq, toList_secondTest, toList_firstTest]
  simp [toList_root]

theorem toList_rebalance (c : Loc) :
    toList (checkBfAndRotateFromNodeToRoot c) = toList c.root := by
  refine rebalance_induct (fun x => toList x.root = toList c.root)
    (fun t => toList t = toList c.root) ?_ ?_ c rfl
  · intro x p hx hp
    rw [Loc.parent_root _ p hp, toList_rebalanceStep]
    exact hx
  · intro x hx hn
    rw [Loc.parent_none _ hn, toList_rebalanceStep]
    exact hx

theorem numNodes_eq_length (t : node_ptr) : numNodes t = (toList t).length := by
  induction t with
  | nil => rfl
  | node l d r ihl ihr => simp [numNodes, toList, ihl, ihr]; omega

/-! ## The record order -/

/-- Strict record order: `a < b` by `operator<`. -/
def lt (a b : tree_t) : Prop := opLt a b = true

instance (a b : tree_t) : Decidable (lt a b) := by unfold lt; infer_instance

theorem lt_iff (a b : tree_t) :
    lt a b ↔ a.salary < b.salary ∨ (a.salary = b.salary ∧ a.id < b.id) := by
  unfold lt opLt
  split <;> simp_all

theorem opGt_iff (a b : tree_t) : opGt a b = true ↔ lt b a := by
  rw [lt_iff]
  unfold opGt
  split
  · simp_all
  · simp_all; omega

theorem opLt_iff (a b : tree_t) : opLt a b = true ↔ lt a b := Iff.rfl

theorem opEq_iff (a b : tree_t) : opEq a b = true ↔ a.id = b.id := by
  simp [opEq]

theorem lt_trans {a b c : tree_t} (h1 : lt a b) (h2 : lt b c) : lt a c := by
  rw [lt_iff] at *; omega

theorem lt_irrefl (a : tree_t) : ¬ lt a a := by
  rw [lt_iff]; omega

theorem lt_asymm {a b : tree_t} (h : lt a b) : ¬ lt b a := by
  rw [lt_iff] at *; omega

theorem lt_trichotomy (a b : tree_t) :
    lt a b ∨ lt b a ∨ (a.salary = b.salary ∧ a.id = b.id) := by
  simp only [lt_iff]; omega

theorem lt_of_not_lt_of_id_ne {a b : tree_t} (h : ¬ lt b a) (hid : a.id ≠ b.id) : lt a b := by
  rw [lt_iff] at *; omega

/-! ## Invariants -/

/-- BST invariant: at every node the records of the left subtree are smaller and the
records of the right subtree are larger than the record of the node. -/
def BST : node_ptr → Prop
  | nil => True
  | node l d r =>
    BST l ∧ BST r ∧ (∀ x ∈ toList l, lt x d.value) ∧ (∀ x ∈ toList r, lt d.value x)

instance BST.dec : (t : node_ptr) → Decidable (BST t)
  | nil => isTrue trivial
  | node l d r =>
    let _ := BST.dec l
    let _ := BST.dec r
    (inferInstance : Decidable
      (BST l ∧ BST r ∧ (∀ x ∈ toList l, lt x d.value) ∧ (∀ x ∈ toList r, lt d.value x)))

/-- The stored ids are pairwise distinct. -/
def DistinctIds (t : node_ptr) : Prop := (toList t).Pairwise (fun a b => a.id ≠ b.id)

instance (t : node_ptr) : Decidable (DistinctIds t) := by unfold DistinctIds; infer_instance

theorem BST_iff_sorted (t : node_ptr) : BST t ↔ (toList t).Pairwise lt := by
  induction t with
  | nil => simp [BST, toList]
  | node l d r ihl ihr =>
    simp only [BST, toList, List.pairwise_append, List.pairwise_cons, ihl, ihr, List.mem_cons]
    constructor
    · rintro ⟨h1, h2, h3, h4⟩
      refine ⟨h1, ⟨h4, h2⟩, ?_⟩
      intro a ha b hb
      rcases hb with rfl | hb
      · exact h3 a ha
      · exact lt_trans (h3 a ha) (h4 b hb)
    · rintro ⟨h1, ⟨h4, h2⟩, h5⟩
      exact ⟨h1, h2, fun x hx => h5 x hx d.value (Or.inl rfl), h4⟩


/-! ## Lookup -/

theorem find_spec (t : node_ptr) : ∀ (k : List Frame) (key : tree_t) (c : Loc),
    findNodeInSubTree t k key = some c →
    c.d.value.id = key.id ∧ c.root = zipUp t k ∧ c.d.value ∈ toList t := by
  induction t with
  | nil => intro k key c h; simp [findNodeInSubTree] at h
  | node l d r ihl ihr =>
    intro k key c h
    simp only [findNodeInSubTree] at h
    split at h
    · rename_i he
      simp only [Option.some.injEq] at h
      subst h
      exact ⟨(opEq_iff _ _).1 he, rfl, by simp [toList]⟩
    · split at h
      · obtain ⟨h1, h2, h3⟩ := ihl _ _ _ h
        exact ⟨h1, by rw [h2]; rfl, by simp [toList, h3]⟩
      · obtain ⟨h1, h2, h3⟩ := ihr _ _ _ h
        exact ⟨h1, by rw [h2]; rfl, by simp [toList, h3]⟩

theorem find_none_of_no_id (t : node_ptr) : ∀ (k : List Frame) (key : tree_t),
    (∀ x ∈ toList t, x.id ≠ key.id) → findNodeInSubTree t k key = none := by
  induction t with
  | nil => intro k key _; rfl
  | node l d r ihl ihr =>
    intro k key h
    simp only [findNodeInSubTree]
    have hd : opEq d.value key = false := by
      have := h d.value (by simp [toList])
      simp [opEq, this]
    rw [hd]
    simp only [Bool.false_eq_true, if_false]
    split
    · exact ihl _ _ (fun x hx => h x (by simp [toList, hx]))
    · exact ihr _ _ (fun x hx => h x (by simp [toList, hx]))

theorem find_of_mem (t : node_ptr) : ∀ (k : List Frame) (key r : tree_t),
    BST t → DistinctIds t → r ∈ toList t → key.id = r.id → key.salary = r.salary →
    ∃ c, findNodeInSubTree t k key = some c ∧ c.d.value = r ∧ c.root = zipUp t k := by
  induction t with
  | nil => intro k key r _ _ hr; simp [toList] at hr
  | node l d r ihl ihr =>
    intro k key x hb hd hx hid hsal
    obtain ⟨hbl, hbr, hlt, hgt⟩ := hb
    simp only [DistinctIds, toList, List.pairwise_append, List.pairwise_cons] at hd
    obtain ⟨hdl, ⟨hdv, hdr⟩, hdlr⟩ := hd
    simp only [findNodeInSubTree]
    simp only [toList, List.mem_append, List.mem_cons] at hx
    by_cases he : d.value.id = key.id
    · rw [if_pos ((opEq_iff _ _).2 he)]
      refine ⟨_, rfl, ?_, rfl⟩
      rcases hx with hx | rfl | hx
      · exact absurd (he.trans hid).symm (hdlr x hx d.value (by simp))
      · rfl
      · exact absurd (he.trans hid) (hdv x hx)
    · rw [if_neg (by rw [opEq_iff]; exact he)]
      have hkey : ∀ y : tree_t, lt key y ↔ lt x y := by
        intro y; simp only [lt_iff, hid, hsal]
      have hkey2 : ∀ y : tree_t, lt y key ↔ lt y x := by
        intro y; simp only [lt_iff, hid, hsal]
      rcases hx with hx | rfl | hx
      · have : opGt d.value key = true := by rw [opGt_iff, hkey]; exact hlt x hx
        rw [if_pos this]
        obtain ⟨c, hc1, hc2, hc3⟩ := ihl (Frame.inLeft d r :: k) key x hbl hdl hx hid hsal
        exact ⟨c, hc1, hc2, by rw [hc3]; rfl⟩
      · exact absurd hid.symm he
      · have : ¬ opGt d.value key = true := by
          rw [opGt_iff, hkey]; exact lt_asymm (hgt x hx)
        rw [if_neg this]
        obtain ⟨c, hc1, hc2, hc3⟩ := ihr (Frame.inRight l d :: k) key x hbr hdr hx hid hsal
        exact ⟨c, hc1, hc2, by rw [hc3]; rfl⟩

/-- C6. Lookup correctness: in a BST-ordered tree with pairwise distinct ids, (a) every
stored record is found by `isContain` and returned exactly by `find` when looked up with
its id and salary, and (b) an id that no stored record has is not contained, for every
salary, and `find` throws `elementNotExsist`. -/
theorem C6_lookup_correct (t : avlTree) (hbst : BST t.root) (hids : DistinctIds t.root) :
    (∀ r ∈ toList t.root,
      t.isContain r.id r.salary = true ∧ t.find r.id r.salary = Except.ok r) ∧
    (∀ id salary : Int, (∀ r ∈ toList t.root, r.id ≠ id) →
      t.isContain id salary = false ∧
      t.find id salary = Except.error Error.elementNotExsist) := by
  constructor
  · intro r hr
    obtain ⟨c, hc1, hc2, _⟩ :=
      find_of_mem t.root [] ⟨r.id, r.salary, 0⟩ r hbst hids hr rfl rfl
    simp [avlTree.isContain, avlTree.find, hc1, hc2]
  · intro id salary hno
    have := find_none_of_no_id t.root [] ⟨id, salary, 0⟩ hno
    simp [avlTree.isContain, avlTree.find, this]

/-- Witness for C6 on the tree of the scenario of the specification. -/
theorem C6_lookup_correct_witness :
    BST (node (node nil ⟨⟨1, 10, 5⟩, 0, 5, 1⟩ nil) ⟨⟨3, 15, 7⟩, 1, 15, 3⟩
      (node nil ⟨⟨2, 20, 3⟩, 0, 3, 1⟩ nil)) ∧
    (avlTree.mk (node (node nil ⟨⟨1, 10, 5⟩, 0, 5, 1⟩ nil) ⟨⟨3, 15, 7⟩, 1, 15, 3⟩
      (node nil ⟨⟨2, 20, 3⟩, 0, 3, 1⟩ nil)) 3 none none).find 3 15 = Except.ok ⟨3, 15, 7⟩ :=
  ⟨by decide,
   ((C6_lookup_correct
      (avlTree.mk (node (node nil ⟨⟨1, 10, 5⟩, 0, 5, 1⟩ nil) ⟨⟨3, 15, 7⟩, 1, 15, 3⟩
        (node nil ⟨⟨2, 20, 3⟩, 0, 3, 1⟩ nil)) 3 none none)
      (by decide) (by decide)).1 ⟨3, 15, 7⟩ (by decide)).2⟩

/-! ## Iteration -/

/-- The records visited by the loop `for (it = start; it != end(); it++)`, cut after the
given number of rounds. -/
def visitFuel : Nat → Option Loc → List tree_t
  | _, none => []
  | 0, some _ => []
  | n + 1, some c => c.d.value :: visitFuel n (iteratorNext (some c))

/-- The records visited by `for (it = begin(); it != end(); it++)`; the loop makes
`iterRemaining` rounds (`iterate_rounds`). -/
def avlTree.iterate (t : avlTree) : List tree_t := visitFuel (iterRemaining t.begin) t.begin

/-- Records that precede a node in the in-order sequence of its tree. -/
def Loc.before (c : Loc) : List tree_t := ctxLeft c.ctx ++ toList c.left

/-- Records that follow a node in the in-order sequence of its tree. -/
def Loc.after (c : Loc) : List tree_t := toList c.right ++ ctxRight c.ctx

theorem toList_root_split (c : Loc) : toList c.root = c.before ++ c.d.value :: c.after := by
  simp [toList_root, Loc.before, Loc.after]

theorem getMinAux_spec (l : node_ptr) : ∀ (d : node_) (r : node_ptr) (k : List Frame),
    (getMinAux l d r k).root = zipUp (node l d r) k ∧
    (getMinAux l d r k).before = ctxLeft k ∧
    (getMinAux l d r k).d.value :: (getMinAux l d r k).after = toList (node l d r) ++ ctxRight k := by
  induction l with
  | nil => intro d r k; simp [getMinAux, Loc.root, Loc.toTree, Loc.before, Loc.after, toList]
  | node ll ld lr ihl _ =>
    intro d r k
    obtain ⟨h1, h2, h3⟩ := ihl ld lr (Frame.inLeft d r :: k)
    simp only [getMinAux]
    refine ⟨by rw [h1]; rfl, by rw [h2]; rfl, ?_⟩
    rw [h3]
    simp [toList, ctxRight]

theorem getMaxAux_spec (r : node_ptr) : ∀ (l : node_ptr) (d : node_) (k : List Frame),
    (getMaxAux l d r k).root = zipUp (node l d r) k ∧
    (getMaxAux l d r k).after = ctxRight k ∧
    (getMaxAux l d r k).before ++ [(getMaxAux l d r k).d.value] = ctxLeft k ++ toList (node l d r) := by
  induction r with
  | nil => intro l d k; simp [getMaxAux, Loc.root, Loc.toTree, Loc.before, Loc.after, toList]
  | node rl rd rr _ ihr =>
    intro l d k
    obtain ⟨h1, h2, h3⟩ := ihr rl rd (Frame.inRight l d :: k)
    simp only [getMaxAux]
    refine ⟨by rw [h1]; rfl, by rw [h2]; rfl, ?_⟩
    rw [h3]
    simp [toList, ctxLeft]

theorem climb_spec (k : List Frame) : ∀ t : node_ptr,
    match climb t k with
    | none => ctxRight k = []
    | some p => p.root = zipUp t k ∧ p.before = ctxLeft k ++ toList t ∧
        p.d.value :: p.after = ctxRight k := by
  induction k with
  | nil => intro t; simp [climb, ctxRight]
  | cons f k ih =>
    intro t
    cases f with
    | inLeft d r =>
      simp [climb, Loc.root, Loc.toTree, Loc.before, Loc.after, zipUp, Frame.plug, ctxLeft, ctxRight]
    | inRight l d =>
      have := ih (node l d t)
      simp only [climb]
      split
      · rename_i h; rw [h] at this; simpa [ctxRight] using this
      · rename_i p h
        rw [h] at this
        obtain ⟨h1, h2, h3⟩ := this
        refine ⟨by rw [h1]; rfl, ?_, by rw [h3]; rfl⟩
        rw [h2]; simp [ctxLeft, toList]

theorem iteratorNext_spec (c : Loc) :
    match iteratorNext (some c) with
    | none => c.after = []
    | some p => p.root = c.root ∧ p.before = c.before ++ [c.d.value] ∧
        p.d.value :: p.after = c.after := by
  obtain ⟨l, d, r, k⟩ := c
  cases r with
  | nil =>
    have := climb_spec k (node l d nil)
    simp only [iteratorNext, ne_eq, not_true_eq_false, if_false, Loc.toTree]
    split
    · rename_i h; rw [h] at this; simpa [Loc.after, toList] using this
    · rename_i p h
      rw [h] at this
      obtain ⟨h1, h2, h3⟩ := this
      refine ⟨by rw [h1]; rfl, ?_, by rw [h3]; simp [Loc.after, toList]⟩
      rw [h2]; simp [Loc.before, toList]
  | node rl rd rr =>
    have hm := getMinAux_spec rl rd rr (Frame.inRight l d :: k)
    have hne : (node rl rd rr) ≠ nil := by intro h; cases h
    simp only [iteratorNext, ne_eq, hne, not_false_eq_true, if_true, getNextNodeInSubTree,
      Loc.rightChild, node_ptr.toLoc]
    obtain ⟨h1, h2, h3⟩ := hm
    by_cases hrl : rl = nil
    · subst hrl
      simp [Loc.root, Loc.toTree, zipUp, Frame.plug, Loc.before, Loc.after, ctxLeft, ctxRight, toList]
    · rw [if_neg hrl]
      simp only [getMinInSubTree]
      refine ⟨by rw [h1]; rfl, by rw [h2]; simp [Loc.before, ctxLeft], ?_⟩
      rw [h3]; simp [Loc.after, ctxRight]

theorem ctxAfter_eq (k : List Frame) : ctxAfter k = (ctxRight k).length := by
  induction k with
  | nil => rfl
  | cons f k ih =>
    cases f <;> simp [ctxAfter, ctxRight, ih, numNodes_eq_length] <;> omega

theorem iterRemaining_some (c : Loc) : iterRemaining (some c) = (c.d.value :: c.after).length := by
  simp [iterRemaining, Loc.after, ctxAfter_eq, numNodes_eq_length]; omega

theorem visitFuel_spec (n : Nat) : ∀ c : Loc, c.after.length < n →
    visitFuel n (some c) = c.d.value :: c.after := by
  induction n with
  | zero => intro c h; omega
  | succ n ih =>
    intro c h
    have hs := iteratorNext_spec c
    simp only [visitFuel]
    split at hs
    · rename_i hn; rw [hn, hs]; simp [visitFuel]
    · rename_i p hp
      obtain ⟨_, _, h3⟩ := hs
      rw [hp, ih p (by rw [← h3] at h; simp at h; omega), h3]

theorem iter_rounds (n : Nat) : ∀ c : Loc, c.after.length + 1 = n →
    iteratorNext^[n] (some c) = none ∧ ∀ j < n, iteratorNext^[j] (some c) ≠ none := by
  induction n with
  | zero => intro c h; omega
  | succ n ih =>
    intro c h
    have hs := iteratorNext_spec c
    split at hs
    · rename_i hn
      rw [hs] at h
      simp at h
      subst h
      refine ⟨by simp [hn], ?_⟩
      intro j hj
      have : j = 0 := by omega
      subst this; simp
    · rename_i p hp
      obtain ⟨_, _, h3⟩ := hs
      have hlen : p.after.length + 1 = n := by rw [← h3] at h; simp at h; omega
      obtain ⟨i1, i2⟩ := ih p hlen
      refine ⟨by rw [Function.iterate_succ_apply, hp]; exact i1, ?_⟩
      intro j hj
      cases j with
      | zero => simp
      | succ j => rw [Function.iterate_succ_apply, hp]; exact i2 j (by omega)

/-- The tree of the scenario of the specification, after the three inserts. -/
def scenarioRoot : node_ptr :=
  node (node nil ⟨⟨1, 10, 5⟩, 0, 5, 1⟩ nil) ⟨⟨3, 15, 7⟩, 1, 15, 3⟩ (node nil ⟨⟨2, 20, 3⟩, 0, 3, 1⟩ nil)

/-- The tree object of the scenario of the specification. -/
def scenarioTree : avlTree := ⟨scenarioRoot, 3, maxOfRoot scenarioRoot, minOfRoot scenarioRoot⟩

/-- C5. Sorted iteration: on a BST-ordered tree whose cached `min` is the leftmost node
and whose `size` is the number of nodes, the loop from `begin()` to `end()` visits the
in-order sequence of the stored records, each once, in strictly ascending order, in
`getSize()` rounds, reaching `end()` after exactly that many `++`; and `++` on any
node leads to the node that follows it in in-order, or to `end()` when nothing follows. -/
theorem C5_sorted_iteration (t : avlTree) (hbst : BST t.root)
    (hmin : t.min = minOfRoot t.root) (hsize : t.size = numNodes t.root) :
    t.iterate = toList t.root ∧ t.iterate.Pairwise lt ∧ t.iterate.Nodup ∧
    (t.iterate.length : Int) = t.getSize ∧
    (iteratorNext^[t.iterate.length] t.begin = t.endIt ∧
      ∀ j < t.iterate.length, iteratorNext^[j] t.begin ≠ t.endIt) ∧
    (∀ c : Loc,
      match iteratorNext (some c) with
      | none => c.after = []
      | some p => p.root = c.root ∧ p.before = c.before ++ [c.d.value] ∧
          p.d.value :: p.after = c.after) := by
  have hit : t.iterate = toList t.root ∧
      (iteratorNext^[(toList t.root).length] t.begin = none ∧
        ∀ j < (toList t.root).length, iteratorNext^[j] t.begin ≠ none) := by
    obtain ⟨root, size, mx, mn⟩ := t
    simp only at hmin
    subst hmin
    cases root with
    | nil => simp [avlTree.iterate, avlTree.begin, minOfRoot, node_ptr.toLoc, visitFuel, toList]
    | node l d r =>
      obtain ⟨_, _, h3⟩ := getMinAux_spec l d r []
      simp only [ctxRight, List.append_nil] at h3
      simp only [avlTree.iterate, avlTree.begin, minOfRoot, node_ptr.toLoc, Option.map_some',
        getMinInSubTree]
      refine ⟨?_, ?_⟩
      · rw [visitFuel_spec _ _ (by rw [iterRemaining_some]; simp), h3]
      · rw [← h3]
        exact iter_rounds _ _ (by simp)
  have hsorted := (BST_iff_sorted t.root).1 hbst
  obtain ⟨h1, h2⟩ := hit
  rw [h1]
  refine ⟨rfl, hsorted, ?_, ?_, h2, iteratorNext_spec⟩
  · exact hsorted.imp (fun {a b} hab heq => by subst heq; exact lt_irrefl a hab)
  · simp [avlTree.getSize, hsize, numNodes_eq_length]

/-- Witness for C5 on the tree of the scenario of the specification. -/
theorem C5_sorted_iteration_witness :
    scenarioTree.iterate = [⟨1, 10, 5⟩, ⟨3, 15, 7⟩, ⟨2, 20, 3⟩] :=
  (C5_sorted_iteration scenarioTree (by decide) rfl (by decide)).1

/-! ## Duplicate insert -/

theorem insert_of_fuel (n : Nat) (t : avlTree) (v : tree_t) (root1 : node_ptr)
    (hc : t.isContain v.id v.salary = false)
    (hf : rebalanceFuel n (insertNodeToSubTree t.root [] (node_.ofValue v)) = some root1) :
    t.insert v = ⟨root1, t.size + 1, maxOfRoot root1, minOfRoot root1⟩ := by
  simp only [avlTree.insert, hc, Bool.false_eq_true, if_false, rebalanceFuel_eq n _ _ hf]

theorem insert_of_contained (t : avlTree) (v : tree_t)
    (hc : t.isContain v.id v.salary = true) : t.insert v = t := by
  simp only [avlTree.insert, hc, if_true]

/-- The tree after `insert (2,20)` and `insert (1,10)`. -/
def dupRoot2 : node_ptr :=
  node (node nil ⟨⟨1, 10, 0⟩, 0, 0, 1⟩ nil) ⟨⟨2, 20, 0⟩, 1, 0, 2⟩ nil

/-- The tree after `insert (2,20)`, `insert (1,10)` and `insert (1,30)`. -/
def dupRoot3 : node_ptr :=
  node (node nil ⟨⟨1, 10, 0⟩, 0, 0, 1⟩ nil) ⟨⟨2, 20, 0⟩, 1, 0, 3⟩
    (node nil ⟨⟨1, 30, 0⟩, 0, 0, 1⟩ nil)

theorem dup_build2 :
    (avlTree.empty.insert ⟨2, 20, 0⟩).insert ⟨1, 10, 0⟩
      = ⟨dupRoot2, 2, maxOfRoot dupRoot2, minOfRoot dupRoot2⟩ := by
  rw [insert_of_fuel 1 avlTree.empty ⟨2, 20, 0⟩ (node nil ⟨⟨2, 20, 0⟩, 0, 0, 1⟩ nil)
    (by decide) (by decide)]
  rw [insert_of_fuel 2 _ ⟨1, 10, 0⟩ dupRoot2 (by decide) (by decide)]
  rfl

theorem dup_build3 :
    ((avlTree.empty.insert ⟨2, 20, 0⟩).insert ⟨1, 10, 0⟩).insert ⟨1, 30, 0⟩
      = ⟨dupRoot3, 3, maxOfRoot dupRoot3, minOfRoot dupRoot3⟩ := by
  rw [dup_build2, insert_of_fuel 2 _ ⟨1, 30, 0⟩ dupRoot3 (by decide) (by decide)]
  rfl

/-- C9, counterexample: after `insert (id=2,salary=20)` and `insert (id=1,salary=10)` a
record with id 1 is stored, yet `insert (id=1,salary=30)` adds a third record: the size
becomes 3 and two stored records have id 1. -/
theorem C9_counterexample :
    (∃ x ∈ toList ((avlTree.empty.insert ⟨2, 20, 0⟩).insert ⟨1, 10, 0⟩).root, x.id = 1) ∧
    toList (((avlTree.empty.insert ⟨2, 20, 0⟩).insert ⟨1, 10, 0⟩).insert ⟨1, 30, 0⟩).root
      = [⟨1, 10, 0⟩, ⟨2, 20, 0⟩, ⟨1, 30, 0⟩] ∧
    (((avlTree.empty.insert ⟨2, 20, 0⟩).insert ⟨1, 10, 0⟩).insert ⟨1, 30, 0⟩).getSize = 3 ∧
    ¬ DistinctIds
      (((avlTree.empty.insert ⟨2, 20, 0⟩).insert ⟨1, 10, 0⟩).insert ⟨1, 30, 0⟩).root := by
  rw [dup_build3, dup_build2]
  decide

/-- C9, amended: in a BST-ordered tree with pairwise distinct ids, when a record with
the same id and the same salary as `r` is stored, `insert(r)` leaves the tree object
unchanged (records, shape, size, cached min and max). -/
theorem C9_duplicate_key_insert (t : avlTree) (r : tree_t) (hbst : BST t.root)
    (hids : DistinctIds t.root)
    (hdup : ∃ x ∈ toList t.root, x.id = r.id ∧ x.salary = r.salary) :
    t.insert r = t := by
  obtain ⟨x, hx, hid, hsal⟩ := hdup
  obtain ⟨c, hc, _, _⟩ := find_of_mem t.root [] ⟨r.id, r.salary, 0⟩ x hbst hids hx hid.symm hsal.symm
  exact insert_of_contained t r (by simp [avlTree.isContain, hc])

/-- Witness for the amended C9: inserting `(1,10)` again, with another grade. -/
theorem C9_duplicate_key_insert_witness :
    (avlTree.mk dupRoot2 2 (maxOfRoot dupRoot2) (minOfRoot dupRoot2)).insert ⟨1, 10, 9⟩
      = avlTree.mk dupRoot2 2 (maxOfRoot dupRoot2) (minOfRoot dupRoot2) :=
  C9_duplicate_key_insert _ ⟨1, 10, 9⟩ (by decide) (by decide) (by decide)

/-! ## Insertion -/

theorem find_isSome_of_key_mem (t : node_ptr) : ∀ (k : List Frame) (key : tree_t),
    BST t → (∃ x ∈ toList t, x.id = key.id ∧ x.salary = key.salary) →
    (findNodeInSubTree t k key).isSome = true := by
  induction t with
  | nil => intro k key _ h; simp [toList] at h
  | node l d r ihl ihr =>
    intro k key hb hx
    obtain ⟨hbl, hbr, hlt, hgt⟩ := hb
    obtain ⟨x, hx, hid, hsal⟩ := hx
    simp only [findNodeInSubTree]
    by_cases he : d.value.id = key.id
    · rw [if_pos ((opEq_iff _ _).2 he)]; rfl
    · rw [if_neg (by rw [opEq_iff]; exact he)]
      have hkey : ∀ y : tree_t, lt key y ↔ lt x y := by
        intro y; simp only [lt_iff, hid, hsal]
      have hkey2 : ∀ y : tree_t, lt y key ↔ lt y x := by
        intro y; simp only [lt_iff, hid, hsal]
      simp only [toList, List.mem_append, List.mem_cons] at hx
      rcases hx with hx | rfl | hx
      · have : opGt d.value key = true := by rw [opGt_iff, hkey]; exact hlt x hx
        rw [if_pos this]
        exact ihl _ key hbl ⟨x, hx, hid, hsal⟩
      · exact absurd hid he
      · have : ¬ opGt d.value key = true := by
          rw [opGt_iff, hkey]; exact lt_asymm (hgt x hx)
        rw [if_neg this]
        exact ihr _ key hbr ⟨x, hx, hid, hsal⟩

theorem insertNode_spec (t : node_ptr) : ∀ (k : List Frame) (nw : node_),
    ∃ L1 L2, toList t = L1 ++ L2 ∧
      (insertNodeToSubTree t k nw).before = ctxLeft k ++ L1 ∧
      (insertNodeToSubTree t k nw).after = L2 ++ ctxRight k ∧
      (insertNodeToSubTree t k nw).left = nil ∧ (insertNodeToSubTree t k nw).right = nil ∧
      (insertNodeToSubTree t k nw).d = nw ∧
      (BST t → (∀ x ∈ L1, ¬ lt nw.value x) ∧ (∀ x ∈ L2, lt nw.value x)) := by
  induction t with
  | nil =>
    intro k nw
    exact ⟨[], [], by simp [toList], by simp [insertNodeToSubTree, Loc.before, toList],
      by simp [insertNodeToSubTree, Loc.after, toList], rfl, rfl, rfl, by simp⟩
  | node l d r ihl ihr =>
    intro k nw
    simp only [insertNodeToSubTree]
    split
    · rename_i hg
      obtain ⟨L1, L2, h1, h2, h3, h4, h5, h6, h7⟩ := ihl (Frame.inLeft d r :: k) nw
      refine ⟨L1, L2 ++ d.value :: toList r, by simp [toList, h1], by rw [h2]; rfl,
        by rw [h3]; simp [ctxRight], h4, h5, h6, ?_⟩
      rintro ⟨hbl, hbr, hlt, hgt⟩
      obtain ⟨g1, g2⟩ := h7 hbl
      refine ⟨g1, ?_⟩
      intro x hx
      simp only [List.mem_append, List.mem_cons] at hx
      have hvd : lt nw.value d.value := (opGt_iff _ _).1 hg
      rcases hx with hx | rfl | hx
      · exact g2 x hx
      · exact hvd
      · exact lt_trans hvd (hgt x hx)
    · rename_i hg
      obtain ⟨L1, L2, h1, h2, h3, h4, h5, h6, h7⟩ := ihr (Frame.inRight l d :: k) nw
      refine ⟨toList l ++ d.value :: L1, L2, by simp [toList, h1], by rw [h2]; simp [ctxLeft],
        by rw [h3]; rfl, h4, h5, h6, ?_⟩
      rintro ⟨hbl, hbr, hlt, hgt⟩
      obtain ⟨g1, g2⟩ := h7 hbr
      refine ⟨?_, g2⟩
      intro x hx
      simp only [List.mem_append, List.mem_cons] at hx
      have hvd : ¬ lt nw.value d.value := by rw [← opGt_iff]; exact hg
      rcases hx with hx | rfl | hx
      · intro hc; exact hvd (lt_trans hc (hlt x hx))
      · exact hvd
      · exact g1 x hx

/-- What `insert` does to a tree that does not contain the key. -/
theorem insert_spec (t : avlTree) (v : tree_t) (hc : t.isContain v.id v.salary = false) :
    ∃ L1 L2, toList t.root = L1 ++ L2 ∧ toList (t.insert v).root = L1 ++ v :: L2 ∧
      (t.insert v).size = t.size + 1 ∧
      (t.insert v).max = maxOfRoot (t.insert v).root ∧
      (t.insert v).min = minOfRoot (t.insert v).root ∧
      (BST t.root → (∀ x ∈ L1, lt x v) ∧ (∀ x ∈ L2, lt v x)) := by
  obtain ⟨L1, L2, h1, h2, h3, _, _, h6, h7⟩ := insertNode_spec t.root [] (node_.ofValue v)
  refine ⟨L1, L2, h1, ?_, ?_, ?_, ?_, ?_⟩
  · simp only [avlTree.insert, hc, Bool.false_eq_true, if_false, toList_rebalance,
      toList_root_split, h2, h3, h6]
    simp [ctxLeft, ctxRight, node_.ofValue]
  · simp only [avlTree.insert, hc, Bool.false_eq_true, if_false]
  · simp only [avlTree.insert, hc, Bool.false_eq_true, if_false]
  · simp only [avlTree.insert, hc, Bool.false_eq_true, if_false]
  · intro hb
    obtain ⟨g1, g2⟩ := h7 hb
    refine ⟨?_, g2⟩
    intro x hx
    rcases lt_trichotomy x v with h | h | ⟨hs, hi⟩
    · exact h
    · exact absurd h (g1 x hx)
    · exfalso
      have := find_isSome_of_key_mem t.root [] ⟨v.id, v.salary, 0⟩ hb
        ⟨x, by rw [h1]; simp [hx], hi, hs⟩
      simp [avlTree.isContain] at hc
      rw [hc] at this
      simp at this

theorem sorted_insert (L1 L2 : List tree_t) (v : tree_t) (hs : (L1 ++ L2).Pairwise lt)
    (h1 : ∀ x ∈ L1, lt x v) (h2 : ∀ x ∈ L2, lt v x) : (L1 ++ v :: L2).Pairwise lt := by
  rw [List.pairwise_append] at hs ⊢
  obtain ⟨a, b, c⟩ := hs
  refine ⟨a, List.pairwise_cons.2 ⟨h2, b⟩, ?_⟩
  intro x hx y hy
  simp only [List.mem_cons] at hy
  rcases hy with rfl | hy
  · exact h1 x hx
  · exact c x hx y hy

theorem insert_BST (t : avlTree) (v : tree_t) (hb : BST t.root) : BST (t.insert v).root := by
  by_cases hc : t.isContain v.id v.salary = true
  · rw [insert_of_contained t v hc]; exact hb
  · simp only [Bool.not_eq_true] at hc
    obtain ⟨L1, L2, h1, h2, _, _, _, h6⟩ := insert_spec t v hc
    obtain ⟨g1, g2⟩ := h6 hb
    rw [BST_iff_sorted, h2]
    rw [BST_iff_sorted, h1] at hb
    exact sorted_insert L1 L2 v hb g1 g2

/-- C7. `insert` adds exactly the new record: on a BST-ordered tree that stores no record
with the id of `r`, the in-order sequence after `insert(r)` is the previous one with `r`
put between the records smaller and the records larger than `r`, `getSize()` has grown
by one and `isContain(r.id, r.salary)` holds. -/
theorem C7_insert_adds_record (t : avlTree) (r : tree_t) (hbst : BST t.root)
    (hnew : ∀ x ∈ toList t.root, x.id ≠ r.id) :
    (∃ L1 L2, toList t.root = L1 ++ L2 ∧ toList (t.insert r).root = L1 ++ r :: L2 ∧
      (∀ x ∈ L1, lt x r) ∧ (∀ x ∈ L2, lt r x)) ∧
    (toList (t.insert r).root).Pairwise lt ∧
    (t.insert r).getSize = t.getSize + 1 ∧
    (t.insert r).isContain r.id r.salary = true := by
  have hc : t.isContain r.id r.salary = false := by
    simp [avlTree.isContain, find_none_of_no_id t.root [] ⟨r.id, r.salary, 0⟩ hnew]
  obtain ⟨L1, L2, h1, h2, h3, _, _, h6⟩ := insert_spec t r hc
  obtain ⟨g1, g2⟩ := h6 hbst
  have hb2 := insert_BST t r hbst
  refine ⟨⟨L1, L2, h1, h2, g1, g2⟩, (BST_iff_sorted _).1 hb2, h3, ?_⟩
  exact find_isSome_of_key_mem (t.insert r).root [] ⟨r.id, r.salary, 0⟩ hb2
    ⟨r, by rw [h2]; simp, rfl, rfl⟩

/-- Witness for C7: inserting `(4, 12, 1)` into the tree of the scenario. -/
theorem C7_insert_adds_record_witness :
    (scenarioTree.insert ⟨4, 12, 1⟩).getSize = scenarioTree.getSize + 1 ∧
    (scenarioTree.insert ⟨4, 12, 1⟩).isContain 4 12 = true :=
  (C7_insert_adds_record scenarioTree ⟨4, 12, 1⟩ (by decide) (by decide)).2.2

/-! ## Removal -/

theorem toList_toParent_root (f : Frame) (t : node_ptr) (k : List Frame) :
    toList (f.toParent t k).root = ctxLeft (f :: k) ++ toList t ++ ctxRight (f :: k) := by
  cases f <;> simp [Frame.toParent, toList_root, ctxLeft, ctxRight]

theorem removeLeaf_spec (c : Loc) (hl : c.left = nil) (hr : c.right = nil) :
    toList (removeLeaf c).1 = c.before ++ c.after ∧
    ∀ p, (removeLeaf c).2 = some p → p.root = (removeLeaf c).1 := by
  obtain ⟨l, d, r, k⟩ := c
  simp only at hl hr
  subst hl hr
  cases k with
  | nil => simp [removeLeaf, Loc.before, Loc.after, toList, ctxLeft, ctxRight]
  | cons f k =>
    simp only [removeLeaf, toList_toParent_root, Loc.before, Loc.after, toList]
    refine ⟨by simp, ?_⟩
    intro p hp
    simp only [Option.some.injEq] at hp
    rw [hp]

theorem removeNodeWithOneChild_spec (c : Loc) (h : c.left = nil ∨ c.right = nil) :
    toList (removeNodeWithOneChild c).1 = c.before ++ c.after ∧
    ∀ p, (removeNodeWithOneChild c).2 = some p → p.root = (removeNodeWithOneChild c).1 := by
  obtain ⟨l, d, r, k⟩ := c
  simp only at h
  have hch : toList (if l ≠ nil then l else r) = toList l ++ toList r := by
    rcases h with h | h
    · subst h; simp [toList]
    · subst h
      by_cases hl : l = nil
      · subst hl; simp [toList]
      · simp [hl, toList]
  cases k with
  | nil =>
    simp only [removeNodeWithOneChild, hch, Loc.before, Loc.after, ctxLeft, ctxRight]
    simp
  | cons f k =>
    simp only [removeNodeWithOneChild, toList_toParent_root, Loc.before, Loc.after, hch]
    refine ⟨by simp, ?_⟩
    intro p hp
    simp only [Option.some.injEq] at hp
    rw [hp]

theorem getNext_spec (l rl rr : node_ptr) (d rd : node_) (k : List Frame) :
    ∃ nx, getNextNodeInSubTree ⟨l, d, node rl rd rr, k⟩ = some nx ∧ nx.left = nil ∧
      nx.before = ctxLeft k ++ (toList l ++ [d.value]) ∧
      nx.d.value :: nx.after = toList (node rl rd rr) ++ ctxRight k := by
  obtain ⟨h1, h2, h3⟩ := getMinAux_spec rl rd rr (Frame.inRight l d :: k)
  have hleft : ∀ (a : node_ptr) (b : node_) (c : node_ptr) (q : List Frame),
      (getMinAux a b c q).left = nil := by
    intro a
    induction a with
    | nil => intro b c q; rfl
    | node al ad ar ih _ => intro b c q; exact ih ad ar _
  simp only [getNextNodeInSubTree, Loc.rightChild, node_ptr.toLoc]
  by_cases hrl : rl = nil
  · subst hrl
    refine ⟨_, if_pos rfl, rfl, ?_, ?_⟩
    · simp [Loc.before, ctxLeft, toList]
    · simp [Loc.after, ctxRight, toList]
  · refine ⟨_, if_neg hrl, hleft _ _ _ _, ?_, ?_⟩
    · simp only [getMinInSubTree]; rw [h2]; rfl
    · simp only [getMinInSubTree]; rw [h3]; rfl

theorem removeNodeWithTwoChilds_spec (c : Loc) (hl : c.left ≠ nil) (hr : c.right ≠ nil) :
    toList (removeNodeWithTwoChilds c).1 = c.before ++ c.after ∧
    ∀ p, (removeNodeWithTwoChilds c).2 = some p → p.root = (removeNodeWithTwoChilds c).1 := by
  obtain ⟨l, d, r, k⟩ := c
  simp only at hl hr
  cases r with
  | nil => exact absurd rfl hr
  | node rl rd rr =>
    obtain ⟨nx0, e0, _, _, a0⟩ := getNext_spec l rl rr d rd k
    obtain ⟨nx1, e1, l1, b1, a1⟩ :=
      getNext_spec l rl rr { d with value := nx0.d.value } rd k
    simp only [removeNodeWithTwoChilds, e0, e1]
    have haft : nx1.after = nx0.after := by
      have := a1.trans a0.symm
      simp only [List.cons.injEq] at this
      exact this.2
    have key : ctxLeft k ++ (toList l ++ [nx0.d.value]) ++ nx1.after
        = ctxLeft k ++ toList l ++ (toList (node rl rd rr) ++ ctxRight k) := by
      rw [← a0, haft]; simp
    split
    · rename_i hnr
      obtain ⟨s1, s2⟩ := removeLeaf_spec
        { nx1 with d := { nx1.d with value := d.value } } l1 hnr
      refine ⟨?_, s2⟩
      rw [s1]
      simp only [Loc.before, Loc.after] at b1 key ⊢
      rw [b1]
      exact key
    · obtain ⟨s1, s2⟩ := removeNodeWithOneChild_spec
        { nx1 with d := { nx1.d with value := d.value } } (Or.inl l1)
      refine ⟨?_, s2⟩
      rw [s1]
      simp only [Loc.before, Loc.after] at b1 key ⊢
      rw [b1]
      exact key

theorem removeNode_spec (root : node_ptr) (key : tree_t) (c : Loc)
    (hf : findNodeInSubTree root [] key = some c) :
    toList (removeNodeInSubTree root key).1 = c.before ++ c.after ∧
    ∀ p, (removeNodeInSubTree root key).2 = some p → p.root = (removeNodeInSubTree root key).1 := by
  simp only [removeNodeInSubTree, hf]
  split
  · rename_i h; exact removeLeaf_spec c h.2 h.1
  · split
    · rename_i h; exact removeNodeWithOneChild_spec c (Or.symm h)
    · rename_i h1 h2
      have : c.left ≠ nil ∧ c.right ≠ nil := by
        constructor
        · intro h; exact h2 (Or.inr h)
        · intro h; exact h2 (Or.inl h)
      exact removeNodeWithTwoChilds_spec c this.1 this.2

theorem toList_rebalanceFrom (root : node_ptr) (parent : Option Loc)
    (h : ∀ p, parent = some p → p.root = root) :
    toList (rebalanceFrom root parent) = toList root := by
  cases parent with
  | none => rfl
  | some p => simp only [rebalanceFrom, toList_rebalance]; rw [h p rfl]

/-- What `remove` does to a tree in which the key is found at node `c`. -/
theorem remove_spec (t : avlTree) (id salary : Int) (c : Loc)
    (hf : findNodeInSubTree t.root [] ⟨id, salary, 0⟩ = some c) :
    toList (t.remove id salary).root = c.before ++ c.after ∧
    (t.remove id salary).size = t.size - 1 := by
  obtain ⟨h1, h2⟩ := removeNode_spec t.root ⟨id, salary, 0⟩ c hf
  have hc : t.isContain id salary = true := by simp [avlTree.isContain, hf]
  simp only [avlTree.remove, hc, Bool.true_eq_false, if_false]
  exact ⟨by rw [toList_rebalanceFrom _ _ h2, h1], trivial⟩

theorem remove_of_not_contained (t : avlTree) (id salary : Int)
    (hc : t.isContain id salary = false) : t.remove id salary = t := by
  simp only [avlTree.remove, hc, if_true]

theorem remove_BST (t : avlTree) (id salary : Int) (hb : BST t.root) :
    BST (t.remove id salary).root := by
  cases hf : findNodeInSubTree t.root [] ⟨id, salary, 0⟩ with
  | none =>
    rw [remove_of_not_contained t id salary (by simp [avlTree.isContain, hf])]
    exact hb
  | some c =>
    obtain ⟨h1, _⟩ := remove_spec t id salary c hf
    obtain ⟨_, hroot, _⟩ := find_spec t.root [] _ c hf
    rw [BST_iff_sorted] at hb ⊢
    rw [h1]
    have : toList t.root = c.before ++ c.d.value :: c.after := by
      rw [← toList_root_split, hroot]; rfl
    rw [this] at hb
    exact hb.sublist (List.Sublist.append (List.Sublist.refl _) (List.sublist_cons_self _ _))

/-- C2. The BST invariant is preserved by `insert` and by `remove`: if it holds at every
node of the tree, it holds at every node of the tree after `insert(r)` and of the tree
after `remove(id, salary)`, for every record and every key. -/
theorem C2_bst_preserved (t : avlTree) (r : tree_t) (id salary : Int) (hbst : BST t.root) :
    BST (t.insert r).root ∧ BST (t.remove id salary).root :=
  ⟨insert_BST t r hbst, remove_BST t id salary hbst⟩

/-- Witness for C2 on the tree of the scenario of the specification. -/
theorem C2_bst_preserved_witness :
    BST (scenarioTree.insert ⟨4, 12, 1⟩).root ∧ BST (scenarioTree.remove 3 15).root :=
  C2_bst_preserved scenarioTree ⟨4, 12, 1⟩ 3 15 (by decide)

/-- C8. `remove` deletes exactly the named record: on a BST-ordered tree with pairwise
distinct ids, (a) for a stored record `r`, after `remove(r.id, r.salary)` the in-order
sequence is the previous one with `r` deleted, `getSize()` has dropped by one and
`isContain(r.id, r.salary)` is false; (b) when no stored record has the given id,
`remove` returns the tree object unchanged (records, shape, size, min, max). -/
theorem C8_remove_deletes_record (t : avlTree) (hbst : BST t.root) (hids : DistinctIds t.root) :
    (∀ r ∈ toList t.root,
      (∃ L1 L2, toList t.root = L1 ++ r :: L2 ∧
        toList (t.remove r.id r.salary).root = L1 ++ L2) ∧
      (t.remove r.id r.salary).getSize = t.getSize - 1 ∧
      (t.remove r.id r.salary).isContain r.id r.salary = false) ∧
    (∀ id salary : Int, (∀ x ∈ toList t.root, x.id ≠ id) → t.remove id salary = t) := by
  constructor
  · intro r hr
    obtain ⟨c, hc1, hc2, hc3⟩ :=
      find_of_mem t.root [] ⟨r.id, r.salary, 0⟩ r hbst hids hr rfl rfl
    obtain ⟨h1, h2⟩ := remove_spec t r.id r.salary c hc1
    have hsplit : toList t.root = c.before ++ r :: c.after := by
      rw [← hc2, ← toList_root_split, hc3]; rfl
    refine ⟨⟨c.before, c.after, hsplit, h1⟩, h2, ?_⟩
    have hno : ∀ x ∈ toList (t.remove r.id r.salary).root, x.id ≠ r.id := by
      intro x hx
      rw [h1] at hx
      have hd := hids
      simp only [DistinctIds, hsplit, List.pairwise_append, List.pairwise_cons] at hd
      obtain ⟨_, ⟨hr2, _⟩, hcross⟩ := hd
      rcases List.mem_append.1 hx with hx | hx
      · exact hcross x hx r (by simp)
      · exact fun h => hr2 x hx h.symm
    simp [avlTree.isContain, find_none_of_no_id _ [] ⟨r.id, r.salary, 0⟩ hno]
  · intro id salary hno
    exact remove_of_not_contained t id salary
      (by simp [avlTree.isContain, find_none_of_no_id t.root [] ⟨id, salary, 0⟩ hno])

/-- Witness for C8: removing the root `(3,15)` of the tree of the scenario, which has two
children. -/
theorem C8_remove_deletes_record_witness :
    (scenarioTree.remove 3 15).getSize = scenarioTree.getSize - 1 ∧
    (scenarioTree.remove 3 15).isContain 3 15 = false :=
  ((C8_remove_deletes_record scenarioTree (by decide) (by decide)).1 ⟨3, 15, 7⟩ (by decide)).2

/-! ## Properties of all subtrees hanging off a node and its ancestors -/

/-- A property of subtrees holds for the two subtrees of a node and for every subtree
hanging off its ancestors. -/
def AllSub (P : node_ptr → Prop) (c : Loc) : Prop :=
  P c.left ∧ P c.right ∧ ∀ f ∈ c.ctx, P f.sibling

theorem find_allSub (P : node_ptr → Prop) (hP : ∀ l d r, P (node l d r) → P l ∧ P r)
    (t : node_ptr) : ∀ (k : List Frame) (key : tree_t) (c : Loc),
    P t → (∀ f ∈ k, P f.sibling) → findNodeInSubTree t k key = some c → AllSub P c := by
  induction t with
  | nil => intro k key c _ _ h; simp [findNodeInSubTree] at h
  | node l d r ihl ihr =>
    intro k key c ht hk h
    obtain ⟨hl, hr⟩ := hP l d r ht
    simp only [findNodeInSubTree] at h
    split at h
    · simp only [Option.some.injEq] at h
      subst h
      exact ⟨hl, hr, hk⟩
    · split at h
      · refine ihl _ key c hl ?_ h
        intro f hf
        simp only [List.mem_cons] at hf
        rcases hf with rfl | hf
        · exact hr
        · exact hk f hf
      · refine ihr _ key c hr ?_ h
        intro f hf
        simp only [List.mem_cons] at hf
        rcases hf with rfl | hf
        · exact hl
        · exact hk f hf

theorem insertNode_allSub (P : node_ptr → Prop) (hP : ∀ l d r, P (node l d r) → P l ∧ P r)
    (hnil : P nil) (t : node_ptr) : ∀ (k : List Frame) (nw : node_),
    P t → (∀ f ∈ k, P f.sibling) → AllSub P (insertNodeToSubTree t k nw) := by
  induction t with
  | nil => intro k nw _ hk; exact ⟨hnil, hnil, hk⟩
  | node l d r ihl ihr =>
    intro k nw ht hk
    obtain ⟨hl, hr⟩ := hP l d r ht
    simp only [insertNodeToSubTree]
    split
    · refine ihl _ nw hl ?_
      intro f hf
      simp only [List.mem_cons] at hf
      rcases hf with rfl | hf
      · exact hr
      · exact hk f hf
    · refine ihr _ nw hr ?_
      intro f hf
      simp only [List.mem_cons] at hf
      rcases hf with rfl | hf
      · exact hl
      · exact hk f hf

theorem getMinAux_allSub (P : node_ptr → Prop) (hP : ∀ l d r, P (node l d r) → P l ∧ P r)
    (l : node_ptr) : ∀ (d : node_) (r : node_ptr) (k : List Frame),
    P l → P r → (∀ f ∈ k, P f.sibling) → AllSub P (getMinAux l d r k) := by
  induction l with
  | nil => intro d r k hl hr hk; exact ⟨hl, hr, hk⟩
  | node ll ld lr ih _ =>
    intro d r k hl hr hk
    obtain ⟨hll, hlr⟩ := hP ll ld lr hl
    refine ih ld lr _ hll hlr ?_
    intro f hf
    simp only [List.mem_cons] at hf
    rcases hf with rfl | hf
    · exact hr
    · exact hk f hf

theorem getNext_allSub (P : node_ptr → Prop) (hP : ∀ l d r, P (node l d r) → P l ∧ P r)
    (c nx : Loc) (hc : AllSub P c) (h : getNextNodeInSubTree c = some nx) : AllSub P nx := by
  obtain ⟨l, d, r, k⟩ := c
  obtain ⟨hl, hr, hk⟩ := hc
  cases r with
  | nil => simp [getNextNodeInSubTree, Loc.rightChild, node_ptr.toLoc] at h
  | node rl rd rr =>
    simp only at hl hr hk
    obtain ⟨hrl, hrr⟩ := hP rl rd rr hr
    have hk2 : ∀ f ∈ Frame.inRight l d :: k, P f.sibling := by
      intro f hf
      simp only [List.mem_cons] at hf
      rcases hf with rfl | hf
      · exact hl
      · exact hk f hf
    simp only [getNextNodeInSubTree, Loc.rightChild, node_ptr.toLoc] at h
    split at h
    · simp only [Option.some.injEq] at h
      subst h
      exact ⟨hrl, hrr, hk2⟩
    · simp only [Option.some.injEq] at h
      subst h
      exact getMinAux_allSub P hP rl rd rr _ hrl hrr hk2

/-- The result of a removal: the new root when no parent is returned, the parent with
its subtrees otherwise. -/
def RemovedSub (P : node_ptr → Prop) (res : node_ptr × Option Loc) : Prop :=
  (res.2 = none → P res.1) ∧ ∀ p, res.2 = some p → AllSub P p

theorem toParent_allSub (P : node_ptr → Prop) (f : Frame) (t : node_ptr) (k : List Frame)
    (ht : P t) (hk : ∀ g ∈ f :: k, P g.sibling) : AllSub P (f.toParent t k) := by
  have hf := hk f (by simp)
  have hk2 : ∀ g ∈ k, P g.sibling := fun g hg => hk g (by simp [hg])
  cases f with
  | inLeft d r => exact ⟨ht, hf, hk2⟩
  | inRight l d => exact ⟨hf, ht, hk2⟩

theorem removeLeaf_sub (P : node_ptr → Prop) (hnil : P nil) (c : Loc) (hc : AllSub P c) :
    RemovedSub P (removeLeaf c) := by
  obtain ⟨l, d, r, k⟩ := c
  obtain ⟨_, _, hk⟩ := hc
  cases k with
  | nil => exact ⟨fun _ => hnil, by simp [removeLeaf]⟩
  | cons f k =>
    refine ⟨by simp [removeLeaf], ?_⟩
    intro p hp
    simp only [removeLeaf, Option.some.injEq] at hp
    subst hp
    exact toParent_allSub P f nil k hnil hk

theorem removeNodeWithOneChild_sub (P : node_ptr → Prop) (c : Loc) (hc : AllSub P c) :
    RemovedSub P (removeNodeWithOneChild c) := by
  obtain ⟨l, d, r, k⟩ := c
  obtain ⟨hl, hr, hk⟩ := hc
  have hch : P (if l ≠ nil then l else r) := by
    split
    · exact hl
    · exact hr
  cases k with
  | nil => exact ⟨fun _ => hch, by simp [removeNodeWithOneChild]⟩
  | cons f k =>
    refine ⟨by simp [removeNodeWithOneChild], ?_⟩
    intro p hp
    simp only [removeNodeWithOneChild, Option.some.injEq] at hp
    subst hp
    exact toParent_allSub P f _ k hch hk

theorem removeNodeWithTwoChilds_sub (P : node_ptr → Prop)
    (hP : ∀ l d r, P (node l d r) → P l ∧ P r) (hnil : P nil) (c : Loc) (hc : AllSub P c)
    (hroot : P c.root) : RemovedSub P (removeNodeWithTwoChilds c) := by
  simp only [removeNodeWithTwoChilds]
  split
  · exact ⟨fun _ => hroot, by simp⟩
  · rename_i nx0 h0
    split
    · exact ⟨fun _ => hroot, by simp⟩
    · rename_i nx1 h1
      have hc2 : AllSub P { c with d := { c.d with value := nx0.d.value } } := hc
      have h2 : AllSub P nx1 := getNext_allSub P hP _ nx1 hc2 h1
      have h3 : AllSub P { nx1 with d := { nx1.d with value := c.d.value } } := h2
      split
      · exact removeLeaf_sub P hnil _ h3
      · exact removeNodeWithOneChild_sub P _ h3

theorem removeNode_sub (P : node_ptr → Prop) (hP : ∀ l d r, P (node l d r) → P l ∧ P r)
    (hnil : P nil) (root : node_ptr) (key : tree_t) (hroot : P root) :
    RemovedSub P (removeNodeInSubTree root key) := by
  simp only [removeNodeInSubTree]
  split
  · exact ⟨fun _ => hroot, by simp⟩
  · rename_i c hf
    have hc := find_allSub P hP root [] key c hroot (by simp) hf
    obtain ⟨_, hr, _⟩ := find_spec root [] key c hf
    split
    · exact removeLeaf_sub P hnil c hc
    · split
      · exact removeNodeWithOneChild_sub P c hc
      · exact removeNodeWithTwoChilds_sub P hP hnil c hc (by rw [hr]; exact hroot)

/-! ## The augmentation invariant -/

/-- Augmentation invariant: at every node `w1` is the own grade plus the `w1` of the
children, in `int` arithmetic as `updateW1` computes it, and `w2` is one plus the `w2` of
the children, absent children counting 0. -/
def Aug : node_ptr → Prop
  | nil => True
  | node l d r =>
    Aug l ∧ Aug r ∧ d.w1 = wrap32 (wrap32 (d.value.grade + l.w1Or) + r.w1Or) ∧
      d.w2 = 1 + l.w2Or + r.w2Or

instance Aug.dec : (t : node_ptr) → Decidable (Aug t)
  | nil => isTrue trivial
  | node l d r =>
    let _ := Aug.dec l
    let _ := Aug.dec r
    (inferInstance : Decidable
      (Aug l ∧ Aug r ∧ d.w1 = wrap32 (wrap32 (d.value.grade + l.w1Or) + r.w1Or) ∧
        d.w2 = 1 + l.w2Or + r.w2Or))

theorem Aug_sub (l : node_ptr) (d : node_) (r : node_ptr) (h : Aug (node l d r)) :
    Aug l ∧ Aug r := ⟨h.1, h.2.1⟩

theorem Aug_refresh (l r : node_ptr) (d : node_) (hl : Aug l) (hr : Aug r) :
    Aug (node l (refresh l d r) r) :=
  ⟨hl, hr, rfl, rfl⟩

theorem Aug_rotLLsub_full (t : node_ptr) (h : Aug t) : Aug (rotLLsub t) := by
  unfold rotLLsub
  split
  · rename_i ll ld lr xd xr
    obtain ⟨hl, hxr, _, _⟩ := h
    exact Aug_refresh _ _ _ hl.1 (Aug_refresh _ _ _ hl.2.1 hxr)
  · exact h

theorem Aug_rotRRsub_full (t : node_ptr) (h : Aug t) : Aug (rotRRsub t) := by
  unfold rotRRsub
  split
  · rename_i xl xd rl rd rr
    obtain ⟨hxl, hr, _, _⟩ := h
    exact Aug_refresh _ _ _ (Aug_refresh _ _ _ hxl hr.1) hr.2.1
  · exact h

/-- The node and everything hanging off its ancestors satisfy the augmentation
invariant. -/
def AugAt (c : Loc) : Prop := Aug c.toTree ∧ ∀ f ∈ c.ctx, Aug f.sibling

theorem AugAt_allSub (c : Loc) (h : AugAt c) : AllSub Aug c :=
  ⟨h.1.1, h.1.2.1, h.2⟩

theorem AugAt_rotationLL (x : Loc) (h : AllSub Aug x) (hn : x.left = nil → Aug x.toTree) :
    AugAt (rotationLL x) := by
  obtain ⟨l, d, r, k⟩ := x
  obtain ⟨hl, hr, hk⟩ := h
  simp only at hl hr hk
  cases l with
  | nil => exact ⟨hn rfl, hk⟩
  | node ll ld lr =>
    simp only [rotationLL]
    refine ⟨Aug_refresh _ _ _ hl.2.1 hr, ?_⟩
    intro f hf
    simp only [List.mem_cons] at hf
    rcases hf with rfl | hf
    · exact hl.1
    · exact hk f hf

theorem AugAt_rotationRR (x : Loc) (h : AllSub Aug x) (hn : x.right = nil → Aug x.toTree) :
    AugAt (rotationRR x) := by
  obtain ⟨l, d, r, k⟩ := x
  obtain ⟨hl, hr, hk⟩ := h
  simp only at hl hr hk
  cases r with
  | nil => exact ⟨hn rfl, hk⟩
  | node rl rd rr =>
    simp only [rotationRR]
    refine ⟨Aug_refresh _ _ _ hl hr.1, ?_⟩
    intro f hf
    simp only [List.mem_cons] at hf
    rcases hf with rfl | hf
    · exact hr.2.1
    · exact hk f hf

theorem rotRRsub_nil (t : node_ptr) (h : rotRRsub t = nil) : t = nil := by
  unfold rotRRsub at h
  split at h
  · cases h
  · exact h

theorem rotLLsub_nil (t : node_ptr) (h : rotLLsub t = nil) : t = nil := by
  unfold rotLLsub at h
  split at h
  · cases h
  · exact h

theorem AugAt_rotationLR (x : Loc) (h : AugAt x) : AugAt (rotationLR x) := by
  obtain ⟨hl, hr, hk⟩ := AugAt_allSub x h
  refine AugAt_rotationLL _ ⟨Aug_rotRRsub_full _ hl, hr, hk⟩ ?_
  intro hn
  have := rotRRsub_nil _ hn
  simp only [Loc.toTree, this, rotRRsub] at hn ⊢
  have h1 := h.1
  simp only [Loc.toTree, this] at h1
  exact h1

theorem AugAt_rotationRL (x : Loc) (h : AugAt x) : AugAt (rotationRL x) := by
  obtain ⟨hl, hr, hk⟩ := AugAt_allSub x h
  refine AugAt_rotationRR _ ⟨hl, Aug_rotLLsub_full _ hr, hk⟩ ?_
  intro hn
  have := rotLLsub_nil _ hn
  simp only [Loc.toTree, this, rotLLsub] at hn ⊢
  have h1 := h.1
  simp only [Loc.toTree, this] at h1
  exact h1

theorem AugAt_firstTest (c : Loc) (h : AugAt c) : AugAt (firstTest c) := by
  unfold firstTest
  split
  · split
    · exact AugAt_rotationLL c (AugAt_allSub c h) (fun _ => h.1)
    · exact AugAt_rotationLR c h
  · exact h

theorem AugAt_secondTest (c : Loc) (h : AugAt c) : AugAt (secondTest c) := by
  unfold secondTest
  split
  · split
    · exact AugAt_rotationRR c (AugAt_allSub c h) (fun _ => h.1)
    · exact AugAt_rotationRL c h
  · exact h

theorem AugAt_rebalanceStep (c : Loc) (h : AllSub Aug c) : AugAt (rebalanceStep c) := by
  simp only [rebalanceStep, checkBfAndRotate_eq]
  exact AugAt_secondTest _ (AugAt_firstTest _ ⟨Aug_refresh _ _ _ h.1 h.2.1, h.2.2⟩)

theorem AugAt_parent (c p : Loc) (h : AugAt c) (hp : c.parent = some p) : AllSub Aug p := by
  obtain ⟨l, d, r, k⟩ := c
  obtain ⟨ht, hk⟩ := h
  cases k with
  | nil => simp [Loc.parent] at hp
  | cons f k =>
    have hf := hk f (by simp)
    have hk2 : ∀ g ∈ k, Aug g.sibling := fun g hg => hk g (by simp [hg])
    cases f <;> simp only [Loc.parent, Option.some.injEq] at hp <;> subst hp
    · exact ⟨ht, hf, hk2⟩
    · exact ⟨hf, ht, hk2⟩

theorem Aug_rebalance (c : Loc) (h : AllSub Aug c) : Aug (checkBfAndRotateFromNodeToRoot c) :=
  rebalance_induct (AllSub Aug) Aug
    (fun x p hx hp => AugAt_parent _ p (AugAt_rebalanceStep x hx) hp)
    (fun x hx _ => (AugAt_rebalanceStep x hx).1) c h

theorem insert_Aug (t : avlTree) (v : tree_t) (h : Aug t.root) : Aug (t.insert v).root := by
  by_cases hc : t.isContain v.id v.salary = true
  · rw [insert_of_contained t v hc]; exact h
  · simp only [avlTree.insert, hc, if_false]
    exact Aug_rebalance _ (insertNode_allSub Aug Aug_sub trivial t.root [] _ h (by simp))

theorem remove_Aug (t : avlTree) (id salary : Int) (h : Aug t.root) :
    Aug (t.remove id salary).root := by
  by_cases hc : t.isContain id salary = false
  · rw [remove_of_not_contained t id salary hc]; exact h
  · simp only [avlTree.remove, hc, if_false]
    obtain ⟨h1, h2⟩ := removeNode_sub Aug Aug_sub trivial t.root ⟨id, salary, 0⟩ h
    generalize removeNodeInSubTree t.root ⟨id, salary, 0⟩ = res at h1 h2
    obtain ⟨root0, parent⟩ := res
    cases parent with
    | none => exact h1 rfl
    | some p => exact Aug_rebalance p (h2 p rfl)

/-! ## The pieces of `extend` -/

/-- The records an iterator position still has to visit, itself included. -/
def visited : Option Loc → List tree_t
  | none => []
  | some c => c.d.value :: c.after

theorem visited_next (c : Loc) : visited (iteratorNext (some c)) = c.after := by
  have := iteratorNext_spec c
  split at this
  · rename_i h; rw [h, this]; rfl
  · rename_i p h; rw [h]; exact this.2.2

theorem fillArray_spec (n : Nat) : ∀ (it : Option Loc) (acc : List tree_t),
    fillArray n it acc =
      if (visited it).length ≤ n then
        Except.ok (acc ++ visited it ++ List.replicate (n - (visited it).length) ⟨0, 0, 0⟩)
      else Except.error Error.badIndex := by
  induction n with
  | zero =>
    intro it acc
    cases it with
    | none => simp [fillArray, visited]
    | some c => simp [fillArray, visited]
  | succ n ih =>
    intro it acc
    cases it with
    | none => simp [fillArray, visited]
    | some c =>
      simp only [fillArray, ih, visited_next]
      simp only [visited, List.length_cons, Nat.add_le_add_iff_right, Nat.add_sub_add_right,
        List.append_assoc, List.singleton_append]

/-- Data-model invariant of the tree object: `size` is the number of nodes and the cached
`min` and `max` are the leftmost and the rightmost node. -/
def WellFormed (t : avlTree) : Prop :=
  t.size = numNodes t.root ∧ t.min = minOfRoot t.root ∧ t.max = maxOfRoot t.root

instance (t : avlTree) : Decidable (WellFormed t) := by unfold WellFormed; infer_instance

theorem visited_minOfRoot (root : node_ptr) : visited (minOfRoot root) = toList root := by
  cases root with
  | nil => rfl
  | node l d r =>
    obtain ⟨_, _, h3⟩ := getMinAux_spec l d r []
    simp only [minOfRoot, node_ptr.toLoc, Option.map_some', getMinInSubTree, visited, h3,
      ctxRight, List.append_nil]

theorem getArrayFromTree_spec (t : avlTree) (h : WellFormed t) :
    getArrayFromTree t = Except.ok (toList t.root) := by
  obtain ⟨h1, h2, _⟩ := h
  simp only [getArrayFromTree, avlTree.getSize, avlTree.begin, fillArray_spec, h1, h2,
    visited_minOfRoot, Int.toNat_ofNat, numNodes_eq_length]
  simp

theorem mergeArrays_length : ∀ (a b : List tree_t),
    (mergeArrays a b).length = a.length + b.length
  | [], b => by simp [mergeArrays]
  | a :: as, [] => by simp [mergeArrays]
  | a :: as, b :: bs => by
    simp only [mergeArrays]
    split
    · simp [mergeArrays_length as (b :: bs)]; omega
    · simp [mergeArrays_length (a :: as) bs]; omega

theorem inorderFill_spec (t : node_ptr) : ∀ vs : List tree_t, numNodes t ≤ vs.length →
    ∃ t1, inorderTraversalWithFunctorAux t vs = Except.ok (t1, vs.drop (numNodes t)) ∧
      Aug t1 ∧ toList t1 = vs.take (numNodes t) ∧ numNodes t1 = numNodes t := by
  induction t with
  | nil => intro vs _; exact ⟨nil, by simp [inorderTraversalWithFunctorAux, numNodes], trivial,
      by simp [toList, numNodes], rfl⟩
  | node l d r ihl ihr =>
    intro vs hlen
    simp only [numNodes] at hlen
    obtain ⟨l1, e1, a1, t1, n1⟩ := ihl vs (by omega)
    have hne : vs.drop (numNodes l) ≠ [] := by
      intro h
      have := congrArg List.length h
      simp at this
      omega
    obtain ⟨v, vs2, hv⟩ := List.exists_cons_of_ne_nil hne
    have hlen2 : numNodes r ≤ vs2.length := by
      have := congrArg List.length hv
      simp at this
      omega
    obtain ⟨r1, e2, a2, t2, n2⟩ := ihr vs2 hlen2
    refine ⟨node l1 (updateW2 l1 (updateW1 l1 { d with value := v } r1) r1) r1, ?_, ?_, ?_, ?_⟩
    · simp only [inorderTraversalWithFunctorAux, e1, hv, e2, numNodes]
      congr 2
      have : vs2 = vs.drop (numNodes l + 1) := by
        have h := congrArg (List.drop 1) hv
        simpa [List.drop_drop, Nat.add_comm] using h.symm
      rw [this, List.drop_drop]
    · exact ⟨a1, a2, rfl, rfl⟩
    · simp only [toList, t1, t2, numNodes, updateW2, updateW1]
      have hvs : vs = vs.take (numNodes l) ++ v :: vs2 := by
        rw [← hv, List.take_append_drop]
      conv_rhs => rw [hvs]
      have hl : (vs.take (numNodes l)).length = numNodes l := by
        simp; omega
      rw [List.take_append_eq_append_take, hl]
      simp only [List.take_of_length_le (by omega : (List.take (numNodes l) vs).length ≤ numNodes l + 1 + numNodes r)]
      congr 1
      have : numNodes l + 1 + numNodes r - numNodes l = numNodes r + 1 := by omega
      rw [this, List.take_succ_cons]
    · simp [numNodes, n1, n2]

/-! ## The almost complete tree -/

theorem heightLoop_spec (n : Int) : ∀ (fuel e : Nat) (h k m : Int),
    h = e → k = 2 ^ e → m = 2 ^ (e + 1) - 1 → n ≤ m + fuel → (e = 0 ∨ (2 : Int) ^ e - 1 < n) →
    ∃ e1 : Nat, (heightLoop n fuel h k m).1 = e1 ∧ (heightLoop n fuel h k m).2 = 2 ^ (e1 + 1) - 1 ∧
      n ≤ 2 ^ (e1 + 1) - 1 ∧ (e1 = 0 ∨ (2 : Int) ^ e1 - 1 < n) := by
  intro fuel
  induction fuel with
  | zero =>
    intro e h k m hh hk hm hn hprev
    refine ⟨e, by simp [heightLoop, hh], by simp [heightLoop, hm], ?_, hprev⟩
    rw [← hm]; simpa using hn
  | succ fuel ih =>
    intro e h k m hh hk hm hn hprev
    simp only [heightLoop]
    split
    · rename_i hlt
      have hpos : (0 : Int) < 2 ^ e := by positivity
      refine ih (e + 1) (h + 1) (k * 2) (m + k * 2) (by simp [hh]) (by rw [hk, pow_succ])
        ?_ ?_ ?_
      · rw [hm, hk, pow_succ, pow_succ, pow_succ]; ring
      · rw [hk]; push_cast at hn ⊢; omega
      · right
        rw [pow_succ]
        rw [hm, pow_succ] at hlt
        omega
    · rename_i hge
      refine ⟨e, hh, hm, ?_, hprev⟩
      rw [← hm]; omega

theorem getHeight_spec (n : Int) (hn : 1 ≤ n) :
    ∃ e : Nat, getHeightAndNumOfNodesInCompleteBinaryTree n = ((e : Int), 2 ^ (e + 1) - 1) ∧
      n ≤ 2 ^ (e + 1) - 1 ∧ (e = 0 ∨ (2 : Int) ^ e - 1 < n) := by
  obtain ⟨e, h1, h2, h3, h4⟩ := heightLoop_spec n n.toNat 0 0 1 1 rfl rfl rfl (by omega) (Or.inl rfl)
  refine ⟨e, ?_, h3, h4⟩
  unfold getHeightAndNumOfNodesInCompleteBinaryTree
  exact Prod.ext h1 h2

theorem numNodes_completeLevels (L : Nat) : (numNodes (completeLevels L) : Int) = 2 ^ L - 1 := by
  induction L with
  | zero => rfl
  | succ L ih =>
    simp only [completeLevels, numNodes]
    push_cast
    rw [ih, pow_succ]; ring

theorem completeLevels_ne_nil (L : Nat) : completeLevels (L + 1) ≠ nil := by
  simp [completeLevels]

/-- Removing leaves from a complete subtree with a parent: the counter drops by the
number of removed nodes, which is the counter itself up to the number of bottom leaves. -/
theorem removeLeafs_complete (L : Nat) : ∀ c : Int,
    (numNodes (removeLeafsFromTheRightInSubTree (completeLevels (L + 1)) true c).1 : Int)
      = 2 ^ (L + 1) - 1 - min (max c 0) (2 ^ L) ∧
    (removeLeafsFromTheRightInSubTree (completeLevels (L + 1)) true c).2
      = c - min (max c 0) (2 ^ L) := by
  induction L with
  | zero =>
    intro c
    simp only [completeLevels, removeLeafsFromTheRightInSubTree]
    by_cases hc : c > 0
    · simp [hc, numNodes]; omega
    · simp [hc, numNodes, removeLeafsFromTheRightInSubTree]; omega
  | succ L ih =>
    intro c
    have hpos : (0 : Int) < 2 ^ L := by positivity
    obtain ⟨r1, r2⟩ := ih c
    obtain ⟨l1, l2⟩ := ih (c - min (max c 0) (2 ^ L))
    have hne := completeLevels_ne_nil L
    rw [completeLevels, removeLeafsFromTheRightInSubTree]
    simp only [hne, false_and, and_false, if_false, numNodes]
    rw [r2]
    push_cast
    rw [l1, l2, r1, pow_succ, pow_succ]
    constructor <;> omega

theorem removeLeafs_complete_root (L : Nat) (c : Int) :
    (numNodes (removeLeafsFromTheRightInSubTree (completeLevels (L + 2)) false c).1 : Int)
      = 2 ^ (L + 2) - 1 - min (max c 0) (2 ^ (L + 1)) := by
  have hpos : (0 : Int) < 2 ^ L := by positivity
  obtain ⟨r1, r2⟩ := removeLeafs_complete L c
  obtain ⟨l1, l2⟩ := removeLeafs_complete L (c - min (max c 0) (2 ^ L))
  have hne := completeLevels_ne_nil L
  rw [completeLevels, removeLeafsFromTheRightInSubTree]
  simp only [hne, false_and, and_false, if_false, numNodes]
  rw [r2]
  push_cast
  rw [l1, r1, pow_succ, pow_succ, pow_succ]
  omega

theorem numNodes_createAlmostComplete (n : Int) (hn : 1 ≤ n) :
    (numNodes (createAlmostCompleteBinaryTree n) : Int) = n := by
  obtain ⟨e, h1, h2, h3⟩ := getHeight_spec n hn
  simp only [createAlmostCompleteBinaryTree, h1, createCompleteBinaryTree]
  have he : ((e : Int) + 1).toNat = e + 1 := by omega
  rw [he]
  cases e with
  | zero =>
    simp at h2
    have : n = 1 := by omega
    subst this
    rfl
  | succ e =>
    have hpos : (0 : Int) < 2 ^ e := by positivity
    rw [removeLeafs_complete_root e]
    rcases h3 with h3 | h3
    · omega
    · rw [pow_succ] at h3
      rw [pow_succ, pow_succ] at h2 ⊢
      omega

/-! ## `extend` and the reachable trees -/

theorem recursiveCopy_eq (t : node_ptr) : recursiveCopyOfSubTree t = t := by
  induction t with
  | nil => rfl
  | node l d r ihl ihr => simp [recursiveCopyOfSubTree, ihl, ihr]

theorem numNodes_eq_zero (t : node_ptr) : numNodes t = 0 ↔ t = nil := by
  cases t with
  | nil => simp [numNodes]
  | node l d r => simp [numNodes]

/-- What `extend` does on two well-formed tree objects. -/
theorem extend_spec (t other : avlTree) (ht : WellFormed t) (ho : WellFormed other) :
    ∃ t1, t.extend other = Except.ok t1 ∧ WellFormed t1 ∧
      (numNodes t1.root = numNodes t.root + numNodes other.root) ∧
      (Aug t.root → Aug other.root → Aug t1.root) ∧
      (other.root = nil → t1 = t) ∧
      (other.root ≠ nil → t.root = nil → toList t1.root = toList other.root) ∧
      (other.root ≠ nil → t.root ≠ nil →
        toList t1.root = mergeArrays (toList t.root) (toList other.root)) := by
  have hts := ht.1
  have hos := ho.1
  by_cases h1 : other.size = 0
  · have hon : other.root = nil := by
      rw [← numNodes_eq_zero]; omega
    refine ⟨t, by simp [avlTree.extend, h1], ht, by simp [hon, numNodes], fun h _ => h,
      fun _ => rfl, fun h => absurd hon h, fun h => absurd hon h⟩
  · have hon : other.root ≠ nil := by
      intro h; rw [h] at hos; exact h1 hos
    by_cases h2 : t.size = 0
    · have htn : t.root = nil := by
        rw [← numNodes_eq_zero]; omega
      refine ⟨avlTree.assign other, by simp [avlTree.extend, h1, h2, avlTree.getSize], ?_, ?_,
        ?_, fun h => absurd h hon, ?_, fun _ h => absurd htn h⟩
      · simp only [WellFormed, avlTree.assign, recursiveCopy_eq, hos, and_self]
      · simp [avlTree.assign, recursiveCopy_eq, htn, numNodes]
      · intro _ h; simpa [avlTree.assign, recursiveCopy_eq] using h
      · intro _ _; simp [avlTree.assign, recursiveCopy_eq]
    · have htn : t.root ≠ nil := by
        intro h; rw [h] at hts; exact h2 hts
      have hlen : (1 : Int) ≤ t.getSize + other.getSize := by
        simp only [avlTree.getSize]; omega
      have hcount := numNodes_createAlmostComplete _ hlen
      have hsz : t.getSize + other.getSize
          = ((numNodes t.root : Nat) : Int) + (numNodes other.root : Nat) := by
        simp only [avlTree.getSize, hts, hos]
      have hm := mergeArrays_length (toList t.root) (toList other.root)
      rw [← numNodes_eq_length, ← numNodes_eq_length] at hm
      obtain ⟨t1, e1, a1, l1, n1⟩ := inorderFill_spec
        (createAlmostCompleteBinaryTree (t.getSize + other.getSize))
        (mergeArrays (toList t.root) (toList other.root)) (by omega)
      refine ⟨⟨t1, t.getSize + other.getSize, maxOfRoot t1, minOfRoot t1⟩, ?_, ?_, ?_,
        fun _ _ => a1, fun h => absurd h hon, fun _ h => absurd h htn, ?_⟩
      · have h2g : ¬ t.getSize = 0 := h2
        simp only [avlTree.extend, h1, h2g, if_false,
          getArrayFromTree_spec t ht, getArrayFromTree_spec other ho, e1]
      · refine ⟨?_, rfl, rfl⟩
        show t.getSize + other.getSize = ((numNodes t1 : Nat) : Int)
        omega
      · show numNodes t1 = numNodes t.root + numNodes other.root
        omega
      · intro _ _
        show toList t1 = mergeArrays (toList t.root) (toList other.root)
        rw [l1, List.take_of_length_le]
        omega

/-- A second tree object, holding the single record `(9, 50, 2)`. -/
def singleTree : avlTree :=
  ⟨node nil ⟨⟨9, 50, 2⟩, 0, 2, 1⟩ nil, 1,
    maxOfRoot (node nil ⟨⟨9, 50, 2⟩, 0, 2, 1⟩ nil), minOfRoot (node nil ⟨⟨9, 50, 2⟩, 0, 2, 1⟩ nil)⟩

theorem insert_WellFormed (t : avlTree) (v : tree_t) (h : WellFormed t) :
    WellFormed (t.insert v) := by
  by_cases hc : t.isContain v.id v.salary = true
  · rw [insert_of_contained t v hc]; exact h
  · simp only [Bool.not_eq_true] at hc
    obtain ⟨L1, L2, h1, h2, h3, h4, h5, _⟩ := insert_spec t v hc
    refine ⟨?_, h5, h4⟩
    rw [h3, h.1, numNodes_eq_length, numNodes_eq_length, h1, h2]
    simp
    omega

theorem remove_WellFormed (t : avlTree) (id salary : Int) (h : WellFormed t) :
    WellFormed (t.remove id salary) := by
  cases hf : findNodeInSubTree t.root [] ⟨id, salary, 0⟩ with
  | none =>
    rw [remove_of_not_contained t id salary (by simp [avlTree.isContain, hf])]
    exact h
  | some c =>
    obtain ⟨h1, h2⟩ := remove_spec t id salary c hf
    obtain ⟨_, hroot, _⟩ := find_spec t.root [] _ c hf
    have hsplit : toList t.root = c.before ++ c.d.value :: c.after := by
      rw [← toList_root_split, hroot]; rfl
    have hsize : (t.remove id salary).size = numNodes (t.remove id salary).root := by
      rw [h2, h.1, numNodes_eq_length, numNodes_eq_length, h1, hsplit]
      simp
      omega
    have hc : t.isContain id salary = true := by simp [avlTree.isContain, hf]
    refine ⟨hsize, ?_, ?_⟩
    · by_cases hz : (t.remove id salary).size = 0
      · have hnil : (t.remove id salary).root = nil := by
          rw [← numNodes_eq_zero]; omega
        rw [hnil]
        simp only [avlTree.remove, hc, Bool.true_eq_false, if_false] at hz ⊢
        simp [hz, minOfRoot, node_ptr.toLoc]
      · simp only [avlTree.remove, hc, Bool.true_eq_false, if_false] at hz ⊢
        simp [hz]
    · by_cases hz : (t.remove id salary).size = 0
      · have hnil : (t.remove id salary).root = nil := by
          rw [← numNodes_eq_zero]; omega
        rw [hnil]
        simp only [avlTree.remove, hc, Bool.true_eq_false, if_false] at hz ⊢
        simp [hz, maxOfRoot, node_ptr.toLoc]
      · simp only [avlTree.remove, hc, Bool.true_eq_false, if_false] at hz ⊢
        simp [hz]

theorem Aug_w2 (t : node_ptr) (h : Aug t) : t.w2Or = numNodes t := by
  induction t with
  | nil => rfl
  | node l d r ihl ihr =>
    obtain ⟨hl, hr, _, h2⟩ := h
    have e1 := ihl hl
    have e2 := ihr hr
    show d.w2 = ((numNodes l + 1 + numNodes r : Nat) : Int)
    rw [h2, e1, e2]
    push_cast
    ring

/-- The trees built from the empty tree by `insert`, `remove` and `extend`, the latter
under its asserted precondition `IsIntersectionEmpty`. -/
inductive Reachable : avlTree → Prop where
  | empty : Reachable avlTree.empty
  | insert (t : avlTree) (r : tree_t) : Reachable t → Reachable (t.insert r)
  | remove (t : avlTree) (id salary : Int) : Reachable t → Reachable (t.remove id salary)
  | extend (t other t1 : avlTree) : Reachable t → Reachable other →
      IsIntersectionEmpty t other = true → t.extend other = Except.ok t1 → Reachable t1

theorem Reachable_inv (t : avlTree) (h : Reachable t) : WellFormed t ∧ Aug t.root := by
  induction h with
  | empty => exact ⟨by decide, trivial⟩
  | insert t r _ ih => exact ⟨insert_WellFormed t r ih.1, insert_Aug t r ih.2⟩
  | remove t id salary _ ih => exact ⟨remove_WellFormed t id salary ih.1, remove_Aug t id salary ih.2⟩
  | extend t other t1 _ _ _ he iht iho =>
    obtain ⟨t2, e2, w2, _, a2, _⟩ := extend_spec t other iht.1 iho.1
    rw [e2] at he
    cases he
    exact ⟨w2, a2 iht.2 iho.2⟩

/-- C4. Size consistency: for every tree reachable from the empty tree by `insert`,
`remove` and `extend` (on disjoint trees), `getSize()` is the number of nodes, which is
the count aggregate `w2` of the root (0 for an absent root), and it is 0 exactly when the
root is absent; moreover `extend` of two reachable trees never throws. -/
theorem C4_size_consistency (t : avlTree) (h : Reachable t) :
    t.getSize = numNodes t.root ∧ (numNodes t.root : Int) = t.root.w2Or ∧
    (t.getSize = 0 ↔ t.root = nil) ∧
    (∀ other, Reachable other → ∃ t1, t.extend other = Except.ok t1) := by
  obtain ⟨hw, ha⟩ := Reachable_inv t h
  refine ⟨hw.1, (Aug_w2 t.root ha).symm, ?_, ?_⟩
  · rw [← numNodes_eq_zero]
    simp only [avlTree.getSize, hw.1]
    omega
  · intro other ho
    obtain ⟨t1, e1, _⟩ := extend_spec t other hw (Reachable_inv other ho).1
    exact ⟨t1, e1⟩

/-- Witness for C4: the tree after one `insert`. -/
theorem C4_size_consistency_witness :
    (avlTree.empty.insert ⟨1, 10, 5⟩).getSize = numNodes (avlTree.empty.insert ⟨1, 10, 5⟩).root :=
  (C4_size_consistency _ (Reachable.insert _ _ Reachable.empty)).1

/-! ## The AVL invariant -/

/-- True height of a subtree: -1 for the empty subtree, 0 for a leaf. -/
def realHeight : node_ptr → Int
  | nil => -1
  | node l _ r => max (realHeight l) (realHeight r) + 1

/-- Every node's cached height equals the true height of its subtree. -/
def HeightsCorrect : node_ptr → Prop
  | nil => True
  | node l d r => HeightsCorrect l ∧ HeightsCorrect r ∧ (d.height : Int) = realHeight (node l d r)

/-- Every node's balance factor, on true heights, is -1, 0 or 1. -/
def Balanced : node_ptr → Prop
  | nil => True
  | node l _ r =>
    Balanced l ∧ Balanced r ∧ -1 ≤ realHeight l - realHeight r ∧ realHeight l - realHeight r ≤ 1

instance HeightsCorrect.dec : (t : node_ptr) → Decidable (HeightsCorrect t)
  | nil => isTrue trivial
  | node l d r =>
    let _ := HeightsCorrect.dec l
    let _ := HeightsCorrect.dec r
    (inferInstance : Decidable
      (HeightsCorrect l ∧ HeightsCorrect r ∧ (d.height : Int) = realHeight (node l d r)))

instance Balanced.dec : (t : node_ptr) → Decidable (Balanced t)
  | nil => isTrue trivial
  | node l _ r =>
    let _ := Balanced.dec l
    let _ := Balanced.dec r
    (inferInstance : Decidable
      (Balanced l ∧ Balanced r ∧ -1 ≤ realHeight l - realHeight r ∧
        realHeight l - realHeight r ≤ 1))

/-- The AVL invariant on cached heights: every cached height is the value `updateheight`
gives, and every `getBf()` is -1, 0 or 1. -/
def AVL : node_ptr → Prop
  | nil => True
  | node l d r =>
    AVL l ∧ AVL r ∧ (d.height : Int) = max l.heightOr r.heightOr + 1 ∧
      -1 ≤ l.heightOr - r.heightOr ∧ l.heightOr - r.heightOr ≤ 1

theorem HeightsCorrect_heightOr (t : node_ptr) (h : HeightsCorrect t) :
    t.heightOr = realHeight t := by
  cases t with
  | nil => rfl
  | node l d r => exact h.2.2

theorem AVL_iff (t : node_ptr) : AVL t ↔ HeightsCorrect t ∧ Balanced t := by
  induction t with
  | nil => simp [AVL, HeightsCorrect, Balanced]
  | node l d r ihl ihr =>
    simp only [AVL, HeightsCorrect, Balanced, ihl, ihr]
    constructor
    · rintro ⟨⟨hl, bl⟩, ⟨hr, br⟩, h1, h2, h3⟩
      rw [HeightsCorrect_heightOr l hl, HeightsCorrect_heightOr r hr] at h1 h2 h3
      exact ⟨⟨hl, hr, by rw [h1]; rfl⟩, bl, br, h2, h3⟩
    · rintro ⟨⟨hl, hr, h1⟩, bl, br, h2, h3⟩
      rw [HeightsCorrect_heightOr l hl, HeightsCorrect_heightOr r hr]
      exact ⟨⟨hl, bl⟩, ⟨hr, br⟩, by rw [h1]; rfl, h2, h3⟩

theorem AVL_sub (l : node_ptr) (d : node_) (r : node_ptr) (h : AVL (node l d r)) :
    AVL l ∧ AVL r := ⟨h.1, h.2.1⟩

theorem AVL_refresh (l r : node_ptr) (d : node_) (hl : AVL l) (hr : AVL r)
    (h1 : -1 ≤ l.heightOr - r.heightOr) (h2 : l.heightOr - r.heightOr ≤ 1) :
    AVL (node l (refresh l d r) r) :=
  ⟨hl, hr, refresh_height_cast l r d, h1, h2⟩

/-- What a rotation at a node with AVL subtrees whose heights differ by 2 leaves: the
risen node in the slot of the node, AVL-balanced, of the same height or one less. -/
def RotAVL (x1 x : Loc) : Prop :=
  ∃ pl pd pr, x1.parent = some ⟨pl, pd, pr, x.ctx⟩ ∧ AVL pl ∧ AVL pr ∧
    -1 ≤ pl.heightOr - pr.heightOr ∧ pl.heightOr - pr.heightOr ≤ 1 ∧
    (max pl.heightOr pr.heightOr = max x.left.heightOr x.right.heightOr ∨
      max pl.heightOr pr.heightOr + 1 = max x.left.heightOr x.right.heightOr) ∧
    getBf x1.left x1.right ≠ -2

theorem rotLL_avl (ll lr r : node_ptr) (ld d : node_) (k : List Frame)
    (hl : AVL (node ll ld lr)) (hr : AVL r)
    (hb : (ld.height : Int) - r.heightOr = 2) (hlb : ll.heightOr - lr.heightOr ≥ 0) :
    RotAVL (rotationLL ⟨node ll ld lr, d, r, k⟩) ⟨node ll ld lr, d, r, k⟩ := by
  obtain ⟨hll, hlr, e1, e2, e3⟩ := hl
  have a1 := heightOr_ge ll
  have a2 := heightOr_ge lr
  have a3 := heightOr_ge r
  simp only [rotationLL, RotAVL, Loc.parent, Loc.toTree]
  refine ⟨_, _, _, rfl, hll, AVL_refresh _ _ _ hlr hr (by omega) (by omega), ?_, ?_, ?_, ?_⟩
  all_goals simp only [heightOr_node, refresh_height_cast, getBf]
  all_goals omega

theorem rotRR_avl (l rl rr : node_ptr) (rd d : node_) (k : List Frame)
    (hl : AVL l) (hr : AVL (node rl rd rr))
    (hb : l.heightOr - (rd.height : Int) = -2) (hrb : rl.heightOr - rr.heightOr ≤ 0) :
    RotAVL (rotationRR ⟨l, d, node rl rd rr, k⟩) ⟨l, d, node rl rd rr, k⟩ ∧
    getBf (rotationRR ⟨l, d, node rl rd rr, k⟩).left
      (rotationRR ⟨l, d, node rl rd rr, k⟩).right ≠ 2 := by
  obtain ⟨hrl, hrr, e1, e2, e3⟩ := hr
  have a1 := heightOr_ge rl
  have a2 := heightOr_ge rr
  have a3 := heightOr_ge l
  simp only [rotationRR, RotAVL, Loc.parent, Loc.toTree]
  refine ⟨⟨_, _, _, rfl, AVL_refresh _ _ _ hl hrl (by omega) (by omega), hrr, ?_, ?_, ?_, ?_⟩, ?_⟩
  all_goals simp only [heightOr_node, refresh_height_cast, getBf]
  all_goals omega

theorem rotLR_avl (ll lra lrb r : node_ptr) (ld lrd d : node_) (k : List Frame)
    (hl : AVL (node ll ld (node lra lrd lrb))) (hr : AVL r)
    (hb : (ld.height : Int) - r.heightOr = 2) (hlb : ¬ ll.heightOr - (lrd.height : Int) ≥ 0) :
    RotAVL (rotationLR ⟨node ll ld (node lra lrd lrb), d, r, k⟩)
      ⟨node ll ld (node lra lrd lrb), d, r, k⟩ := by
  obtain ⟨hll, ⟨hlra, hlrb, f1, f2, f3⟩, e1, e2, e3⟩ := hl
  simp only [heightOr_node] at e1 e2 e3
  have a1 := heightOr_ge ll
  have a2 := heightOr_ge lra
  have a3 := heightOr_ge lrb
  have a4 := heightOr_ge r
  simp only [rotationLR, rotRRsub, rotationLL, RotAVL, Loc.parent, Loc.toTree]
  refine ⟨_, _, _, rfl, AVL_refresh _ _ _ hll hlra (by omega) (by omega),
    AVL_refresh _ _ _ hlrb hr (by omega) (by omega), ?_, ?_, ?_, ?_⟩
  all_goals simp only [heightOr_node, refresh_height_cast, getBf]
  all_goals omega

theorem rotRL_avl (l rla rlb rr : node_ptr) (rd rld d : node_) (k : List Frame)
    (hl : AVL l) (hr : AVL (node (node rla rld rlb) rd rr))
    (hb : l.heightOr - (rd.height : Int) = -2) (hrb : ¬ (rld.height : Int) - rr.heightOr ≤ 0) :
    RotAVL (rotationRL ⟨l, d, node (node rla rld rlb) rd rr, k⟩)
      ⟨l, d, node (node rla rld rlb) rd rr, k⟩ := by
  obtain ⟨⟨hrla, hrlb, f1, f2, f3⟩, hrr, e1, e2, e3⟩ := hr
  simp only [heightOr_node] at e1 e2 e3
  have a1 := heightOr_ge rr
  have a2 := heightOr_ge rla
  have a3 := heightOr_ge rlb
  have a4 := heightOr_ge l
  simp only [rotationRL, rotLLsub, rotationRR, RotAVL, Loc.parent, Loc.toTree]
  refine ⟨_, _, _, rfl, AVL_refresh _ _ _ hl hrla (by omega) (by omega),
    AVL_refresh _ _ _ hrlb hrr (by omega) (by omega), ?_, ?_, ?_, ?_⟩
  all_goals simp only [heightOr_node, refresh_height_cast, getBf]
  all_goals omega

/-- The ancestors of a hole were AVL-balanced around a subtree of cached height `h0`:
every hanging subtree is AVL and differs in height by at most 1 from what was below. -/
def CtxOK : List Frame → Int → Prop
  | [], _ => True
  | f :: k, h0 =>
    AVL f.sibling ∧ -1 ≤ h0 - f.sibling.heightOr ∧ h0 - f.sibling.heightOr ≤ 1 ∧
      CtxOK k (max h0 f.sibling.heightOr + 1)

/-- Invariant of the walk to the root: the subtrees of the node are AVL with heights at
most 2 apart, and the height the node is about to get is within 1 of the height `h0` its
ancestors were balanced around (not below it when the node is about to be rotated). -/
def LInv (c : Loc) : Prop :=
  ∃ h0 : Int, AVL c.left ∧ AVL c.right ∧
    -2 ≤ c.left.heightOr - c.right.heightOr ∧ c.left.heightOr - c.right.heightOr ≤ 2 ∧
    max c.left.heightOr c.right.heightOr + 1 ≤ h0 + 1 ∧
    h0 - 1 ≤ max c.left.heightOr c.right.heightOr + 1 ∧
    ((c.left.heightOr - c.right.heightOr = 2 ∨ c.left.heightOr - c.right.heightOr = -2) →
      h0 ≤ max c.left.heightOr c.right.heightOr + 1) ∧
    CtxOK c.ctx h0

/-- A subtree of height within 1 of the former one is put below balanced ancestors. -/
theorem LInv_toParent (f : Frame) (k : List Frame) (t : node_ptr) (h0 : Int)
    (hk : CtxOK (f :: k) h0) (ht : AVL t)
    (h1 : t.heightOr ≤ h0 + 1) (h2 : h0 - 1 ≤ t.heightOr) : LInv (f.toParent t k) := by
  obtain ⟨hs, b1, b2, hk2⟩ := hk
  have a1 := heightOr_ge t
  have a2 := heightOr_ge f.sibling
  cases f with
  | inLeft d r =>
    simp only [Frame.sibling] at hs b1 b2 hk2 a2
    exact ⟨max h0 r.heightOr + 1, ht, hs, by simp only [Frame.toParent]; omega,
      by simp only [Frame.toParent]; omega, by simp only [Frame.toParent]; omega,
      by simp only [Frame.toParent]; omega, by simp only [Frame.toParent]; omega, hk2⟩
  | inRight l d =>
    simp only [Frame.sibling] at hs b1 b2 hk2 a2
    exact ⟨max h0 l.heightOr + 1, hs, ht, by simp only [Frame.toParent]; omega,
      by simp only [Frame.toParent]; omega, by simp only [Frame.toParent]; omega,
      by simp only [Frame.toParent]; omega, by simp only [Frame.toParent]; omega, hk2⟩

theorem parent_eq_toParent (c : Loc) (f : Frame) (k : List Frame) (h : c.ctx = f :: k) :
    c.parent = some (f.toParent c.toTree k) := by
  obtain ⟨l, d, r, k0⟩ := c
  simp only at h
  subst h
  cases f <;> rfl

theorem firstTest_avl (c : Loc) (hl : AVL c.left) (hr : AVL c.right) :
    (getBf c.left c.right = 2 ∧ RotAVL (firstTest c) c) ∨
    (¬ getBf c.left c.right = 2 ∧ firstTest c = c) := by
  obtain ⟨l, d, r, k⟩ := c
  simp only at hl hr
  have a := heightOr_ge r
  simp only [firstTest, getBf]
  by_cases hb : l.heightOr - r.heightOr = 2
  · left
    refine ⟨hb, ?_⟩
    rw [if_pos hb]
    cases l with
    | nil => simp at hb; omega
    | node ll ld lr =>
      simp only [heightOr_node] at hb
      by_cases hlb : (node ll ld lr).bf ≥ 0
      · rw [if_pos hlb]
        exact rotLL_avl ll lr r ld d k hl hr hb hlb
      · rw [if_neg hlb]
        cases lr with
        | nil => have := heightOr_ge ll; simp [node_ptr.bf, getBf] at hlb; omega
        | node lra lrd lrb => exact rotLR_avl ll lra lrb r ld lrd d k hl hr hb hlb
  · right
    exact ⟨hb, if_neg hb⟩

theorem secondTest_avl (c : Loc) (hl : AVL c.left) (hr : AVL c.right) :
    (getBf c.left c.right = -2 ∧ RotAVL (secondTest c) c) ∨
    (¬ getBf c.left c.right = -2 ∧ secondTest c = c) := by
  obtain ⟨l, d, r, k⟩ := c
  simp only at hl hr
  have a := heightOr_ge l
  simp only [secondTest, getBf]
  by_cases hb : l.heightOr - r.heightOr = -2
  · left
    refine ⟨hb, ?_⟩
    rw [if_pos hb]
    cases r with
    | nil => simp at hb; omega
    | node rl rd rr =>
      simp only [heightOr_node] at hb
      by_cases hrb : (node rl rd rr).bf ≤ 0
      · rw [if_pos hrb]
        exact (rotRR_avl l rl rr rd d k hl hr hb hrb).1
      · rw [if_neg hrb]
        cases rl with
        | nil => have := heightOr_ge rr; simp [node_ptr.bf, getBf] at hrb; omega
        | node rla rld rlb => exact rotRL_avl l rla rlb rr rd rld d k hl hr hb hrb
  · right
    exact ⟨hb, if_neg hb⟩

/-- One round of the walk: either the node is balanced and only refreshed, or a rotation
leaves the risen node, balanced, as the parent. -/
theorem rebalanceStep_avl (c : Loc) (hl : AVL c.left) (hr : AVL c.right) :
    ((getBf c.left c.right = 2 ∨ getBf c.left c.right = -2) ∧ RotAVL (rebalanceStep c) c) ∨
    (¬ (getBf c.left c.right = 2 ∨ getBf c.left c.right = -2) ∧
      rebalanceStep c = { c with d := refresh c.left c.d c.right }) := by
  simp only [rebalanceStep, checkBfAndRotate_eq]
  rcases firstTest_avl { c with d := refresh c.left c.d c.right } hl hr with ⟨hb, hrot⟩ | ⟨hb, he⟩
  · left
    refine ⟨Or.inl hb, ?_⟩
    obtain ⟨pl, pd, pr, hp, h1, h2, h3, h4, h5, h6⟩ := hrot
    have : secondTest (firstTest { c with d := refresh c.left c.d c.right })
        = firstTest { c with d := refresh c.left c.d c.right } := by
      unfold secondTest
      rw [if_neg h6]
    rw [this]
    exact ⟨pl, pd, pr, hp, h1, h2, h3, h4, h5, h6⟩
  · rw [he]
    rcases secondTest_avl { c with d := refresh c.left c.d c.right } hl hr with
      ⟨hb2, hrot⟩ | ⟨hb2, he2⟩
    · left
      refine ⟨Or.inr hb2, ?_⟩
      obtain ⟨pl, pd, pr, hp, h1, h2, h3, h4, h5, h6⟩ := hrot
      exact ⟨pl, pd, pr, hp, h1, h2, h3, h4, h5, h6⟩
    · right
      refine ⟨?_, he2⟩
      rintro (h | h)
      · exact hb h
      · exact hb2 h

theorem LInv_step (c p : Loc) (h : LInv c) (hp : (rebalanceStep c).parent = some p) :
    LInv p := by
  obtain ⟨h0, hl, hr, b1, b2, t1, t2, t3, hk⟩ := h
  rcases rebalanceStep_avl c hl hr with ⟨hb, pl, pd, pr, hp2, g1, g2, g3, g4, g5, _⟩ | ⟨hb, he⟩
  · rw [hp2] at hp
    simp only [Option.some.injEq] at hp
    subst hp
    have t3' := t3 (by simpa [getBf] using hb)
    refine ⟨h0, g1, g2, by simp only; omega, by simp only; omega, by simp only; omega,
      by simp only; omega, ?_, hk⟩
    simp only
    intro hh
    omega
  · rw [he] at hp
    obtain ⟨l, d, r, k⟩ := c
    cases k with
    | nil => simp [Loc.parent] at hp
    | cons f k =>
      rw [parent_eq_toParent _ f k rfl] at hp
      simp only [Option.some.injEq] at hp
      subst hp
      simp only [getBf] at hb
      simp only at hl hr b1 b2 t1 t2 t3 hk
      refine LInv_toParent f k _ h0 hk (AVL_refresh l r d hl hr (by omega) (by omega)) ?_ ?_
      · simp only [Loc.toTree, heightOr_node, refresh_height_cast]; omega
      · simp only [Loc.toTree, heightOr_node, refresh_height_cast]; omega

theorem LInv_end (c : Loc) (h : LInv c) (hp : (rebalanceStep c).parent = none) :
    AVL (rebalanceStep c).toTree := by
  obtain ⟨h0, hl, hr, b1, b2, t1, t2, t3, hk⟩ := h
  rcases rebalanceStep_avl c hl hr with ⟨hb, pl, pd, pr, hp2, _⟩ | ⟨hb, he⟩
  · rw [hp2] at hp; cases hp
  · rw [he]
    simp only [getBf] at hb
    exact AVL_refresh c.left c.right c.d hl hr (by omega) (by omega)

theorem AVL_rebalance (c : Loc) (h : LInv c) : AVL (checkBfAndRotateFromNodeToRoot c) :=
  rebalance_induct LInv AVL LInv_step LInv_end c h


theorem CtxOK_cons_left (l r : node_ptr) (d : node_) (k : List Frame)
    (h : AVL (node l d r)) (hk : CtxOK k (node l d r).heightOr) :
    CtxOK (Frame.inLeft d r :: k) l.heightOr := by
  obtain ⟨_, hr, e1, e2, e3⟩ := h
  refine ⟨hr, ?_, ?_, ?_⟩
  · simp only [Frame.sibling]; omega
  · simp only [Frame.sibling]; omega
  · simp only [Frame.sibling, heightOr_node, e1] at hk ⊢
    exact hk

theorem CtxOK_cons_right (l r : node_ptr) (d : node_) (k : List Frame)
    (h : AVL (node l d r)) (hk : CtxOK k (node l d r).heightOr) :
    CtxOK (Frame.inRight l d :: k) r.heightOr := by
  obtain ⟨hl, _, e1, e2, e3⟩ := h
  refine ⟨hl, ?_, ?_, ?_⟩
  · simp only [Frame.sibling]; omega
  · simp only [Frame.sibling]; omega
  · simp only [Frame.sibling, heightOr_node, e1, max_comm l.heightOr] at hk ⊢
    exact hk

theorem insertNode_ctxOK (t : node_ptr) : ∀ (k : List Frame) (nw : node_),
    AVL t → CtxOK k t.heightOr →
    (insertNodeToSubTree t k nw).left = nil ∧ (insertNodeToSubTree t k nw).right = nil ∧
      CtxOK (insertNodeToSubTree t k nw).ctx (-1) := by
  induction t with
  | nil => intro k nw _ hk; exact ⟨rfl, rfl, hk⟩
  | node l d r ihl ihr =>
    intro k nw ht hk
    simp only [insertNodeToSubTree]
    split
    · exact ihl _ nw ht.1 (CtxOK_cons_left l r d k ht hk)
    · exact ihr _ nw ht.2.1 (CtxOK_cons_right l r d k ht hk)

theorem insert_AVL (t : avlTree) (v : tree_t) (h : AVL t.root) : AVL (t.insert v).root := by
  by_cases hc : t.isContain v.id v.salary = true
  · rw [insert_of_contained t v hc]; exact h
  · simp only [avlTree.insert, hc, if_false]
    obtain ⟨h1, h2, h3⟩ := insertNode_ctxOK t.root [] (node_.ofValue v) h trivial
    refine AVL_rebalance _ ⟨-1, ?_, ?_, ?_, ?_, ?_, ?_, ?_, h3⟩
    all_goals simp only [h1, h2, AVL, heightOr_nil]
    all_goals simp

theorem find_ctxOK (t : node_ptr) : ∀ (k : List Frame) (key : tree_t) (c : Loc),
    AVL t → CtxOK k t.heightOr → findNodeInSubTree t k key = some c →
    AVL c.toTree ∧ CtxOK c.ctx c.toTree.heightOr := by
  induction t with
  | nil => intro k key c _ _ h; simp [findNodeInSubTree] at h
  | node l d r ihl ihr =>
    intro k key c ht hk h
    simp only [findNodeInSubTree] at h
    split at h
    · simp only [Option.some.injEq] at h
      subst h
      exact ⟨ht, hk⟩
    · split at h
      · exact ihl _ key c ht.1 (CtxOK_cons_left l r d k ht hk) h
      · exact ihr _ key c ht.2.1 (CtxOK_cons_right l r d k ht hk) h

theorem getMinAux_ctxOK (l : node_ptr) : ∀ (d : node_) (r : node_ptr) (k : List Frame),
    AVL (node l d r) → CtxOK k (node l d r).heightOr →
    AVL (getMinAux l d r k).toTree ∧
      CtxOK (getMinAux l d r k).ctx (getMinAux l d r k).toTree.heightOr := by
  induction l with
  | nil => intro d r k h hk; exact ⟨h, hk⟩
  | node ll ld lr ih _ =>
    intro d r k h hk
    exact ih ld lr _ h.1 (CtxOK_cons_left _ r d k h hk)

theorem getNext_ctxOK (c nx : Loc) (hc : AVL c.toTree) (hk : CtxOK c.ctx c.toTree.heightOr)
    (h : getNextNodeInSubTree c = some nx) :
    AVL nx.toTree ∧ CtxOK nx.ctx nx.toTree.heightOr := by
  obtain ⟨l, d, r, k⟩ := c
  cases r with
  | nil => simp [getNextNodeInSubTree, Loc.rightChild, node_ptr.toLoc] at h
  | node rl rd rr =>
    have hk2 := CtxOK_cons_right l (node rl rd rr) d k hc hk
    simp only [getNextNodeInSubTree, Loc.rightChild, node_ptr.toLoc] at h
    split at h
    · simp only [Option.some.injEq] at h
      subst h
      exact ⟨hc.2.1, hk2⟩
    · simp only [Option.some.injEq] at h
      subst h
      exact getMinAux_ctxOK rl rd rr _ hc.2.1 hk2

/-- The result of a removal, for the AVL invariant: the new root is AVL when no parent is
returned, and the returned parent satisfies the invariant of the walk. -/
def RemovedAVL (res : node_ptr × Option Loc) : Prop :=
  (res.2 = none → AVL res.1) ∧ ∀ p, res.2 = some p → LInv p

theorem removeLeaf_avl (c : Loc) (hl : c.left = nil) (hr : c.right = nil)
    (hc : AVL c.toTree) (hk : CtxOK c.ctx c.toTree.heightOr) : RemovedAVL (removeLeaf c) := by
  obtain ⟨l, d, r, k⟩ := c
  simp only at hl hr
  subst hl hr
  have hh : (d.height : Int) = 0 := by
    have := hc.2.2.1
    simpa using this
  simp only [Loc.toTree, heightOr_node, hh] at hk
  cases k with
  | nil => exact ⟨fun _ => trivial, by simp [removeLeaf]⟩
  | cons f k =>
    refine ⟨by simp [removeLeaf], ?_⟩
    intro p hp
    simp only [removeLeaf, Option.some.injEq] at hp
    subst hp
    exact LInv_toParent f k nil 0 hk trivial (by simp) (by simp)

theorem removeNodeWithOneChild_avl (c : Loc) (h : c.left = nil ∨ c.right = nil)
    (hc : AVL c.toTree) (hk : CtxOK c.ctx c.toTree.heightOr) :
    RemovedAVL (removeNodeWithOneChild c) := by
  obtain ⟨l, d, r, k⟩ := c
  simp only at h
  obtain ⟨al, ar, e1, e2, e3⟩ := hc
  have a1 := heightOr_ge l
  have a2 := heightOr_ge r
  have hch : AVL (if l ≠ nil then l else r) ∧
      (if l ≠ nil then l else r).heightOr = (d.height : Int) - 1 := by
    rcases h with h | h
    · subst h
      simp only [ne_eq, not_true_eq_false, if_false, heightOr_nil] at e1 ⊢
      exact ⟨ar, by omega⟩
    · subst h
      by_cases hl : l = nil
      · subst hl
        simp only [ne_eq, not_true_eq_false, if_false, heightOr_nil] at e1 ⊢
        exact ⟨ar, by omega⟩
      · simp only [ne_eq, hl, not_false_eq_true, if_true, heightOr_nil] at e1 ⊢
        exact ⟨al, by omega⟩
  simp only [Loc.toTree, heightOr_node] at hk
  cases k with
  | nil => exact ⟨fun _ => hch.1, by simp [removeNodeWithOneChild]⟩
  | cons f k =>
    refine ⟨by simp [removeNodeWithOneChild], ?_⟩
    intro p hp
    simp only [removeNodeWithOneChild, Option.some.injEq] at hp
    subst hp
    exact LInv_toParent f k _ _ hk hch.1 (by rw [hch.2]; omega) (by rw [hch.2])

theorem getMinAux_left (a : node_ptr) : ∀ (b : node_) (c : node_ptr) (q : List Frame),
    (getMinAux a b c q).left = nil := by
  induction a with
  | nil => intro b c q; rfl
  | node al ad ar ih _ => intro b c q; exact ih ad ar _

theorem getNext_left (c nx : Loc) (h : getNextNodeInSubTree c = some nx) : nx.left = nil := by
  obtain ⟨l, d, r, k⟩ := c
  cases r with
  | nil => simp [getNextNodeInSubTree, Loc.rightChild, node_ptr.toLoc] at h
  | node rl rd rr =>
    simp only [getNextNodeInSubTree, Loc.rightChild, node_ptr.toLoc] at h
    split at h
    · rename_i hrl
      simp only [Option.some.injEq] at h
      subst h
      exact hrl
    · simp only [Option.some.injEq] at h
      subst h
      exact getMinAux_left _ _ _ _

theorem removeNodeWithTwoChilds_avl (c : Loc) (hc : AVL c.toTree)
    (hk : CtxOK c.ctx c.toTree.heightOr) (hroot : AVL c.root) :
    RemovedAVL (removeNodeWithTwoChilds c) := by
  simp only [removeNodeWithTwoChilds]
  split
  · exact ⟨fun _ => hroot, by simp⟩
  · rename_i nx0 h0
    split
    · exact ⟨fun _ => hroot, by simp⟩
    · rename_i nx1 h1
      have hc2 : AVL (Loc.toTree { c with d := { c.d with value := nx0.d.value } }) := hc
      have hk2 : CtxOK (Loc.ctx { c with d := { c.d with value := nx0.d.value } })
          (Loc.toTree { c with d := { c.d with value := nx0.d.value } }).heightOr := hk
      obtain ⟨g1, g2⟩ := getNext_ctxOK _ nx1 hc2 hk2 h1
      have hleft := getNext_left _ nx1 h1
      have g1' : AVL (Loc.toTree { nx1 with d := { nx1.d with value := c.d.value } }) := g1
      have g2' : CtxOK (Loc.ctx { nx1 with d := { nx1.d with value := c.d.value } })
          (Loc.toTree { nx1 with d := { nx1.d with value := c.d.value } }).heightOr := g2
      split
      · rename_i hnr
        exact removeLeaf_avl _ hleft hnr g1' g2'
      · exact removeNodeWithOneChild_avl _ (Or.inl hleft) g1' g2'

theorem removeNode_avl (root : node_ptr) (key : tree_t) (h : AVL root) :
    RemovedAVL (removeNodeInSubTree root key) := by
  simp only [removeNodeInSubTree]
  split
  · exact ⟨fun _ => h, by simp⟩
  · rename_i c hf
    obtain ⟨hc, hk⟩ := find_ctxOK root [] key c h trivial hf
    obtain ⟨_, hr, _⟩ := find_spec root [] key c hf
    split
    · rename_i hleaf; exact removeLeaf_avl c hleaf.2 hleaf.1 hc hk
    · split
      · rename_i hone; exact removeNodeWithOneChild_avl c (Or.symm hone) hc hk
      · exact removeNodeWithTwoChilds_avl c hc hk (by rw [hr]; exact h)

theorem remove_AVL (t : avlTree) (id salary : Int) (h : AVL t.root) :
    AVL (t.remove id salary).root := by
  by_cases hc : t.isContain id salary = false
  · rw [remove_of_not_contained t id salary hc]; exact h
  · simp only [avlTree.remove, hc, if_false]
    obtain ⟨h1, h2⟩ := removeNode_avl t.root ⟨id, salary, 0⟩ h
    generalize removeNodeInSubTree t.root ⟨id, salary, 0⟩ = res at h1 h2
    obtain ⟨root0, parent⟩ := res
    cases parent with
    | none => exact h1 rfl
    | some p => exact AVL_rebalance p (h2 p rfl)

/-- The trees built from the empty tree by `insert` and `remove`. -/
inductive Built : avlTree → Prop where
  | empty : Built avlTree.empty
  | insert (t : avlTree) (r : tree_t) : Built t → Built (t.insert r)
  | remove (t : avlTree) (id salary : Int) : Built t → Built (t.remove id salary)

theorem Built_AVL (t : avlTree) (h : Built t) : AVL t.root := by
  induction h with
  | empty => trivial
  | insert t r _ ih => exact insert_AVL t r ih
  | remove t id salary _ ih => exact remove_AVL t id salary ih

/-- C1. AVL balance is preserved by `insert` and `remove`: when every cached height is
the true height of its subtree and every balance factor is -1, 0 or 1, the same holds for
the tree after `insert(r)` and for the tree after `remove(id, salary)`; consequently it
holds for every tree built from the empty tree by `insert` and `remove`. -/
theorem C1_avl_preserved (t : avlTree) (r : tree_t) (id salary : Int)
    (hh : HeightsCorrect t.root) (hb : Balanced t.root) :
    (HeightsCorrect (t.insert r).root ∧ Balanced (t.insert r).root) ∧
    (HeightsCorrect (t.remove id salary).root ∧ Balanced (t.remove id salary).root) ∧
    (∀ s, Built s → HeightsCorrect s.root ∧ Balanced s.root) := by
  have h := (AVL_iff t.root).2 ⟨hh, hb⟩
  exact ⟨(AVL_iff _).1 (insert_AVL t r h), (AVL_iff _).1 (remove_AVL t id salary h),
    fun s hs => (AVL_iff _).1 (Built_AVL s hs)⟩

/-- Witness for C1 on the tree of the scenario of the specification. -/
theorem C1_avl_preserved_witness :
    (HeightsCorrect (scenarioTree.insert ⟨4, 12, 1⟩).root ∧
      Balanced (scenarioTree.insert ⟨4, 12, 1⟩).root) ∧
    (HeightsCorrect (scenarioTree.remove 3 15).root ∧
      Balanced (scenarioTree.remove 3 15).root) :=
  let h := C1_avl_preserved scenarioTree ⟨4, 12, 1⟩ 3 15 (by decide) (by decide)
  ⟨h.1, h.2.1⟩

/-! ## Range queries -/

/-- The record of a node pointer (`none` for `nullptr`). -/
def valueOf : node_ptr → Option tree_t
  | nil => none
  | node _ d _ => some d.value

theorem lt_salary_le {a b : tree_t} (h : lt a b) : a.salary ≤ b.salary := by
  rw [lt_iff] at h; omega

theorem find_none_of_lt (L : List tree_t) (lo : Int) (h : ∀ x ∈ L, x.salary < lo) :
    L.find? (fun x => decide (lo ≤ x.salary)) = none := by
  rw [List.find?_eq_none]
  intro x hx
  have := h x hx
  simp only [decide_eq_true_eq]
  omega

theorem findLeftBorder_spec (t : node_ptr) (lo : Int) : BST t →
    valueOf (findLeftBorderInSubTree t lo) = (toList t).find? (fun x => decide (lo ≤ x.salary)) := by
  induction t, lo using findLeftBorderInSubTree.induct with
  | case1 x => intro _; rfl
  | case2 d r =>
    intro _
    simp [findLeftBorderInSubTree, valueOf, toList, List.find?_cons]
  | case3 d r salary h1 h2 ih =>
    intro hb
    rw [findLeftBorderInSubTree]
    simp only [h1, h2, if_false, if_true, ih hb.2.1, toList, List.nil_append, List.find?_cons]
    have : decide (salary ≤ d.value.salary) = false := by simp; omega
    rw [this]
  | case4 d r salary h1 h2 =>
    intro _
    rw [findLeftBorderInSubTree]
    simp only [h1, h2, if_false, valueOf, toList, List.nil_append, List.find?_cons]
    have : decide (salary ≤ d.value.salary) = true := by simp; omega
    rw [this]
  | case5 ll ld lr d r hnil ih =>
    intro hb
    rw [findLeftBorderInSubTree]
    have := ih hb.1
    rw [hnil] at this
    simp only [if_true, hnil, valueOf, toList, List.find?_append, List.find?_cons] at this ⊢
    rw [← this]
    simp
  | case6 ll ld lr d r a a1 a2 hnode ih =>
    intro hb
    rw [findLeftBorderInSubTree]
    have := ih hb.1
    rw [hnode] at this
    simp only [if_true, hnode, valueOf, toList, List.find?_append, List.find?_cons] at this ⊢
    rw [← this]
    simp
  | case7 ll ld lr d r salary h1 h2 ih =>
    intro hb
    rw [findLeftBorderInSubTree]
    simp only [h1, h2, if_false, if_true, ih hb.2.1]
    have hl : (toList (node ll ld lr)).find? (fun x => decide (salary ≤ x.salary)) = none :=
      find_none_of_lt _ _ (fun x hx => by have := lt_salary_le (hb.2.2.1 x hx); omega)
    have hd : decide (salary ≤ d.value.salary) = false := by simp; omega
    conv_rhs => rw [toList, List.find?_append, hl, List.find?_cons, hd]
    simp
  | case8 ll ld lr d r salary h1 h2 h3 hnil ih =>
    intro hb
    rw [findLeftBorderInSubTree]
    have := ih hb.1.2.1
    rw [hnil] at this
    have hll : (toList ll).find? (fun x => decide (salary ≤ x.salary)) = none :=
      find_none_of_lt _ _ (fun x hx => by have := lt_salary_le (hb.1.2.2.1 x hx); omega)
    have hld : decide (salary ≤ ld.value.salary) = false := by simp; omega
    have hd : decide (salary ≤ d.value.salary) = true := by simp; omega
    simp only [h1, h2, h3, if_false, if_true, hnil, valueOf, toList, List.find?_append,
      List.find?_cons, hll, hld, hd] at this ⊢
    rw [← this]
    simp
  | case9 ll ld lr d r salary h1 h2 h3 a a1 a2 hnode ih =>
    intro hb
    rw [findLeftBorderInSubTree]
    have := ih hb.1.2.1
    rw [hnode] at this
    have hll : (toList ll).find? (fun x => decide (salary ≤ x.salary)) = none :=
      find_none_of_lt _ _ (fun x hx => by have := lt_salary_le (hb.1.2.2.1 x hx); omega)
    have hld : decide (salary ≤ ld.value.salary) = false := by simp; omega
    simp only [h1, h2, h3, if_false, if_true, hnode, valueOf, toList, List.find?_append,
      List.find?_cons, hll, hld] at this ⊢
    rw [← this]
    simp
  | case10 ll ld lr d r salary h1 h2 h3 ih =>
    intro hb
    rw [findLeftBorderInSubTree]
    have := ih hb.1
    simp only [h1, h2, h3, if_false, this]
    have hsome : ∃ v, (toList (node ll ld lr)).find? (fun x => decide (salary ≤ x.salary)) = some v := by
      cases hf : (toList (node ll ld lr)).find? (fun x => decide (salary ≤ x.salary)) with
      | some v => exact ⟨v, rfl⟩
      | none =>
        rw [List.find?_eq_none] at hf
        have := hf ld.value (by simp [toList])
        simp at this
        omega
    obtain ⟨v, hv⟩ := hsome
    conv_rhs => rw [toList, List.find?_append, hv]
    rw [hv]
    simp

theorem toList_reverse_node (l r : node_ptr) (d : node_) :
    (toList (node l d r)).reverse = (toList r).reverse ++ d.value :: (toList l).reverse := by
  simp [toList]

theorem findRev_none_of_gt (L : List tree_t) (hi : Int) (h : ∀ x ∈ L, hi < x.salary) :
    L.reverse.find? (fun x => decide (x.salary ≤ hi)) = none := by
  rw [List.find?_eq_none]
  intro x hx
  have := h x (List.mem_reverse.mp hx)
  simp only [decide_eq_true_eq]
  omega

theorem findRightBorder_spec (t : node_ptr) (hi : Int) : BST t →
    valueOf (findRightBorderInSubTree t hi) =
      (toList t).reverse.find? (fun x => decide (x.salary ≤ hi)) := by
  induction t, hi using findRightBorderInSubTree.induct with
  | case1 x => intro _; rfl
  | case2 l d =>
    intro _
    rw [findRightBorderInSubTree, toList_reverse_node]
    simp [valueOf, toList, List.find?_cons]
  | case3 l d salary h1 h2 ih =>
    intro hb
    rw [findRightBorderInSubTree, toList_reverse_node]
    simp only [h1, h2, if_false, if_true, ih hb.1, toList, List.reverse_nil, List.nil_append,
      List.find?_cons]
    have : decide (d.value.salary ≤ salary) = false := by simp; omega
    rw [this]
  | case4 l d salary h1 h2 =>
    intro _
    rw [findRightBorderInSubTree, toList_reverse_node]
    simp only [h1, h2, if_false, valueOf, toList, List.reverse_nil, List.nil_append,
      List.find?_cons]
    have : decide (d.value.salary ≤ salary) = true := by simp; omega
    rw [this]
  | case5 l d rl rd rr hnil ih =>
    intro hb
    rw [findRightBorderInSubTree, toList_reverse_node]
    have := ih hb.2.1
    rw [hnil] at this
    simp only [if_true, hnil, valueOf, List.find?_append, List.find?_cons] at this ⊢
    rw [← this]
    simp
  | case6 l d rl rd rr a a1 a2 hnode ih =>
    intro hb
    rw [findRightBorderInSubTree, toList_reverse_node]
    have := ih hb.2.1
    rw [hnode] at this
    simp only [if_true, hnode, valueOf, List.find?_append, List.find?_cons] at this ⊢
    rw [← this]
    simp
  | case7 l d rl rd rr salary h1 h2 ih =>
    intro hb
    rw [findRightBorderInSubTree, toList_reverse_node]
    simp only [h1, h2, if_false, if_true, ih hb.1]
    have hr : (toList (node rl rd rr)).reverse.find? (fun x => decide (x.salary ≤ salary)) = none :=
      findRev_none_of_gt _ _ (fun x hx => by have := lt_salary_le (hb.2.2.2 x hx); omega)
    have hd : decide (d.value.salary ≤ salary) = false := by simp; omega
    rw [List.find?_append, hr, List.find?_cons, hd]
    simp
  | case8 l d rl rd rr salary h1 h2 h3 hnil ih =>
    intro hb
    rw [findRightBorderInSubTree, toList_reverse_node, toList_reverse_node]
    have := ih hb.2.1.1
    rw [hnil] at this
    have hrr : (toList rr).reverse.find? (fun x => decide (x.salary ≤ salary)) = none :=
      findRev_none_of_gt _ _ (fun x hx => by have := lt_salary_le (hb.2.1.2.2.2 x hx); omega)
    have hrd : decide (rd.value.salary ≤ salary) = false := by simp; omega
    have hd : decide (d.value.salary ≤ salary) = true := by simp; omega
    simp only [h1, h2, h3, if_false, if_true, hnil, valueOf, List.find?_append,
      List.find?_cons, hrr, hrd, hd] at this ⊢
    rw [← this]
    simp
  | case9 l d rl rd rr salary h1 h2 h3 a a1 a2 hnode ih =>
    intro hb
    rw [findRightBorderInSubTree, toList_reverse_node, toList_reverse_node]
    have := ih hb.2.1.1
    rw [hnode] at this
    have hrr : (toList rr).reverse.find? (fun x => decide (x.salary ≤ salary)) = none :=
      findRev_none_of_gt _ _ (fun x hx => by have := lt_salary_le (hb.2.1.2.2.2 x hx); omega)
    have hrd : decide (rd.value.salary ≤ salary) = false := by simp; omega
    simp only [h1, h2, h3, if_false, if_true, hnode, valueOf, List.find?_append,
      List.find?_cons, hrr, hrd] at this ⊢
    rw [← this]
    simp
  | case10 l d rl rd rr salary h1 h2 h3 ih =>
    intro hb
    rw [findRightBorderInSubTree, toList_reverse_node]
    have := ih hb.2.1
    simp only [h1, h2, h3, if_false, this]
    have hsome : ∃ v, (toList (node rl rd rr)).reverse.find?
        (fun x => decide (x.salary ≤ salary)) = some v := by
      cases hf : (toList (node rl rd rr)).reverse.find? (fun x => decide (x.salary ≤ salary)) with
      | some v => exact ⟨v, rfl⟩
      | none =>
        rw [List.find?_eq_none] at hf
        have := hf rd.value (by simp [toList])
        simp at this
        omega
    obtain ⟨v, hv⟩ := hsome
    rw [List.find?_append, hv]
    simp

theorem DistinctIds_node (l r : node_ptr) (d : node_) (h : DistinctIds (node l d r)) :
    DistinctIds l ∧ DistinctIds r ∧ (∀ x ∈ toList l, x.id ≠ d.value.id) ∧
      (∀ x ∈ toList r, d.value.id ≠ x.id) := by
  unfold DistinctIds at *
  simp only [toList, List.pairwise_append, List.pairwise_cons, List.mem_cons] at h
  exact ⟨h.1, h.2.1.2, fun x hx => h.2.2 x hx _ (Or.inl rfl), h.2.1.1⟩

/-- On an ordered tree with correct subtree counts and distinct ids, `sumNodesToNode`
returns `sum` plus the 1-based in-order rank of the target record. -/
theorem sumNodes_spec (t tl tr : node_ptr) (td : node_) : ∀ (sum : Int), BST t → Aug t →
    DistinctIds t → td.value ∈ toList t →
    sumNodesToNode t (node tl td tr) sum =
      sum + 1 + ((toList t).countP (fun x => decide (lt x td.value)) : Nat) := by
  induction t with
  | nil => intro _ _ _ _ hm; simp [toList] at hm
  | node l d r ihl ihr =>
    intro sum hb ha hd hm
    obtain ⟨hbl, hbr, hlt, hgt⟩ := hb
    obtain ⟨hdl, hdr, hidl, hidr⟩ := DistinctIds_node l r d hd
    have hw : l.w2Or = ((toList l).length : Int) := by
      rw [Aug_w2 l ha.1, numNodes_eq_length]
    simp only [toList, List.mem_append, List.mem_cons] at hm
    rw [sumNodesToNode]
    simp only [toList, List.countP_append, List.countP_cons]
    by_cases he : opEq d.value td.value = true
    · have hid := (opEq_iff _ _).mp he
      have hv : td.value = d.value := by
        rcases hm with hm | hm | hm
        · exact absurd hid.symm (hidl _ hm)
        · exact hm
        · exact absurd hid (hidr _ hm)
      rw [if_pos he, hv]
      have c1 : (toList l).countP (fun x => decide (lt x d.value)) = (toList l).length := by
        rw [List.countP_eq_length]
        intro x hx
        simpa using hlt x hx
      have c2 : (toList r).countP (fun x => decide (lt x d.value)) = 0 := by
        rw [List.countP_eq_zero]
        intro x hx
        simpa using lt_asymm (hgt x hx)
      have c3 : decide (lt d.value d.value) = false := by simpa using lt_irrefl d.value
      rw [c1, c2, c3, hw]
      simp
    · rw [if_neg he]
      have hne : td.value ≠ d.value := fun h => he (by rw [h]; simp [opEq])
      by_cases hl : opLt d.value td.value = true
      · have hl2 : lt d.value td.value := hl
        have hmr : td.value ∈ toList r := by
          rcases hm with hm | hm | hm
          · exact absurd (hlt _ hm) (lt_asymm hl2)
          · exact absurd hm hne
          · exact hm
        rw [if_pos hl, ihr _ hbr ha.2.1 hdr hmr]
        have c1 : (toList l).countP (fun x => decide (lt x td.value)) = (toList l).length := by
          rw [List.countP_eq_length]
          intro x hx
          simpa using lt_trans (hlt x hx) hl2
        have c3 : decide (lt d.value td.value) = true := by simpa using hl2
        rw [c1, c3, hw]
        simp
        omega
      · rw [if_neg hl]
        have hml : td.value ∈ toList l := by
          rcases hm with hm | hm | hm
          · exact hm
          · exact absurd hm hne
          · exact absurd (hgt _ hm) hl
        have hg : lt td.value d.value := hlt _ hml
        rw [if_pos ((opGt_iff _ _).mpr hg), ihl _ hbl ha.1 hdl hml]
        have c2 : (toList r).countP (fun x => decide (lt x td.value)) = 0 := by
          rw [List.countP_eq_zero]
          intro x hx
          simpa using lt_asymm (lt_trans hg (hgt x hx))
        have c3 : decide (lt d.value td.value) = false := decide_eq_false hl
        rw [c2, c3]
        simp

theorem count_below_left (L : List tree_t) (lo : Int) (s : tree_t) (hs : L.Pairwise lt)
    (hf : L.find? (fun x => decide (lo ≤ x.salary)) = some s) :
    L.countP (fun x => decide (lt x s)) = L.countP (fun x => decide (x.salary < lo)) := by
  rw [List.find?_eq_some] at hf
  obtain ⟨hp, as, bs, rfl, hn⟩ := hf
  simp only [decide_eq_true_eq] at hp
  simp only [List.pairwise_append, List.pairwise_cons, List.mem_cons] at hs
  obtain ⟨_, ⟨hsb, _⟩, hab⟩ := hs
  have a1 : as.countP (fun x => decide (lt x s)) = as.length := by
    rw [List.countP_eq_length]; intro x hx; simpa using hab x hx s (Or.inl rfl)
  have a2 : as.countP (fun x => decide (x.salary < lo)) = as.length := by
    rw [List.countP_eq_length]; intro x hx
    have := hn x hx
    simp only [Bool.not_eq_true', decide_eq_false_iff_not] at this
    simp only [decide_eq_true_eq]; omega
  have b1 : bs.countP (fun x => decide (lt x s)) = 0 := by
    rw [List.countP_eq_zero]; intro x hx; simpa using lt_asymm (hsb x hx)
  have b2 : bs.countP (fun x => decide (x.salary < lo)) = 0 := by
    rw [List.countP_eq_zero]; intro x hx
    have := lt_salary_le (hsb x hx)
    simp only [decide_eq_true_eq]; omega
  have s1 : decide (lt s s) = false := by simpa using lt_irrefl s
  have s2 : decide (s.salary < lo) = false := by simp; omega
  simp only [List.countP_append, List.countP_cons, a1, a2, b1, b2, s1, s2]

theorem count_below_right (L : List tree_t) (hi : Int) (e : tree_t) (hs : L.Pairwise lt)
    (hf : L.reverse.find? (fun x => decide (x.salary ≤ hi)) = some e) :
    L.countP (fun x => decide (x.salary ≤ hi)) = L.countP (fun x => decide (lt x e)) + 1 := by
  rw [List.find?_eq_some] at hf
  obtain ⟨hp, as, bs, hL, hn⟩ := hf
  have hL2 : L = bs.reverse ++ e :: as.reverse := by
    have := congrArg List.reverse hL
    simpa using this
  subst hL2
  simp only [decide_eq_true_eq] at hp
  simp only [List.pairwise_append, List.pairwise_cons, List.mem_cons, List.mem_reverse] at hs
  obtain ⟨_, ⟨hsa, _⟩, hbe⟩ := hs
  have b1 : bs.reverse.countP (fun x => decide (lt x e)) = bs.reverse.length := by
    rw [List.countP_eq_length]; intro x hx
    simpa using hbe x (List.mem_reverse.mp hx) e (Or.inl rfl)
  have b2 : bs.reverse.countP (fun x => decide (x.salary ≤ hi)) = bs.reverse.length := by
    rw [List.countP_eq_length]; intro x hx
    have := lt_salary_le (hbe x (List.mem_reverse.mp hx) e (Or.inl rfl))
    simp only [decide_eq_true_eq]; omega
  have a1 : as.reverse.countP (fun x => decide (lt x e)) = 0 := by
    rw [List.countP_eq_zero]; intro x hx
    simpa using lt_asymm (hsa x (List.mem_reverse.mp hx))
  have a2 : as.reverse.countP (fun x => decide (x.salary ≤ hi)) = 0 := by
    rw [List.countP_eq_zero]; intro x hx
    have := hn x (List.mem_reverse.mp hx)
    simpa using this
  have s1 : decide (lt e e) = false := by simpa using lt_irrefl e
  have s2 : decide (e.salary ≤ hi) = true := by simpa using hp
  simp only [List.countP_append, List.countP_cons, a1, a2, b1, b2, s1, s2]
  simp

theorem count_range (L : List tree_t) (lo hi : Int) (hle : lo ≤ hi) :
    L.countP (fun x => decide (x.salary ≤ hi)) =
      L.countP (fun x => decide (x.salary < lo)) +
        L.countP (fun x => decide (lo ≤ x.salary ∧ x.salary ≤ hi)) := by
  induction L with
  | nil => rfl
  | cons a L ih =>
    simp only [List.countP_cons, ih]
    by_cases h1 : a.salary < lo
    · have h2 : a.salary ≤ hi := by omega
      have h3 : ¬ (lo ≤ a.salary ∧ a.salary ≤ hi) := by omega
      simp only [decide_eq_true h1, decide_eq_true h2, decide_eq_false h3, if_true,
        Bool.false_eq_true, if_false]
      omega
    · by_cases h2 : a.salary ≤ hi
      · have h3 : lo ≤ a.salary ∧ a.salary ≤ hi := by omega
        simp only [decide_eq_false h1, decide_eq_true h2, decide_eq_true h3, if_true,
          Bool.false_eq_true, if_false]
        omega
      · have h3 : ¬ (lo ≤ a.salary ∧ a.salary ≤ hi) := by omega
        simp only [decide_eq_false h1, decide_eq_false h2, decide_eq_false h3,
          Bool.false_eq_true, if_false]
        omega

theorem valueOf_nil_iff (p : node_ptr) : valueOf p = none ↔ p = nil := by
  cases p <;> simp [valueOf]

/-- C10. Range count: on a BST-ordered tree with correct subtree counts and distinct ids,
for `lo ≤ hi` the method `getSumOfNodesFromStartToEnd(lo, hi)` returns exactly the number
of stored records whose salary lies in the closed interval `[lo, hi]`. -/
theorem C10_range_count (t : avlTree) (lo hi : Int) (hbst : BST t.root) (haug : Aug t.root)
    (hids : DistinctIds t.root) (hle : lo ≤ hi) :
    t.getSumOfNodesFromStartToEnd lo hi =
      (((toList t.root).filter (fun r => decide (lo ≤ r.salary ∧ r.salary ≤ hi))).length : Nat) := by
  have hL := findLeftBorder_spec t.root lo hbst
  have hR := findRightBorder_spec t.root hi hbst
  have hsorted := (BST_iff_sorted t.root).mp hbst
  rw [← List.countP_eq_length_filter]
  have hrange := count_range (toList t.root) lo hi hle
  unfold avlTree.getSumOfNodesFromStartToEnd
  cases hs : findLeftBorderInSubTree t.root lo with
  | nil =>
    rw [hs] at hL
    have hnone := List.find?_eq_none.mp hL.symm
    have : (toList t.root).countP (fun r => decide (lo ≤ r.salary ∧ r.salary ≤ hi)) = 0 := by
      rw [List.countP_eq_zero]
      intro x hx
      have := hnone x hx
      simp only [decide_eq_true_eq] at this ⊢
      omega
    rw [this]; simp
  | node sl sd sr =>
    rw [hs] at hL
    cases he : findRightBorderInSubTree t.root hi with
    | nil =>
      rw [he] at hR
      have hnone := List.find?_eq_none.mp hR.symm
      have : (toList t.root).countP (fun r => decide (lo ≤ r.salary ∧ r.salary ≤ hi)) = 0 := by
        rw [List.countP_eq_zero]
        intro x hx
        have := hnone x (List.mem_reverse.mpr hx)
        simp only [decide_eq_true_eq] at this ⊢
        omega
      rw [this]; rfl
    | node el ed er =>
      rw [he] at hR
      have hsm : sd.value ∈ toList t.root := List.mem_of_find?_eq_some hL.symm
      have hem : ed.value ∈ toList t.root :=
        List.mem_reverse.mp (List.mem_of_find?_eq_some hR.symm)
      have c1 := count_below_left _ lo sd.value hsorted hL.symm
      have c2 := count_below_right _ hi ed.value hsorted hR.symm
      show sumNodesToNode t.root (node el ed er) 0 - sumNodesToNode t.root (node sl sd sr) 0 + 1 = _
      rw [sumNodes_spec t.root el er ed 0 hbst haug hids hem,
        sumNodes_spec t.root sl sr sd 0 hbst haug hids hsm]
      omega

theorem C10_range_count_witness :
    scenarioTree.getSumOfNodesFromStartToEnd 12 20 = 2 ∧
    scenarioTree.getSumOfNodesFromStartToEnd 12 20 =
      (((toList scenarioTree.root).filter
        (fun r => decide ((12 : Int) ≤ r.salary ∧ r.salary ≤ 20))).length : Nat) :=
  ⟨by decide, C10_range_count scenarioTree 12 20 (by decide) (by decide) (by decide) (by decide)⟩

/-! ## Weight sums -/

/-- Sum of the grades of a list of records. -/
def gradeSum (L : List tree_t) : Int := (L.map (fun x => x.grade)).sum

theorem gradeSum_nil : gradeSum [] = 0 := rfl

theorem gradeSum_cons (a : tree_t) (L : List tree_t) : gradeSum (a :: L) = a.grade + gradeSum L := by
  simp [gradeSum]

theorem gradeSum_append (L1 L2 : List tree_t) :
    gradeSum (L1 ++ L2) = gradeSum L1 + gradeSum L2 := by
  simp [gradeSum]

theorem wrap32_zero : wrap32 0 = 0 := by decide

theorem wrap32_add_left (a b : Int) : wrap32 (wrap32 a + b) = wrap32 (a + b) := by
  simp only [wrap32]; omega

theorem wrap32_add_right (a b : Int) : wrap32 (a + wrap32 b) = wrap32 (a + b) := by
  simp only [wrap32]; omega

theorem wrap32_sub_left (a b : Int) : wrap32 (wrap32 a - b) = wrap32 (a - b) := by
  simp only [wrap32]; omega

theorem wrap32_sub_right (a b : Int) : wrap32 (a - wrap32 b) = wrap32 (a - b) := by
  simp only [wrap32]; omega

/-- A value in the range of `int` is not changed by the reduction. -/
theorem wrap32_of_range (x : Int) (h1 : -2147483648 ≤ x) (h2 : x < 2147483648) :
    wrap32 x = x := by
  simp only [wrap32]; omega

/-- With the augmentation invariant, `w1` is the sum of the grades of the subtree in `int`
arithmetic. -/
theorem Aug_w1 (t : node_ptr) (h : Aug t) : t.w1Or = wrap32 (gradeSum (toList t)) := by
  induction t with
  | nil => exact wrap32_zero.symm
  | node l d r ihl ihr =>
    obtain ⟨hl, hr, h1, _⟩ := h
    show d.w1 = wrap32 (gradeSum (toList l ++ d.value :: toList r))
    rw [h1, ihl hl, ihr hr, gradeSum_append, gradeSum_cons]
    simp only [wrap32_add_left, wrap32_add_right]
    congr 1
    ring

theorem filter_all (L : List tree_t) (p : tree_t → Bool) (h : ∀ x ∈ L, p x = true) :
    L.filter p = L := List.filter_eq_self.mpr h

theorem filter_none (L : List tree_t) (p : tree_t → Bool) (h : ∀ x ∈ L, p x = false) :
    L.filter p = [] := by
  rw [List.filter_eq_nil_iff]
  intro x hx
  simp [h x hx]

/-- On an ordered tree with correct subtree sums and distinct ids, `sumGradesToNode`
returns `sum` plus the grades of all records up to and including the target record. -/
theorem sumGrades_spec (t tl tr : node_ptr) (td : node_) : ∀ (sum : Int), BST t → Aug t →
    DistinctIds t → td.value ∈ toList t →
    sumGradesToNode t (node tl td tr) sum =
      wrap32 (sum + gradeSum ((toList t).filter (fun x => decide (lt x td.value)))
        + td.value.grade) := by
  induction t with
  | nil => intro _ _ _ _ hm; simp [toList] at hm
  | node l d r ihl ihr =>
    intro sum hb ha hd hm
    obtain ⟨hbl, hbr, hlt, hgt⟩ := hb
    obtain ⟨hdl, hdr, hidl, hidr⟩ := DistinctIds_node l r d hd
    have hw : l.w1Or = wrap32 (gradeSum (toList l)) := Aug_w1 l ha.1
    simp only [toList, List.mem_append, List.mem_cons] at hm
    rw [sumGradesToNode]
    simp only [toList, List.filter_append, List.filter_cons, gradeSum_append]
    by_cases he : opEq d.value td.value = true
    · have hid := (opEq_iff _ _).mp he
      have hv : td.value = d.value := by
        rcases hm with hm | hm | hm
        · exact absurd hid.symm (hidl _ hm)
        · exact hm
        · exact absurd hid (hidr _ hm)
      rw [if_pos he, hv]
      have c1 : (toList l).filter (fun x => decide (lt x d.value)) = toList l :=
        filter_all _ _ (fun x hx => by simpa using hlt x hx)
      have c2 : (toList r).filter (fun x => decide (lt x d.value)) = [] :=
        filter_none _ _ (fun x hx => by simpa using lt_asymm (hgt x hx))
      have c3 : decide (lt d.value d.value) = false := decide_eq_false (lt_irrefl d.value)
      rw [c1, c2, c3, hw]
      simp only [Bool.false_eq_true, if_false, gradeSum_nil, add_zero, wrap32_add_left,
        wrap32_add_right]
      congr 1
      ring
    · rw [if_neg he]
      have hne : td.value ≠ d.value := fun h => he (by rw [h]; simp [opEq])
      by_cases hl : opLt d.value td.value = true
      · have hl2 : lt d.value td.value := hl
        have hmr : td.value ∈ toList r := by
          rcases hm with hm | hm | hm
          · exact absurd (hlt _ hm) (lt_asymm hl2)
          · exact absurd hm hne
          · exact hm
        rw [if_pos hl, ihr _ hbr ha.2.1 hdr hmr]
        have c1 : (toList l).filter (fun x => decide (lt x td.value)) = toList l :=
          filter_all _ _ (fun x hx => by simpa using lt_trans (hlt x hx) hl2)
        have c3 : decide (lt d.value td.value) = true := decide_eq_true hl2
        rw [c1, c3, hw]
        simp only [if_true, gradeSum_cons, wrap32]
        omega
      · rw [if_neg hl]
        have hml : td.value ∈ toList l := by
          rcases hm with hm | hm | hm
          · exact hm
          · exact absurd hm hne
          · exact absurd (hgt _ hm) hl
        have hg : lt td.value d.value := hlt _ hml
        rw [if_pos ((opGt_iff _ _).mpr hg), ihl _ hbl ha.1 hdl hml]
        have c2 : (toList r).filter (fun x => decide (lt x td.value)) = [] :=
          filter_none _ _ (fun x hx => by simpa using lt_asymm (lt_trans hg (hgt x hx)))
        have c3 : decide (lt d.value td.value) = false := decide_eq_false hl
        rw [c2, c3]
        simp [gradeSum_nil]

/-- The first record (in order) with salary at least `lo`: the left border. -/
def leftBorderL (L : List tree_t) (lo : Int) : Option tree_t :=
  L.find? (fun x => decide (lo ≤ x.salary))

/-- The last record (in order) with salary at most `hi`: the right border. -/
def rightBorderL (L : List tree_t) (hi : Int) : Option tree_t :=
  L.reverse.find? (fun x => decide (x.salary ≤ hi))

/-- Range count computed on the in-order sequence the way the method computes it on the
tree: rank of the right border minus rank of the left border plus one. -/
def rangeCountL (L : List tree_t) (lo hi : Int) : Int :=
  match leftBorderL L lo, rightBorderL L hi with
  | none, _ => 0
  | _, none => 0
  | some s, some e =>
    (0 + 1 + (L.countP (fun x => decide (lt x e)) : Nat))
      - (0 + 1 + (L.countP (fun x => decide (lt x s)) : Nat)) + 1

/-- Range weight sum computed on the in-order sequence the way the method computes it on
the tree, in `int` arithmetic. -/
def rangeSumL (L : List tree_t) (lo hi : Int) : Int :=
  match leftBorderL L lo, rightBorderL L hi with
  | none, _ => 0
  | _, none => 0
  | some s, some e =>
    wrap32
      (wrap32 (wrap32 (0 + gradeSum (L.filter (fun x => decide (lt x e))) + e.grade)
        - wrap32 (0 + gradeSum (L.filter (fun x => decide (lt x s))) + s.grade)) + s.grade)

/-- The range count of the tree is a function of its in-order sequence. -/
theorem getSumOfNodes_list (t : avlTree) (lo hi : Int) (hbst : BST t.root) (haug : Aug t.root)
    (hids : DistinctIds t.root) :
    t.getSumOfNodesFromStartToEnd lo hi = rangeCountL (toList t.root) lo hi := by
  have hL := findLeftBorder_spec t.root lo hbst
  have hR := findRightBorder_spec t.root hi hbst
  unfold avlTree.getSumOfNodesFromStartToEnd rangeCountL leftBorderL rightBorderL
  cases hs : findLeftBorderInSubTree t.root lo with
  | nil =>
    rw [hs] at hL
    rw [← hL]
    simp [valueOf]
  | node sl sd sr =>
    rw [hs] at hL
    cases he : findRightBorderInSubTree t.root hi with
    | nil =>
      rw [he] at hR
      rw [← hL, ← hR]
      simp [valueOf]
    | node el ed er =>
      rw [he] at hR
      have hsm : sd.value ∈ toList t.root := List.mem_of_find?_eq_some hL.symm
      have hem : ed.value ∈ toList t.root :=
        List.mem_reverse.mp (List.mem_of_find?_eq_some hR.symm)
      rw [← hL, ← hR]
      simp only [valueOf]
      rw [sumNodes_spec t.root el er ed 0 hbst haug hids hem,
        sumNodes_spec t.root sl sr sd 0 hbst haug hids hsm]

/-- The range weight sum of the tree is a function of its in-order sequence. -/
theorem getSumOfGrades_list (t : avlTree) (lo hi : Int) (hbst : BST t.root) (haug : Aug t.root)
    (hids : DistinctIds t.root) :
    t.getSumOfGradesFromStartToEnd lo hi = rangeSumL (toList t.root) lo hi := by
  have hL := findLeftBorder_spec t.root lo hbst
  have hR := findRightBorder_spec t.root hi hbst
  unfold avlTree.getSumOfGradesFromStartToEnd rangeSumL leftBorderL rightBorderL
  cases hs : findLeftBorderInSubTree t.root lo with
  | nil =>
    rw [hs] at hL
    rw [← hL]
    simp [valueOf]
  | node sl sd sr =>
    rw [hs] at hL
    cases he : findRightBorderInSubTree t.root hi with
    | nil =>
      rw [he] at hR
      rw [← hL, ← hR]
      simp [valueOf]
    | node el ed er =>
      rw [he] at hR
      have hsm : sd.value ∈ toList t.root := List.mem_of_find?_eq_some hL.symm
      have hem : ed.value ∈ toList t.root :=
        List.mem_reverse.mp (List.mem_of_find?_eq_some hR.symm)
      rw [← hL, ← hR]
      simp only [valueOf]
      rw [sumGrades_spec t.root el er ed 0 hbst haug hids hem,
        sumGrades_spec t.root sl sr sd 0 hbst haug hids hsm]

theorem filter_below_left (L : List tree_t) (lo : Int) (s : tree_t) (hs : L.Pairwise lt)
    (hf : leftBorderL L lo = some s) :
    L.filter (fun x => decide (lt x s)) = L.filter (fun x => decide (x.salary < lo)) := by
  unfold leftBorderL at hf
  rw [List.find?_eq_some] at hf
  obtain ⟨hp, as, bs, rfl, hn⟩ := hf
  simp only [decide_eq_true_eq] at hp
  simp only [List.pairwise_append, List.pairwise_cons, List.mem_cons] at hs
  obtain ⟨_, ⟨hsb, _⟩, hab⟩ := hs
  have a1 : as.filter (fun x => decide (lt x s)) = as :=
    filter_all _ _ (fun x hx => by simpa using hab x hx s (Or.inl rfl))
  have a2 : as.filter (fun x => decide (x.salary < lo)) = as :=
    filter_all _ _ (fun x hx => by
      have := hn x hx
      simp only [Bool.not_eq_true', decide_eq_false_iff_not] at this
      simp only [decide_eq_true_eq]; omega)
  have b1 : bs.filter (fun x => decide (lt x s)) = [] :=
    filter_none _ _ (fun x hx => by simpa using lt_asymm (hsb x hx))
  have b2 : bs.filter (fun x => decide (x.salary < lo)) = [] :=
    filter_none _ _ (fun x hx => by
      have := lt_salary_le (hsb x hx)
      simp only [decide_eq_false_iff_not]; omega)
  have s1 : decide (lt s s) = false := decide_eq_false (lt_irrefl s)
  have s2 : decide (s.salary < lo) = false := decide_eq_false (by omega)
  simp only [List.filter_append, List.filter_cons, a1, a2, b1, b2, s1, s2]

theorem filter_below_right (L : List tree_t) (hi : Int) (e : tree_t) (hs : L.Pairwise lt)
    (hf : rightBorderL L hi = some e) :
    L.filter (fun x => decide (x.salary ≤ hi)) = L.filter (fun x => decide (lt x e)) ++ [e] := by
  unfold rightBorderL at hf
  rw [List.find?_eq_some] at hf
  obtain ⟨hp, as, bs, hL, hn⟩ := hf
  have hL2 : L = bs.reverse ++ e :: as.reverse := by
    have := congrArg List.reverse hL
    simpa using this
  subst hL2
  simp only [decide_eq_true_eq] at hp
  simp only [List.pairwise_append, List.pairwise_cons, List.mem_cons, List.mem_reverse] at hs
  obtain ⟨_, ⟨hsa, _⟩, hbe⟩ := hs
  have b1 : bs.reverse.filter (fun x => decide (lt x e)) = bs.reverse :=
    filter_all _ _ (fun x hx => by simpa using hbe x (List.mem_reverse.mp hx) e (Or.inl rfl))
  have b2 : bs.reverse.filter (fun x => decide (x.salary ≤ hi)) = bs.reverse :=
    filter_all _ _ (fun x hx => by
      have := lt_salary_le (hbe x (List.mem_reverse.mp hx) e (Or.inl rfl))
      simp only [decide_eq_true_eq]; omega)
  have a1 : as.reverse.filter (fun x => decide (lt x e)) = [] :=
    filter_none _ _ (fun x hx => by simpa using lt_asymm (hsa x (List.mem_reverse.mp hx)))
  have a2 : as.reverse.filter (fun x => decide (x.salary ≤ hi)) = [] :=
    filter_none _ _ (fun x hx => by
      have := hn x (List.mem_reverse.mp hx)
      simpa using this)
  have s1 : decide (lt e e) = false := decide_eq_false (lt_irrefl e)
  have s2 : decide (e.salary ≤ hi) = true := decide_eq_true hp
  simp only [List.filter_append, List.filter_cons, a1, a2, b1, b2, s1, s2]
  simp

theorem gradeSum_range (L : List tree_t) (lo hi : Int) (hle : lo ≤ hi) :
    gradeSum (L.filter (fun x => decide (x.salary ≤ hi))) =
      gradeSum (L.filter (fun x => decide (x.salary < lo))) +
        gradeSum (L.filter (fun x => decide (lo ≤ x.salary ∧ x.salary ≤ hi))) := by
  induction L with
  | nil => rfl
  | cons a L ih =>
    simp only [List.filter_cons]
    by_cases h1 : a.salary < lo
    · have h2 : a.salary ≤ hi := by omega
      have h3 : ¬ (lo ≤ a.salary ∧ a.salary ≤ hi) := by omega
      simp only [decide_eq_true h1, decide_eq_true h2, decide_eq_false h3, if_true,
        Bool.false_eq_true, if_false, gradeSum_cons, ih]
      ring
    · by_cases h2 : a.salary ≤ hi
      · have h3 : lo ≤ a.salary ∧ a.salary ≤ hi := by omega
        simp only [decide_eq_false h1, decide_eq_true h2, decide_eq_true h3, if_true,
          Bool.false_eq_true, if_false, gradeSum_cons, ih]
        ring
      · have h3 : ¬ (lo ≤ a.salary ∧ a.salary ≤ hi) := by omega
        simp only [decide_eq_false h1, decide_eq_false h2, decide_eq_false h3,
          Bool.false_eq_true, if_false, ih]

/-- On a strictly ascending sequence and for `lo ≤ hi`, the border computation yields
the sum of the grades of the records with salary in `[lo, hi]`, reduced to `int`. -/
theorem rangeSumL_eq (L : List tree_t) (lo hi : Int) (hs : L.Pairwise lt) (hle : lo ≤ hi) :
    rangeSumL L lo hi =
      wrap32 (gradeSum (L.filter (fun r => decide (lo ≤ r.salary ∧ r.salary ≤ hi)))) := by
  have hrange := gradeSum_range L lo hi hle
  unfold rangeSumL
  cases hl : leftBorderL L lo with
  | none =>
    have hnone := List.find?_eq_none.mp hl
    rw [filter_none]
    · simp [gradeSum_nil, wrap32_zero]
    · intro x hx
      have := hnone x hx
      simp only [decide_eq_true_eq] at this
      exact decide_eq_false (by omega)
  | some s =>
    cases hr : rightBorderL L hi with
    | none =>
      have hnone := List.find?_eq_none.mp hr
      rw [filter_none]
      · exact wrap32_zero.symm
      · intro x hx
        have := hnone x (List.mem_reverse.mpr hx)
        simp only [decide_eq_true_eq] at this
        exact decide_eq_false (by omega)
    | some e =>
      have c1 := filter_below_left L lo s hs hl
      have c2 := filter_below_right L hi e hs hr
      rw [c2, gradeSum_append, gradeSum_cons, gradeSum_nil] at hrange
      show wrap32
        (wrap32 (wrap32 (0 + gradeSum (L.filter (fun x => decide (lt x e))) + e.grade)
          - wrap32 (0 + gradeSum (L.filter (fun x => decide (lt x s))) + s.grade)) + s.grade)
        = _
      rw [c1]
      simp only [wrap32_add_left, wrap32_sub_left, wrap32_sub_right]
      congr 1
      omega

/-- The tree after `insert (1, 10, 2147483647)` and `insert (2, 20, 1)`: the `int` sum of
the two grades stored in the `w1` of the root is -2147483648. -/
def overflowRoot : node_ptr :=
  node nil ⟨⟨1, 10, 2147483647⟩, 1, -2147483648, 2⟩ (node nil ⟨⟨2, 20, 1⟩, 0, 1, 1⟩ nil)

theorem overflow_build :
    (avlTree.empty.insert ⟨1, 10, 2147483647⟩).insert ⟨2, 20, 1⟩
      = ⟨overflowRoot, 2, maxOfRoot overflowRoot, minOfRoot overflowRoot⟩ := by
  rw [insert_of_fuel 1 avlTree.empty ⟨1, 10, 2147483647⟩
    (node nil ⟨⟨1, 10, 2147483647⟩, 0, 2147483647, 1⟩ nil) (by decide) (by decide)]
  rw [insert_of_fuel 2 _ ⟨2, 20, 1⟩ overflowRoot (by decide) (by decide)]
  rfl

/-- C11, counterexample: the tree built by `insert (1, 10, 2147483647)` and
`insert (2, 20, 1)` is BST-ordered, satisfies the augmentation invariant in the `int`
arithmetic of `updateW1` and has distinct ids; the records with salary in `[10, 20]` are
both records, whose grades sum to 2147483648, and `getSumOfGradesFromStartToEnd(10, 20)`
returns -2147483648. -/
theorem C11_counterexample :
    BST ((avlTree.empty.insert ⟨1, 10, 2147483647⟩).insert ⟨2, 20, 1⟩).root ∧
    Aug ((avlTree.empty.insert ⟨1, 10, 2147483647⟩).insert ⟨2, 20, 1⟩).root ∧
    DistinctIds ((avlTree.empty.insert ⟨1, 10, 2147483647⟩).insert ⟨2, 20, 1⟩).root ∧
    gradeSum ((toList ((avlTree.empty.insert ⟨1, 10, 2147483647⟩).insert ⟨2, 20, 1⟩).root).filter
      (fun r => decide ((10 : Int) ≤ r.salary ∧ r.salary ≤ 20))) = 2147483648 ∧
    ((avlTree.empty.insert ⟨1, 10, 2147483647⟩).insert
      ⟨2, 20, 1⟩).getSumOfGradesFromStartToEnd 10 20 = -2147483648 := by
  rw [overflow_build]
  exact ⟨by decide, by decide, by decide, by decide, by decide⟩

/-- C11, amended: on a BST-ordered tree with the augmentation invariant and pairwise
distinct ids, for `lo ≤ hi` the method `getSumOfGradesFromStartToEnd(lo, hi)` returns the
sum of the grades of the stored records whose salary lies in `[lo, hi]` reduced modulo
2^32 into the range of `int` (0 when there is no such record); it returns the sum itself
whenever that sum lies in the range of `int`. -/
theorem C11_range_weight_sum (t : avlTree) (lo hi : Int) (hbst : BST t.root)
    (haug : Aug t.root) (hids : DistinctIds t.root) (hle : lo ≤ hi) :
    t.getSumOfGradesFromStartToEnd lo hi =
      wrap32 (gradeSum
        ((toList t.root).filter (fun r => decide (lo ≤ r.salary ∧ r.salary ≤ hi)))) ∧
    (-2147483648 ≤ gradeSum
        ((toList t.root).filter (fun r => decide (lo ≤ r.salary ∧ r.salary ≤ hi))) →
      gradeSum ((toList t.root).filter (fun r => decide (lo ≤ r.salary ∧ r.salary ≤ hi)))
        < 2147483648 →
      t.getSumOfGradesFromStartToEnd lo hi =
        gradeSum ((toList t.root).filter (fun r => decide (lo ≤ r.salary ∧ r.salary ≤ hi)))) := by
  have h : t.getSumOfGradesFromStartToEnd lo hi =
      wrap32 (gradeSum
        ((toList t.root).filter (fun r => decide (lo ≤ r.salary ∧ r.salary ≤ hi)))) := by
    rw [getSumOfGrades_list t lo hi hbst haug hids]
    exact rangeSumL_eq _ lo hi ((BST_iff_sorted t.root).mp hbst) hle
  exact ⟨h, fun h1 h2 => h.trans (wrap32_of_range _ h1 h2)⟩

/-- The three inserts of the scenario of the specification build `scenarioTree`. -/
theorem scenario_build :
    ((avlTree.empty.insert ⟨1, 10, 5⟩).insert ⟨2, 20, 3⟩).insert ⟨3, 15, 7⟩ = scenarioTree := by
  rw [insert_of_fuel 1 avlTree.empty ⟨1, 10, 5⟩ (node nil ⟨⟨1, 10, 5⟩, 0, 5, 1⟩ nil)
    (by decide) (by decide)]
  rw [insert_of_fuel 2 _ ⟨2, 20, 3⟩
    (node nil ⟨⟨1, 10, 5⟩, 1, 8, 2⟩ (node nil ⟨⟨2, 20, 3⟩, 0, 3, 1⟩ nil)) (by decide) (by decide)]
  rw [insert_of_fuel 4 _ ⟨3, 15, 7⟩ scenarioRoot (by decide) (by decide)]
  rfl

/-- Witness for the amended C11: after the three inserts of the scenario the query
`(10, 15)` returns 12. -/
theorem C11_range_weight_sum_witness :
    (((avlTree.empty.insert ⟨1, 10, 5⟩).insert ⟨2, 20, 3⟩).insert
      ⟨3, 15, 7⟩).getSumOfGradesFromStartToEnd 10 15 = 12 := by
  rw [scenario_build]
  exact ((C11_range_weight_sum scenarioTree 10 15 (by decide) (by decide) (by decide)
    (by decide)).2 (by decide) (by decide)).trans (by decide)

/-! ## Rank queries -/

/-- The descent of `findIndexAux` on a tree with correct subtree counts reaches the node
whose 1-based in-order rank is `m - sum`, and a null pointer when there is no such rank. -/
theorem findIndex_spec (t : node_ptr) : ∀ (m sum : Int), Aug t →
    valueOf (findIndexAux t m sum) =
      if m - sum ≤ 0 then none else (toList t)[(m - sum - 1).toNat]? := by
  induction t with
  | nil => intro m sum _; simp [findIndexAux, valueOf, toList]
  | node l d r ihl ihr =>
    intro m sum ha
    have hw : l.w2Or = ((toList l).length : Int) := by
      rw [Aug_w2 l ha.1, numNodes_eq_length]
    rw [findIndexAux, hw]
    by_cases h1 : ((toList l).length : Int) + 1 = m - sum
    · rw [if_pos h1, if_neg (by omega)]
      have : (m - sum - 1).toNat = (toList l).length := by omega
      rw [this]
      simp only [valueOf, toList]
      rw [List.getElem?_append_right (Nat.le_refl _)]
      simp
    · rw [if_neg h1]
      by_cases h2 : ((toList l).length : Int) + 1 < m - sum
      · rw [if_pos h2, ihr _ _ ha.2.1, if_neg (by omega), if_neg (by omega)]
        have e : (m - sum - 1).toNat = (toList l).length + ((m - (sum + (toList l).length + 1) - 1).toNat + 1) := by
          omega
        rw [e]
        simp only [toList]
        rw [List.getElem?_append_right (by omega)]
        simp
      · rw [if_neg h2, if_pos (by omega), ihl _ _ ha.1]
        by_cases h3 : m - sum ≤ 0
        · rw [if_pos h3, if_pos h3]
        · rw [if_neg h3, if_neg h3]
          simp only [toList]
          rw [List.getElem?_append_left (by omega)]

/-- Sum of the grades up to and including the record of 1-based rank `k` of a sequence,
computed the way `findIndexAux` and `sumGradesToNode` compute it; 0 when no record has
that rank. -/
def prefixSumL (L : List tree_t) (k : Int) : Int :=
  if k ≤ 0 then 0
  else
    match L[(k - 1).toNat]? with
    | none => 0
    | some v => wrap32 (0 + gradeSum (L.filter (fun x => decide (lt x v))) + v.grade)

/-- Top-`m` weight sum computed on the in-order sequence the way the method computes it
on the tree, in `int` arithmetic; `none` stands for the read of `root->w1` on a null root. -/
def topSumL (L : List tree_t) (size m : Int) : Except Error (Option Int) :=
  if size < m then Except.error Error.notEnoughElements
  else
    match L with
    | [] => Except.ok none
    | a :: as =>
      Except.ok (some (wrap32 (wrap32 (gradeSum (a :: as)) - prefixSumL (a :: as) (size - m))))

theorem toList_eq_nil (t : node_ptr) : toList t = [] ↔ t = nil := by
  cases t with
  | nil => simp [toList]
  | node l d r => simp [toList]

/-- The top-`m` weight sum of the tree is a function of its in-order sequence and its
size field. -/
theorem getSumGradesOfTop_list (t : avlTree) (m : Int) (hbst : BST t.root) (haug : Aug t.root)
    (hids : DistinctIds t.root) :
    t.getSumGradesOfTopNodes m = topSumL (toList t.root) t.size m := by
  unfold avlTree.getSumGradesOfTopNodes topSumL
  by_cases hlt : t.size < m
  · rw [if_pos hlt, if_pos hlt]
  · rw [if_neg hlt, if_neg hlt]
    cases hroot : t.root with
    | nil => rfl
    | node l d r =>
      have hL : toList (node l d r) ≠ [] := by simp [toList]
      obtain ⟨a, as, hcons⟩ := List.exists_cons_of_ne_nil hL
      have hfi := findIndex_spec t.root (t.size - m) 0 haug
      rw [hroot] at hfi hbst haug hids
      have hw1 : d.w1 = wrap32 (gradeSum (toList (node l d r))) := Aug_w1 (node l d r) haug
      have hpre : sumGradesToNode (node l d r) (findIndexAux (node l d r) (t.size - m) 0) 0
          = prefixSumL (toList (node l d r)) (t.size - m) := by
        unfold prefixSumL
        simp only [sub_zero] at hfi
        cases hres : findIndexAux (node l d r) (t.size - m) 0 with
        | nil =>
          rw [hres] at hfi
          simp only [valueOf] at hfi
          by_cases hk : t.size - m ≤ 0
          · rw [if_pos hk]; simp [sumGradesToNode]
          · rw [if_neg hk] at hfi
            rw [if_neg hk, ← hfi]
            simp [sumGradesToNode]
        | node a1 b1 c1 =>
          rw [hres] at hfi
          simp only [valueOf] at hfi
          by_cases hk : t.size - m ≤ 0
          · rw [if_pos hk] at hfi; cases hfi
          · rw [if_neg hk] at hfi
            rw [if_neg hk, ← hfi]
            have hmem : b1.value ∈ toList (node l d r) :=
              List.mem_iff_getElem?.mpr ⟨_, hfi.symm⟩
            exact sumGrades_spec (node l d r) a1 c1 b1 0 hbst haug hids hmem
      simp only [hcons] at hpre hw1 ⊢
      rw [hw1, hpre]

theorem filter_lt_getElem (L : List tree_t) (hs : L.Pairwise lt) (i : Nat) (v : tree_t)
    (hv : L[i]? = some v) :
    L.filter (fun x => decide (lt x v)) = L.take i := by
  obtain ⟨hi, hget⟩ := List.getElem?_eq_some_iff.mp hv
  have hsplit : L = L.take i ++ v :: L.drop (i + 1) := by
    rw [← hget, ← List.drop_eq_getElem_cons hi, List.take_append_drop]
  have hs2 := hs
  rw [hsplit] at hs2
  simp only [List.pairwise_append, List.pairwise_cons, List.mem_cons] at hs2
  obtain ⟨_, ⟨hsb, _⟩, hab⟩ := hs2
  have a1 : (L.take i).filter (fun x => decide (lt x v)) = L.take i :=
    filter_all _ _ (fun x hx => by simpa using hab x hx v (Or.inl rfl))
  have b1 : (L.drop (i + 1)).filter (fun x => decide (lt x v)) = [] :=
    filter_none _ _ (fun x hx => by simpa using lt_asymm (hsb x hx))
  have s1 : decide (lt v v) = false := decide_eq_false (lt_irrefl v)
  conv_lhs => rw [hsplit]
  simp only [List.filter_append, List.filter_cons, a1, b1, s1]
  simp

/-- On a strictly ascending sequence, the prefix sum at rank `k` is the sum of the first
`k` grades, reduced to `int`. -/
theorem prefixSumL_eq (L : List tree_t) (hs : L.Pairwise lt) (k : Nat) (hk : k ≤ L.length) :
    prefixSumL L k = wrap32 (gradeSum (L.take k)) := by
  unfold prefixSumL
  cases k with
  | zero => simp [gradeSum_nil, wrap32_zero]
  | succ k =>
    rw [if_neg (by omega)]
    have e : (((k + 1 : Nat) : Int) - 1).toNat = k := by omega
    rw [e]
    have hlt : k < L.length := by omega
    have hv : L[k]? = some L[k] := List.getElem?_eq_getElem hlt
    rw [hv]
    simp only []
    rw [filter_lt_getElem L hs k _ hv, List.take_succ, hv]
    simp only [Option.toList, gradeSum_append, gradeSum_cons, gradeSum_nil]
    congr 1
    ring

theorem gradeSum_take_drop (L : List tree_t) (k : Nat) :
    gradeSum L - gradeSum (L.take k) = gradeSum (L.drop k) := by
  conv_lhs => rw [← List.take_append_drop k L, gradeSum_append]
  simp

/-- On a non-empty strictly ascending sequence whose length is `size`, the computation
yields the sum of the last `j` grades, reduced to `int`. -/
theorem topSumL_eq (L : List tree_t) (hs : L.Pairwise lt) (hne : L ≠ []) (size : Int)
    (hsize : size = (L.length : Int)) (j : Nat) (hj : j ≤ L.length) :
    topSumL L size j = Except.ok (some (wrap32 (gradeSum (L.drop (L.length - j))))) := by
  unfold topSumL
  rw [if_neg (by omega)]
  have hk : size - (j : Int) = ((L.length - j : Nat) : Int) := by omega
  cases L with
  | nil => exact absurd rfl hne
  | cons a as =>
    simp only []
    rw [hk, prefixSumL_eq _ hs _ (by omega), wrap32_sub_left, wrap32_sub_right,
      gradeSum_take_drop]

/-- C12, counterexample: the tree built by `insert (1, 10, 2147483647)` and
`insert (2, 20, 1)` is non-empty, BST-ordered, satisfies the augmentation invariant in the
`int` arithmetic of `updateW1`, has distinct ids and `size` equal to its number of nodes;
the grades of its 2 largest records sum to 2147483648, and `getSumGradesOfTopNodes(2)`,
with `2 = getSize()`, returns -2147483648. -/
theorem C12_counterexample :
    ((avlTree.empty.insert ⟨1, 10, 2147483647⟩).insert ⟨2, 20, 1⟩).root ≠ nil ∧
    BST ((avlTree.empty.insert ⟨1, 10, 2147483647⟩).insert ⟨2, 20, 1⟩).root ∧
    Aug ((avlTree.empty.insert ⟨1, 10, 2147483647⟩).insert ⟨2, 20, 1⟩).root ∧
    DistinctIds ((avlTree.empty.insert ⟨1, 10, 2147483647⟩).insert ⟨2, 20, 1⟩).root ∧
    ((avlTree.empty.insert ⟨1, 10, 2147483647⟩).insert ⟨2, 20, 1⟩).getSize = 2 ∧
    gradeSum ((toList ((avlTree.empty.insert ⟨1, 10, 2147483647⟩).insert ⟨2, 20, 1⟩).root).drop
      ((toList ((avlTree.empty.insert ⟨1, 10, 2147483647⟩).insert ⟨2, 20, 1⟩).root).length - 2))
      = 2147483648 ∧
    ((avlTree.empty.insert ⟨1, 10, 2147483647⟩).insert ⟨2, 20, 1⟩).getSumGradesOfTopNodes 2
      = Except.ok (some (-2147483648)) := by
  rw [overflow_build]
  exact ⟨by decide, by decide, by decide, by decide, by decide, by decide, rfl⟩

/-- C12, amended. Top-`m` weight sum: on a non-empty BST-ordered tree with correct subtree
aggregates, pairwise distinct ids and `size` equal to the number of nodes, for
`0 ≤ m ≤ getSize()` the method `getSumGradesOfTopNodes(m)` returns the sum of the grades
of the last `m` records of the ascending in-order sequence, that is of the `m` largest
records, reduced modulo 2^32 into the range of `int`; it returns the sum itself whenever
that sum lies in the range of `int`; for `m = getSize()` the sum is that of all grades. -/
theorem C12_top_weight_sum (t : avlTree) (m : Int) (hne : t.root ≠ nil) (hbst : BST t.root)
    (haug : Aug t.root) (hids : DistinctIds t.root) (hsize : t.size = numNodes t.root)
    (h0 : 0 ≤ m) (hm : m ≤ t.getSize) :
    t.getSumGradesOfTopNodes m =
      Except.ok (some (wrap32
        (gradeSum ((toList t.root).drop ((toList t.root).length - m.toNat))))) ∧
    (-2147483648 ≤ gradeSum ((toList t.root).drop ((toList t.root).length - m.toNat)) →
      gradeSum ((toList t.root).drop ((toList t.root).length - m.toNat)) < 2147483648 →
      t.getSumGradesOfTopNodes m =
        Except.ok (some (gradeSum ((toList t.root).drop ((toList t.root).length - m.toNat))))) ∧
    t.getSumGradesOfTopNodes t.getSize =
      Except.ok (some (wrap32 (gradeSum (toList t.root)))) ∧
    (-2147483648 ≤ gradeSum (toList t.root) → gradeSum (toList t.root) < 2147483648 →
      t.getSumGradesOfTopNodes t.getSize = Except.ok (some (gradeSum (toList t.root)))) := by
  have hs := (BST_iff_sorted t.root).mp hbst
  have hL : toList t.root ≠ [] := fun h => hne ((toList_eq_nil _).mp h)
  have hlen : t.size = ((toList t.root).length : Int) := by
    rw [hsize, numNodes_eq_length]
  simp only [avlTree.getSize] at hm ⊢
  have hA : t.getSumGradesOfTopNodes m =
      Except.ok (some (wrap32
        (gradeSum ((toList t.root).drop ((toList t.root).length - m.toNat))))) := by
    rw [getSumGradesOfTop_list t m hbst haug hids]
    have := topSumL_eq _ hs hL t.size hlen m.toNat (by omega)
    rwa [Int.toNat_of_nonneg h0] at this
  have hB : t.getSumGradesOfTopNodes t.size =
      Except.ok (some (wrap32 (gradeSum (toList t.root)))) := by
    rw [getSumGradesOfTop_list t t.size hbst haug hids]
    have := topSumL_eq _ hs hL t.size hlen (toList t.root).length (Nat.le_refl _)
    rw [← hlen] at this
    rw [this]
    simp
  refine ⟨hA, fun h1 h2 => ?_, hB, fun h1 h2 => ?_⟩
  · rw [hA, wrap32_of_range _ h1 h2]
  · rw [hB, wrap32_of_range _ h1 h2]

/-- Witness for the amended C12: on the tree of the scenario `m = 2` gives 10. -/
theorem C12_top_weight_sum_witness :
    scenarioTree.getSumGradesOfTopNodes 2 = Except.ok (some 10) :=
  ((C12_top_weight_sum scenarioTree 2 (by decide) (by decide) (by decide) (by decide)
    (by decide) (by decide) (by decide)).2.1 (by decide) (by decide)).trans
    (congrArg (fun x => Except.ok (some x)) (by decide))

/-! ## The `notEnoughElements` signal -/

/-- C13. The method `getSumGradesOfTopNodes(m)` throws `notEnoughElements` exactly when
`m > getSize()`, on every tree object and for every integer `m`, and it throws nothing
else.  The method writes no field of the tree, so the tree is the same after the call. -/
theorem C13_not_enough_elements (t : avlTree) (m : Int) :
    (t.getSumGradesOfTopNodes m = Except.error Error.notEnoughElements ↔ t.getSize < m) ∧
    (∀ e, t.getSumGradesOfTopNodes m = Except.error e → e = Error.notEnoughElements) := by
  unfold avlTree.getSumGradesOfTopNodes avlTree.getSize
  by_cases h : t.size < m
  · rw [if_pos h]
    exact ⟨⟨fun _ => h, fun _ => rfl⟩, fun e he => by cases he; rfl⟩
  · rw [if_neg h]
    cases t.root with
    | nil => exact ⟨⟨fun he => (by cases he), fun hlt => absurd hlt h⟩, fun e he => (by cases he)⟩
    | node l d r =>
      exact ⟨⟨fun he => (by cases he), fun hlt => absurd hlt h⟩, fun e he => (by cases he)⟩

/-! ## Building trees by repeated insertion -/

/-- Inserting the records of a list one at a time, first to last. -/
def insertAll (t : avlTree) (rs : List tree_t) : avlTree := rs.foldl avlTree.insert t

/-- Insertion with the walk to the root cut after `n` steps, for evaluation. -/
def insertFuel (n : Nat) (t : avlTree) (v : tree_t) : Option avlTree :=
  if t.isContain v.id v.salary then some t
  else
    match rebalanceFuel n (insertNodeToSubTree t.root [] (node_.ofValue v)) with
    | none => none
    | some root1 => some ⟨root1, t.size + 1, maxOfRoot root1, minOfRoot root1⟩

/-- Repeated insertion with the walks cut after `n` steps, for evaluation. -/
def insertAllFuel (n : Nat) : avlTree → List tree_t → Option avlTree
  | t, [] => some t
  | t, v :: rs =>
    match insertFuel n t v with
    | none => none
    | some t1 => insertAllFuel n t1 rs

theorem insertFuel_eq (n : Nat) (t t1 : avlTree) (v : tree_t) (h : insertFuel n t v = some t1) :
    t.insert v = t1 := by
  unfold insertFuel at h
  by_cases hc : t.isContain v.id v.salary = true
  · rw [if_pos hc] at h
    cases h
    exact insert_of_contained t v hc
  · rw [if_neg hc] at h
    simp only [Bool.not_eq_true] at hc
    cases hf : rebalanceFuel n (insertNodeToSubTree t.root [] (node_.ofValue v)) with
    | none => rw [hf] at h; cases h
    | some root1 =>
      rw [hf] at h
      cases h
      exact insert_of_fuel n t v root1 hc hf

theorem insertAllFuel_eq (n : Nat) (rs : List tree_t) : ∀ (t t1 : avlTree),
    insertAllFuel n t rs = some t1 → insertAll t rs = t1 := by
  induction rs with
  | nil => intro t t1 h; cases h; rfl
  | cons v rs ih =>
    intro t t1 h
    unfold insertAllFuel at h
    cases hf : insertFuel n t v with
    | none => rw [hf] at h; cases h
    | some t2 =>
      rw [hf] at h
      show insertAll (t.insert v) rs = t1
      rw [insertFuel_eq n t t2 v hf]
      exact ih t2 t1 h

/-- The tree after the six inserts `(2,20,1)`, `(1,10,2)`, `(1,30,4)`, `(3,5,8)`,
`(5,12,16)`, `(4,3,32)`: the record `(1,10)` is the root and `(1,30)` the maximum. -/
def dupRoot6 : node_ptr :=
  node (node (node nil ⟨⟨4, 3, 32⟩, 0, 32, 1⟩ nil) ⟨⟨3, 5, 8⟩, 1, 40, 2⟩ nil)
    ⟨⟨1, 10, 2⟩, 2, 63, 6⟩
    (node (node nil ⟨⟨5, 12, 16⟩, 0, 16, 1⟩ nil) ⟨⟨2, 20, 1⟩, 1, 21, 3⟩
      (node nil ⟨⟨1, 30, 4⟩, 0, 4, 1⟩ nil))

theorem dup_build6 :
    insertAll avlTree.empty [⟨2, 20, 1⟩, ⟨1, 10, 2⟩, ⟨1, 30, 4⟩, ⟨3, 5, 8⟩, ⟨5, 12, 16⟩, ⟨4, 3, 32⟩]
      = ⟨dupRoot6, 6, maxOfRoot dupRoot6, minOfRoot dupRoot6⟩ :=
  insertAllFuel_eq 6 _ _ _ (by decide)

theorem Reachable_insertAll (rs : List tree_t) : ∀ t : avlTree, Reachable t →
    Reachable (insertAll t rs) := by
  induction rs with
  | nil => intro t h; exact h
  | cons v rs ih => intro t h; exact ih (t.insert v) (Reachable.insert t v h)

/-- On the empty tree the call `getSumGradesOfTopNodes(0)` passes the size test and then
reads `root->w1` on a null `root`. -/
theorem topNodes_empty : avlTree.empty.getSumGradesOfTopNodes 0 = Except.ok none := rfl

/-- C14, counterexample: the tree built by the six inserts `(2,20,1)`, `(1,10,2)`,
`(1,30,4)`, `(3,5,8)`, `(5,12,16)`, `(4,3,32)` is reachable by the public operations and
stores the id 1 twice, at the root and at the maximum; on it `getSumGradesOfTopNodes(0)`
returns 21, not 0. -/
theorem C14_counterexample :
    Reachable (insertAll avlTree.empty
      [⟨2, 20, 1⟩, ⟨1, 10, 2⟩, ⟨1, 30, 4⟩, ⟨3, 5, 8⟩, ⟨5, 12, 16⟩, ⟨4, 3, 32⟩]) ∧
    (insertAll avlTree.empty
      [⟨2, 20, 1⟩, ⟨1, 10, 2⟩, ⟨1, 30, 4⟩, ⟨3, 5, 8⟩, ⟨5, 12, 16⟩, ⟨4, 3, 32⟩]).getSumGradesOfTopNodes 0
      = Except.ok (some 21) := by
  refine ⟨Reachable_insertAll _ _ Reachable.empty, ?_⟩
  rw [dup_build6]
  rfl

/-! ## The two-pointer merge -/

theorem mergeArrays_perm : ∀ (a b : List tree_t), (mergeArrays a b).Perm (a ++ b)
  | [], b => by simp [mergeArrays]
  | a :: as, [] => by simp [mergeArrays]
  | a :: as, b :: bs => by
    simp only [mergeArrays]
    split
    · exact (mergeArrays_perm as (b :: bs)).cons a
    · have h := (mergeArrays_perm (a :: as) bs).cons b
      exact h.trans (List.perm_middle.symm)

theorem mem_mergeArrays (a b : List tree_t) (x : tree_t) :
    x ∈ mergeArrays a b ↔ x ∈ a ∨ x ∈ b := by
  rw [(mergeArrays_perm a b).mem_iff, List.mem_append]

/-- Two records with the same `(salary, id)` key. -/
def sameKey (x y : tree_t) : Prop := x.salary = y.salary ∧ x.id = y.id

instance (x y : tree_t) : Decidable (sameKey x y) := by unfold sameKey; infer_instance

/-- Merging two strictly ascending sequences with disjoint keys gives a strictly
ascending sequence. -/
theorem mergeArrays_sorted : ∀ (a b : List tree_t), a.Pairwise lt → b.Pairwise lt →
    (∀ x ∈ a, ∀ y ∈ b, ¬ sameKey x y) → (mergeArrays a b).Pairwise lt
  | [], b => by intro _ hb _; simpa [mergeArrays] using hb
  | a :: as, [] => by intro ha _ _; simpa [mergeArrays] using ha
  | a :: as, b :: bs => by
    intro ha hb hd
    simp only [mergeArrays]
    have ha2 := List.pairwise_cons.mp ha
    have hb2 := List.pairwise_cons.mp hb
    split
    · rename_i hgt
      have hab : lt a b := (opGt_iff b a).mp hgt
      refine List.pairwise_cons.mpr ⟨?_, mergeArrays_sorted as (b :: bs) ha2.2 hb
        (fun x hx y hy => hd x (List.mem_cons_of_mem _ hx) y hy)⟩
      intro z hz
      rcases (mem_mergeArrays _ _ z).mp hz with hz | hz
      · exact ha2.1 z hz
      · rcases List.mem_cons.mp hz with hz | hz
        · rw [hz]; exact hab
        · exact lt_trans hab (hb2.1 z hz)
    · rename_i hgt
      have hnab : ¬ lt a b := fun h => hgt ((opGt_iff b a).mpr h)
      have hba : lt b a := by
        rcases lt_trichotomy a b with h | h | h
        · exact absurd h hnab
        · exact h
        · exact absurd h (hd a (List.mem_cons_self _ _) b (List.mem_cons_self _ _))
      refine List.pairwise_cons.mpr ⟨?_, mergeArrays_sorted (a :: as) bs ha hb2.2
        (fun x hx y hy => hd x hx y (List.mem_cons_of_mem _ hy))⟩
      intro z hz
      rcases (mem_mergeArrays _ _ z).mp hz with hz | hz
      · rcases List.mem_cons.mp hz with hz | hz
        · rw [hz]; exact hba
        · exact lt_trans hba (ha2.1 z hz)
      · exact hb2.1 z hz

/-! ## The disjointness test of `extend` -/

theorem intersectionLoop_spec (a : avlTree) (n : Nat) : ∀ it : Option Loc,
    (visited it).length ≤ n → intersectionLoop a n it = true →
    ∀ x ∈ visited it, a.isContain x.id x.salary = false := by
  induction n with
  | zero =>
    intro it hlen _ x hx
    cases it with
    | none => simp [visited] at hx
    | some c => simp [visited] at hlen
  | succ n ih =>
    intro it hlen hloop x hx
    cases it with
    | none => simp [visited] at hx
    | some c =>
      simp only [intersectionLoop] at hloop
      by_cases hc : a.isContain c.d.value.id c.d.value.salary = true
      · rw [if_pos hc] at hloop; cases hloop
      · rw [if_neg hc] at hloop
        simp only [visited, List.mem_cons] at hx
        rcases hx with hx | hx
        · rw [hx]; simpa using hc
        · have hnext := visited_next c
          refine ih (iteratorNext (some c)) ?_ hloop x (by rw [hnext]; exact hx)
          rw [hnext]
          simp only [visited, List.length_cons] at hlen
          omega

/-- When `IsIntersectionEmpty` holds for two non-empty well-formed tree objects, no record
of the second has the `(salary, id)` key of a record of the first, provided the first is
BST-ordered. -/
theorem disjoint_of_intersectionEmpty (a b : avlTree) (hb : WellFormed b) (ha : BST a.root)
    (hsa : a.getSize ≠ 0) (hsb : b.getSize ≠ 0) (h : IsIntersectionEmpty a b = true) :
    ∀ x ∈ toList a.root, ∀ y ∈ toList b.root, ¬ sameKey x y := by
  unfold IsIntersectionEmpty at h
  rw [if_neg (by simp [hsa, hsb])] at h
  have hvis : visited b.begin = toList b.root := by
    rw [avlTree.begin, hb.2.1, visited_minOfRoot]
  have hrem : (visited b.begin).length ≤ iterRemaining b.begin := by
    cases hbeg : b.begin with
    | none => simp [visited]
    | some c => rw [iterRemaining_some]; simp [visited]
  have hall := intersectionLoop_spec a _ b.begin hrem h
  rw [hvis] at hall
  intro x hx y hy hk
  have hfound := find_isSome_of_key_mem a.root [] ⟨y.id, y.salary, 0⟩ ha
    ⟨x, hx, hk.2, hk.1⟩
  have := hall y hy
  simp only [avlTree.isContain] at this
  rw [hfound] at this
  cases this

theorem Reachable_BST (t : avlTree) (h : Reachable t) : BST t.root := by
  induction h with
  | empty => trivial
  | insert t r _ ih => exact insert_BST t r ih
  | remove t id salary _ ih => exact remove_BST t id salary ih
  | extend t other t1 ht ho hint he iht iho =>
    have wt := (Reachable_inv t ht).1
    have wo := (Reachable_inv other ho).1
    obtain ⟨t2, e2, _, _, _, c1, c2, c3⟩ := extend_spec t other wt wo
    rw [e2] at he
    cases he
    by_cases hon : other.root = nil
    · rw [c1 hon]; exact iht
    · by_cases htn : t.root = nil
      · rw [BST_iff_sorted, c2 hon htn, ← BST_iff_sorted]; exact iho
      · rw [BST_iff_sorted, c3 hon htn]
        have hsa : t.getSize ≠ 0 := by
          intro h0
          apply htn
          rw [← numNodes_eq_zero]
          have := wt.1
          simp only [avlTree.getSize] at h0
          omega
        have hsb : other.getSize ≠ 0 := by
          intro h0
          apply hon
          rw [← numNodes_eq_zero]
          have := wo.1
          simp only [avlTree.getSize] at h0
          omega
        exact mergeArrays_sorted _ _ ((BST_iff_sorted _).mp iht) ((BST_iff_sorted _).mp iho)
          (disjoint_of_intersectionEmpty t other wo iht hsa hsb hint)

/-- C14, amended: on every non-empty tree reachable by `insert`, `remove` and `extend`
whose stored ids are pairwise distinct, `getSumGradesOfTopNodes(0)` completes without
error and returns 0. -/
theorem C14_top_zero (t : avlTree) (hr : Reachable t) (hids : DistinctIds t.root)
    (hne : t.root ≠ nil) : t.getSumGradesOfTopNodes 0 = Except.ok (some 0) := by
  obtain ⟨hw, haug⟩ := Reachable_inv t hr
  have hbst := Reachable_BST t hr
  have hs := (BST_iff_sorted t.root).mp hbst
  have hL : toList t.root ≠ [] := fun h => hne ((toList_eq_nil _).mp h)
  have hlen : t.size = ((toList t.root).length : Int) := by
    rw [hw.1, numNodes_eq_length]
  rw [getSumGradesOfTop_list t 0 hbst haug hids]
  have := topSumL_eq _ hs hL t.size hlen 0 (Nat.zero_le _)
  simp only [Nat.cast_zero, Nat.sub_zero, List.drop_length, gradeSum_nil, wrap32_zero] at this
  exact this

/-- Witness for the amended C14: the tree of the scenario, built by its three inserts. -/
theorem C14_top_zero_witness :
    (((avlTree.empty.insert ⟨1, 10, 5⟩).insert ⟨2, 20, 3⟩).insert
      ⟨3, 15, 7⟩).getSumGradesOfTopNodes 0 = Except.ok (some 0) :=
  C14_top_zero _
    (Reachable.insert _ _ (Reachable.insert _ _ (Reachable.insert _ _ Reachable.empty)))
    (by rw [scenario_build]; decide) (by rw [scenario_build]; decide)

/-! ## What `extend` leaves in the tree -/

theorem mergeArrays_nil_right (a : List tree_t) : mergeArrays a [] = a := by
  cases a <;> simp [mergeArrays]

/-- C15. Merge content: for two well-formed BST-ordered tree objects `A` and `B` whose ids
are pairwise distinct across both, `A.extend(B)` completes; afterwards the size of `A` is
the sum of the two sizes and the in-order sequence of `A` is the two-pointer merge of the
two previous in-order sequences, which is strictly ascending in `(salary, id)` and holds
exactly the records of both, each unchanged.  When `B` is empty `A` is unchanged, and when
`A` is empty its content becomes that of `B`. -/
theorem C15_merge_content (A B : avlTree) (hwa : WellFormed A) (hwb : WellFormed B)
    (hba : BST A.root) (hbb : BST B.root)
    (hids : (toList A.root ++ toList B.root).Pairwise (fun a b => a.id ≠ b.id)) :
    ∃ A1, A.extend B = Except.ok A1 ∧ A1.getSize = A.getSize + B.getSize ∧
      toList A1.root = mergeArrays (toList A.root) (toList B.root) ∧
      (toList A1.root).Pairwise lt ∧
      (toList A1.root).Perm (toList A.root ++ toList B.root) ∧
      (B.root = nil → A1 = A) ∧ (A.root = nil → toList A1.root = toList B.root) := by
  obtain ⟨A1, e1, w1, n1, _, c1, c2, c3⟩ := extend_spec A B hwa hwb
  have hcross : ∀ x ∈ toList A.root, ∀ y ∈ toList B.root, ¬ sameKey x y := by
    intro x hx y hy hk
    exact (List.pairwise_append.mp hids).2.2 x hx y hy hk.2
  have hlist : toList A1.root = mergeArrays (toList A.root) (toList B.root) := by
    by_cases hon : B.root = nil
    · rw [c1 hon, hon]; simp [toList, mergeArrays_nil_right]
    · by_cases htn : A.root = nil
      · rw [c2 hon htn, htn]; simp [toList, mergeArrays]
      · exact c3 hon htn
  refine ⟨A1, e1, ?_, hlist, ?_, ?_, c1, ?_⟩
  · simp only [avlTree.getSize]
    rw [w1.1, hwa.1, hwb.1, n1]
    push_cast
    rfl
  · rw [hlist]
    exact mergeArrays_sorted _ _ ((BST_iff_sorted _).mp hba) ((BST_iff_sorted _).mp hbb) hcross
  · rw [hlist]
    exact mergeArrays_perm _ _
  · intro htn
    rw [hlist, htn]
    simp [toList, mergeArrays]

/-- Witness for C15: the tree of the scenario extended by the one-record tree. -/
theorem C15_merge_content_witness :
    ∃ A1, scenarioTree.extend singleTree = Except.ok A1 ∧ A1.getSize = 4 ∧
      toList A1.root = [⟨1, 10, 5⟩, ⟨3, 15, 7⟩, ⟨2, 20, 3⟩, ⟨9, 50, 2⟩] := by
  obtain ⟨A1, h1, h2, h3, _⟩ := C15_merge_content scenarioTree singleTree
    (by decide) (by decide) (by decide) (by decide) (by decide)
  exact ⟨A1, h1, by rw [h2]; decide,
    by rw [h3]; simp [scenarioTree, scenarioRoot, singleTree, toList, mergeArrays, opGt]⟩

/-! ## The shape built by `extend` -/

/-- Two trees of the same shape (the node fields may differ). -/
inductive SameShape : node_ptr → node_ptr → Prop where
  | nil : SameShape nil nil
  | node (l l1 r r1 : node_ptr) (d d1 : node_) :
      SameShape l l1 → SameShape r r1 → SameShape (node l d r) (node l1 d1 r1)

/-- The tree is the complete tree with the given number of levels, from which some of
the leaves of the bottom level have been deleted. -/
def BottomPruned : Nat → node_ptr → Prop
  | 0, nil => True
  | 0, node _ _ _ => False
  | 1, nil => True
  | 1, node l _ r => l = nil ∧ r = nil
  | _ + 2, nil => False
  | L + 2, node l _ r => BottomPruned (L + 1) l ∧ BottomPruned (L + 1) r

theorem SameShape_realHeight (t t1 : node_ptr) (h : SameShape t t1) :
    realHeight t1 = realHeight t := by
  induction h with
  | nil => rfl
  | node l l1 r r1 d d1 _ _ ihl ihr => simp only [realHeight, ihl, ihr]

theorem SameShape_Balanced (t t1 : node_ptr) (h : SameShape t t1) (hb : Balanced t) :
    Balanced t1 := by
  induction h with
  | nil => trivial
  | node l l1 r r1 d d1 hl hr ihl ihr =>
    obtain ⟨b1, b2, b3, b4⟩ := hb
    refine ⟨ihl b1, ihr b2, ?_, ?_⟩
    · rw [SameShape_realHeight _ _ hl, SameShape_realHeight _ _ hr]; exact b3
    · rw [SameShape_realHeight _ _ hl, SameShape_realHeight _ _ hr]; exact b4

theorem SameShape_nil_left (t1 : node_ptr) (h : SameShape nil t1) : t1 = nil := by
  cases h; rfl

theorem SameShape_BottomPruned (t t1 : node_ptr) (h : SameShape t t1) :
    ∀ L, BottomPruned L t → BottomPruned L t1 := by
  induction h with
  | nil => intro L hp; exact hp
  | node l l1 r r1 d d1 hl hr ihl ihr =>
    intro L hp
    match L, hp with
    | 1, hp =>
      obtain ⟨h1, h2⟩ := hp
      subst h1 h2
      exact ⟨SameShape_nil_left _ hl, SameShape_nil_left _ hr⟩
    | L + 2, hp => exact ⟨ihl _ hp.1, ihr _ hp.2⟩

theorem inorderFill_shape (t : node_ptr) : ∀ (vs : List tree_t) (t1 : node_ptr)
    (vs1 : List tree_t), inorderTraversalWithFunctorAux t vs = Except.ok (t1, vs1) →
    SameShape t t1 := by
  induction t with
  | nil =>
    intro vs t1 vs1 h
    simp only [inorderTraversalWithFunctorAux] at h
    cases h
    exact SameShape.nil
  | node l d r ihl ihr =>
    intro vs t1 vs1 h
    simp only [inorderTraversalWithFunctorAux] at h
    cases hl : inorderTraversalWithFunctorAux l vs with
    | error e => rw [hl] at h; cases h
    | ok p =>
      obtain ⟨l1, vsl⟩ := p
      rw [hl] at h
      simp only [] at h
      cases vsl with
      | nil => cases h
      | cons v vs2 =>
        simp only [] at h
        cases hr : inorderTraversalWithFunctorAux r vs2 with
        | error e => rw [hr] at h; cases h
        | ok q =>
          obtain ⟨r1, vsr⟩ := q
          rw [hr] at h
          simp only [] at h
          cases h
          exact SameShape.node _ _ _ _ _ _ (ihl _ _ _ hl) (ihr _ _ _ hr)

theorem removeLeafs_bottomPruned (L : Nat) : ∀ (hasParent : Bool) (c : Int),
    BottomPruned L (removeLeafsFromTheRightInSubTree (completeLevels L) hasParent c).1 := by
  induction L with
  | zero => intro _ _; simp [completeLevels, removeLeafsFromTheRightInSubTree, BottomPruned]
  | succ L ih =>
    intro hasParent c
    cases L with
    | zero =>
      simp only [completeLevels, removeLeafsFromTheRightInSubTree]
      split
      · trivial
      · exact ⟨rfl, rfl⟩
    | succ L =>
      have hne := completeLevels_ne_nil L
      rw [completeLevels, removeLeafsFromTheRightInSubTree]
      simp only [hne, false_and, and_false, if_false]
      exact ⟨ih true _, ih true _⟩

theorem bottomPruned_balanced (L : Nat) : ∀ t : node_ptr, BottomPruned L t →
    Balanced t ∧ realHeight t ≤ (L : Int) - 1 ∧ (L : Int) - 2 ≤ realHeight t := by
  induction L with
  | zero =>
    intro t h
    cases t with
    | nil => simp [Balanced, realHeight]
    | node l d r => exact absurd h (by simp [BottomPruned])
  | succ L ih =>
    intro t h
    cases L with
    | zero =>
      cases t with
      | nil => simp [Balanced, realHeight]
      | node l d r =>
        obtain ⟨h1, h2⟩ := h
        subst h1 h2
        simp [Balanced, realHeight]
    | succ L =>
      cases t with
      | nil => exact absurd h (by simp [BottomPruned])
      | node l d r =>
        obtain ⟨b1, h1, g1⟩ := ih l h.1
        obtain ⟨b2, h2, g2⟩ := ih r h.2
        simp only [Balanced, realHeight]
        push_cast at h1 h2 g1 g2 ⊢
        refine ⟨⟨b1, b2, by omega, by omega⟩, ?_, ?_⟩
        · have := max_le h1 h2
          omega
        · have := le_max_left (realHeight l) (realHeight r)
          omega

/-- The shape built by `createAlmostCompleteBinaryTree(n)` for `n ≥ 1`: exactly `n` nodes,
the complete tree of `e + 1` levels without some leaves of its bottom level, where
`e` is the least height whose complete tree has at least `n` nodes. -/
theorem createAlmostComplete_spec (n : Int) (hn : 1 ≤ n) :
    ∃ e : Nat, (numNodes (createAlmostCompleteBinaryTree n) : Int) = n ∧
      BottomPruned (e + 1) (createAlmostCompleteBinaryTree n) ∧
      n ≤ 2 ^ (e + 1) - 1 ∧ (e = 0 ∨ (2 : Int) ^ e - 1 < n) := by
  obtain ⟨e, h1, h2, h3⟩ := getHeight_spec n hn
  refine ⟨e, numNodes_createAlmostComplete n hn, ?_, h2, h3⟩
  simp only [createAlmostCompleteBinaryTree, h1, createCompleteBinaryTree]
  have he : ((e : Int) + 1).toNat = e + 1 := by omega
  rw [he]
  exact removeLeafs_bottomPruned (e + 1) false _

theorem extend_shape (t other t1 : avlTree) (ht : WellFormed t) (ho : WellFormed other)
    (h1 : other.size ≠ 0) (h2 : t.getSize ≠ 0) (he : t.extend other = Except.ok t1) :
    SameShape (createAlmostCompleteBinaryTree (t.getSize + other.getSize)) t1.root := by
  simp only [avlTree.extend, h1, h2, if_false, getArrayFromTree_spec t ht,
    getArrayFromTree_spec other ho] at he
  cases hf : inorderTraversalWithFunctorAux
      (createAlmostCompleteBinaryTree (t.getSize + other.getSize))
      (mergeArrays (toList t.root) (toList other.root)) with
  | error e => rw [hf] at he; cases he
  | ok p =>
    obtain ⟨r1, vs1⟩ := p
    rw [hf] at he
    simp only [] at he
    cases he
    exact inorderFill_shape _ _ _ _ hf

/-- C16. The merge result is balanced: for two well-formed tree objects `A` and `B` in
which the true heights of the two subtrees of every node differ by at most 1,
`A.extend(B)` completes and leaves a tree with the same property.  The shape comes from
`createAlmostCompleteBinaryTree(n)`, which for every `n ≥ 1` returns a tree with exactly
`n` nodes that is the complete tree of the least sufficient height with only leaves of
its bottom level deleted. -/
theorem C16_merge_balanced (A B : avlTree) (hwa : WellFormed A) (hwb : WellFormed B)
    (hA : Balanced A.root) (hB : Balanced B.root) :
    (∃ A1, A.extend B = Except.ok A1 ∧ Balanced A1.root) ∧
    (∀ n : Int, 1 ≤ n → ∃ e : Nat, (numNodes (createAlmostCompleteBinaryTree n) : Int) = n ∧
      BottomPruned (e + 1) (createAlmostCompleteBinaryTree n) ∧
      n ≤ 2 ^ (e + 1) - 1 ∧ (e = 0 ∨ (2 : Int) ^ e - 1 < n)) := by
  refine ⟨?_, createAlmostComplete_spec⟩
  obtain ⟨A1, e1, _, _, _, c1, _, _⟩ := extend_spec A B hwa hwb
  refine ⟨A1, e1, ?_⟩
  by_cases h1 : B.size = 0
  · have hon : B.root = nil := by
      rw [← numNodes_eq_zero]; have := hwb.1; omega
    rw [c1 hon]; exact hA
  · by_cases h2 : A.getSize = 0
    · have : A.extend B = Except.ok (avlTree.assign B) := by
        simp [avlTree.extend, h1, h2]
      rw [this] at e1
      cases e1
      simpa [avlTree.assign, recursiveCopy_eq] using hB
    · have hshape := extend_shape A B A1 hwa hwb h1 h2 e1
      have hlen : (1 : Int) ≤ A.getSize + B.getSize := by
        have := hwa.1
        have := hwb.1
        simp only [avlTree.getSize] at h2 ⊢
        omega
      obtain ⟨e, _, hp, _⟩ := createAlmostComplete_spec _ hlen
      exact SameShape_Balanced _ _ hshape (bottomPruned_balanced _ _ hp).1

/-- Witness for C16: the tree of the scenario extended by the one-record tree. -/
theorem C16_merge_balanced_witness :
    ∃ A1, scenarioTree.extend singleTree = Except.ok A1 ∧ Balanced A1.root :=
  (C16_merge_balanced scenarioTree singleTree (by decide) (by decide) (by decide)
    (by decide)).1

/-! ## Queries are determined by the in-order sequence -/

/-- The invariants of a tree object under which the queries are functions of the in-order
sequence. -/
def Inv (t : avlTree) : Prop :=
  WellFormed t ∧ BST t.root ∧ Aug t.root ∧ DistinctIds t.root

theorem ids_symm {x y : tree_t} (h : x.id ≠ y.id) : y.id ≠ x.id := fun e => h e.symm

theorem insert_fresh (t : avlTree) (v : tree_t) (hnew : ∀ x ∈ toList t.root, x.id ≠ v.id) :
    (toList (t.insert v).root).Perm (v :: toList t.root) := by
  have hc : t.isContain v.id v.salary = false := by
    simp [avlTree.isContain, find_none_of_no_id t.root [] ⟨v.id, v.salary, 0⟩ hnew]
  obtain ⟨L1, L2, h1, h2, _⟩ := insert_spec t v hc
  rw [h1, h2]
  exact List.perm_middle

theorem insert_Inv (t : avlTree) (v : tree_t) (h : Inv t)
    (hnew : ∀ x ∈ toList t.root, x.id ≠ v.id) : Inv (t.insert v) := by
  obtain ⟨hw, hb, ha, hd⟩ := h
  refine ⟨insert_WellFormed t v hw, insert_BST t v hb, insert_Aug t v ha, ?_⟩
  unfold DistinctIds at hd ⊢
  rw [(insert_fresh t v hnew).pairwise_iff ids_symm, List.pairwise_cons]
  exact ⟨fun x hx => ids_symm (hnew x hx), hd⟩

theorem insertAll_Inv (rs : List tree_t) : ∀ t0 : avlTree, Inv t0 →
    rs.Pairwise (fun a b => a.id ≠ b.id) → (∀ x ∈ toList t0.root, ∀ r ∈ rs, x.id ≠ r.id) →
    Inv (insertAll t0 rs) ∧ (toList (insertAll t0 rs).root).Perm (toList t0.root ++ rs) := by
  induction rs with
  | nil => intro t0 h _ _; exact ⟨h, by simp [insertAll]⟩
  | cons v rs ih =>
    intro t0 h hp hd
    have hnew : ∀ x ∈ toList t0.root, x.id ≠ v.id := fun x hx => hd x hx v (List.mem_cons_self _ _)
    have hperm := insert_fresh t0 v hnew
    obtain ⟨hpv, hprs⟩ := List.pairwise_cons.mp hp
    obtain ⟨i1, p1⟩ := ih (t0.insert v) (insert_Inv t0 v h hnew) hprs (by
      intro x hx r hr
      rcases List.mem_cons.mp (hperm.mem_iff.mp hx) with hx | hx
      · rw [hx]; exact hpv r hr
      · exact hd x hx r (List.mem_cons_of_mem _ hr))
    refine ⟨i1, ?_⟩
    show (toList (insertAll (t0.insert v) rs).root).Perm (toList t0.root ++ v :: rs)
    exact p1.trans ((hperm.append_right rs).trans (by simpa using List.perm_middle.symm))

theorem Inv_empty : Inv avlTree.empty := ⟨by decide, trivial, trivial, by simp [DistinctIds, avlTree.empty, toList]⟩

/-- Two tree objects that satisfy the invariants and have the same in-order sequence give
the same results for the range queries and the top-`m` query, and for `isContain` and
`find` on every key that is stored with that salary or whose id is not stored at all. -/
theorem queries_of_list (M F : avlTree) (hM : Inv M) (hF : Inv F)
    (hlist : toList M.root = toList F.root) :
    (∀ lo hi : Int,
      M.getSumOfGradesFromStartToEnd lo hi = F.getSumOfGradesFromStartToEnd lo hi ∧
      M.getSumOfNodesFromStartToEnd lo hi = F.getSumOfNodesFromStartToEnd lo hi) ∧
    (∀ m : Int, M.getSumGradesOfTopNodes m = F.getSumGradesOfTopNodes m) ∧
    (∀ id salary : Int,
      ((∃ r ∈ toList F.root, r.id = id ∧ r.salary = salary) ∨ (∀ r ∈ toList F.root, r.id ≠ id)) →
      M.isContain id salary = F.isContain id salary ∧ M.find id salary = F.find id salary) := by
  obtain ⟨wM, bM, aM, dM⟩ := hM
  obtain ⟨wF, bF, aF, dF⟩ := hF
  have hsize : M.size = F.size := by
    rw [wM.1, wF.1, numNodes_eq_length, numNodes_eq_length, hlist]
  refine ⟨?_, ?_, ?_⟩
  · intro lo hi
    rw [getSumOfGrades_list M lo hi bM aM dM, getSumOfGrades_list F lo hi bF aF dF,
      getSumOfNodes_list M lo hi bM aM dM, getSumOfNodes_list F lo hi bF aF dF, hlist]
    exact ⟨rfl, rfl⟩
  · intro m
    rw [getSumGradesOfTop_list M m bM aM dM, getSumGradesOfTop_list F m bF aF dF, hlist, hsize]
  · intro id salary hkey
    rcases hkey with ⟨r, hr, hid, hsal⟩ | hno
    · obtain ⟨c1, f1, v1, _⟩ :=
        find_of_mem M.root [] ⟨id, salary, 0⟩ r bM dM (hlist ▸ hr) hid.symm hsal.symm
      obtain ⟨c2, f2, v2, _⟩ :=
        find_of_mem F.root [] ⟨id, salary, 0⟩ r bF dF hr hid.symm hsal.symm
      simp [avlTree.isContain, avlTree.find, f1, f2, v1, v2]
    · have f1 := find_none_of_no_id M.root [] ⟨id, salary, 0⟩ (hlist ▸ hno)
      have f2 := find_none_of_no_id F.root [] ⟨id, salary, 0⟩ hno
      simp [avlTree.isContain, avlTree.find, f1, f2]

/-- The content and the invariants of the tree left by `extend` on two tree objects that
satisfy the invariants and share no id. -/
theorem extend_Inv (A B : avlTree) (hA : Inv A) (hB : Inv B)
    (hids : (toList A.root ++ toList B.root).Pairwise (fun a b => a.id ≠ b.id)) :
    ∃ A1, A.extend B = Except.ok A1 ∧ Inv A1 ∧
      (toList A1.root).Perm (toList A.root ++ toList B.root) := by
  obtain ⟨wA, bA, aA, dA⟩ := hA
  obtain ⟨wB, bB, aB, dB⟩ := hB
  obtain ⟨A1, e1, w1, _, a1, c1, c2, c3⟩ := extend_spec A B wA wB
  have hcross : ∀ x ∈ toList A.root, ∀ y ∈ toList B.root, ¬ sameKey x y := by
    intro x hx y hy hk
    exact (List.pairwise_append.mp hids).2.2 x hx y hy hk.2
  have hlist : toList A1.root = mergeArrays (toList A.root) (toList B.root) := by
    by_cases hon : B.root = nil
    · rw [c1 hon, hon]; simp [toList, mergeArrays_nil_right]
    · by_cases htn : A.root = nil
      · rw [c2 hon htn, htn]; simp [toList, mergeArrays]
      · exact c3 hon htn
  have hperm : (toList A1.root).Perm (toList A.root ++ toList B.root) := by
    rw [hlist]; exact mergeArrays_perm _ _
  refine ⟨A1, e1, ⟨w1, ?_, a1 aA aB, ?_⟩, hperm⟩
  · rw [BST_iff_sorted, hlist]
    exact mergeArrays_sorted _ _ ((BST_iff_sorted _).mp bA) ((BST_iff_sorted _).mp bB) hcross
  · unfold DistinctIds
    rw [hperm.pairwise_iff ids_symm]
    exact hids

theorem sorted_perm_eq (L1 L2 : List tree_t) (h1 : L1.Pairwise lt) (h2 : L2.Pairwise lt)
    (hp : L1.Perm L2) : L1 = L2 := by
  haveI : IsAntisymm tree_t lt := ⟨fun a b hab hba => absurd hba (lt_asymm hab)⟩
  exact List.eq_of_perm_of_sorted hp h1 h2

/-- Evaluation of `extend` on two non-empty tree objects from the values of its steps. -/
theorem extend_eval (t other : avlTree) (tv ov merged rest : List tree_t) (new_tree : node_ptr)
    (h1 : other.size ≠ 0) (h2 : t.getSize ≠ 0)
    (ha : getArrayFromTree t = Except.ok tv) (hb : getArrayFromTree other = Except.ok ov)
    (hm : mergeArrays tv ov = merged)
    (hf : inorderTraversalWithFunctorAux
      (createAlmostCompleteBinaryTree (t.getSize + other.getSize)) merged
        = Except.ok (new_tree, rest)) :
    t.extend other = Except.ok
      ⟨new_tree, t.getSize + other.getSize, maxOfRoot new_tree, minOfRoot new_tree⟩ := by
  simp only [avlTree.extend, h1, h2, if_false, ha, hb, hm, hf]

/-- The root left by `extend` of the one-record trees `(1,10,5)` and `(2,20,3)`. -/
def mergedRoot2 : node_ptr :=
  node (node nil ⟨⟨1, 10, 5⟩, 0, 5, 1⟩ nil) ⟨⟨2, 20, 3⟩, 1, 8, 2⟩ nil

/-- The root after `insert (1,10,5)` and `insert (2,20,3)`. -/
def freshRoot2 : node_ptr :=
  node nil ⟨⟨1, 10, 5⟩, 1, 8, 2⟩ (node nil ⟨⟨2, 20, 3⟩, 0, 3, 1⟩ nil)

theorem single_build (v : tree_t) :
    insertAll avlTree.empty [v]
      = ⟨node nil (refresh nil (node_.ofValue v) nil) nil, 1,
          maxOfRoot (node nil (refresh nil (node_.ofValue v) nil) nil),
          minOfRoot (node nil (refresh nil (node_.ofValue v) nil) nil)⟩ :=
  insertAllFuel_eq 1 _ _ _ rfl

theorem merged_build2 :
    (insertAll avlTree.empty [⟨1, 10, 5⟩]).extend (insertAll avlTree.empty [⟨2, 20, 3⟩])
      = Except.ok ⟨mergedRoot2, 2, maxOfRoot mergedRoot2, minOfRoot mergedRoot2⟩ := by
  rw [single_build, single_build]
  exact extend_eval _ _ [⟨1, 10, 5⟩] [⟨2, 20, 3⟩] [⟨1, 10, 5⟩, ⟨2, 20, 3⟩] [] mergedRoot2
    (by decide) (by decide) rfl rfl (by simp [mergeArrays, opGt]) rfl

theorem fresh_build2 :
    insertAll avlTree.empty [⟨1, 10, 5⟩, ⟨2, 20, 3⟩]
      = ⟨freshRoot2, 2, maxOfRoot freshRoot2, minOfRoot freshRoot2⟩ :=
  insertAllFuel_eq 2 _ _ _ (by decide)

/-- C17, counterexample: `A` holds `(1,10,5)` and `B` holds `(2,20,3)`, both built by
`insert`.  After `A.extend(B)` the record `(1,10)` is the left child of the root
`(2,20)`, and `isContain(1, 99)` is false and `find(1, 99)` throws; in the tree built by
inserting `(1,10,5)` and then `(2,20,3)` the record `(1,10)` is the root, and
`isContain(1, 99)` is true and `find(1, 99)` returns it. -/
theorem C17_counterexample :
    ∃ M, (insertAll avlTree.empty [⟨1, 10, 5⟩]).extend (insertAll avlTree.empty [⟨2, 20, 3⟩])
        = Except.ok M ∧
      M.isContain 1 99 = false ∧
      (insertAll avlTree.empty [⟨1, 10, 5⟩, ⟨2, 20, 3⟩]).isContain 1 99 = true ∧
      M.find 1 99 = Except.error Error.elementNotExsist ∧
      (insertAll avlTree.empty [⟨1, 10, 5⟩, ⟨2, 20, 3⟩]).find 1 99 = Except.ok ⟨1, 10, 5⟩ := by
  refine ⟨_, merged_build2, ?_⟩
  rw [fresh_build2]
  exact ⟨by decide, by decide, rfl, rfl⟩

/-- C17, amended: let `A` and `B` be built by inserting the records of `as` and of `bs`
into empty trees, all ids pairwise distinct, and let `F` be built by inserting the same
records one at a time, in any order, into an empty tree.  Then `A.extend(B)` completes,
and on the merged tree `getSumOfGradesFromStartToEnd(lo, hi)`,
`getSumOfNodesFromStartToEnd(lo, hi)` and `getSumGradesOfTopNodes(m)` (the thrown
`notEnoughElements` included) give the same results as on `F` for all `lo`, `hi`, `m`,
and `isContain` and `find` give the same results as on `F` for every key `(id, salary)`
that is stored with that salary or whose id is not stored at all. -/
theorem C17_merged_queries (as bs rs : List tree_t)
    (hids : (as ++ bs).Pairwise (fun a b => a.id ≠ b.id)) (hperm : rs.Perm (as ++ bs)) :
    ∃ M, (insertAll avlTree.empty as).extend (insertAll avlTree.empty bs) = Except.ok M ∧
      (∀ lo hi : Int,
        M.getSumOfGradesFromStartToEnd lo hi
          = (insertAll avlTree.empty rs).getSumOfGradesFromStartToEnd lo hi ∧
        M.getSumOfNodesFromStartToEnd lo hi
          = (insertAll avlTree.empty rs).getSumOfNodesFromStartToEnd lo hi) ∧
      (∀ m : Int, M.getSumGradesOfTopNodes m
          = (insertAll avlTree.empty rs).getSumGradesOfTopNodes m) ∧
      (∀ id salary : Int,
        ((∃ r ∈ as ++ bs, r.id = id ∧ r.salary = salary) ∨ (∀ r ∈ as ++ bs, r.id ≠ id)) →
        M.isContain id salary = (insertAll avlTree.empty rs).isContain id salary ∧
        M.find id salary = (insertAll avlTree.empty rs).find id salary) := by
  have hempty : ∀ rs : List tree_t, ∀ x ∈ toList avlTree.empty.root, ∀ r ∈ rs, x.id ≠ r.id := by
    intro _ x hx; simp [avlTree.empty, toList] at hx
  obtain ⟨ha1, ha2, ha3⟩ := List.pairwise_append.mp hids
  obtain ⟨iA, pA⟩ := insertAll_Inv as avlTree.empty Inv_empty ha1 (hempty as)
  obtain ⟨iB, pB⟩ := insertAll_Inv bs avlTree.empty Inv_empty ha2 (hempty bs)
  obtain ⟨iF, pF⟩ := insertAll_Inv rs avlTree.empty Inv_empty
    ((hperm.pairwise_iff ids_symm).mpr hids) (hempty rs)
  simp only [avlTree.empty, toList, List.nil_append] at pA pB pF
  have hAB : (toList (insertAll avlTree.empty as).root ++
      toList (insertAll avlTree.empty bs).root).Perm (as ++ bs) := pA.append pB
  obtain ⟨M, e1, iM, pM⟩ := extend_Inv _ _ iA iB ((hAB.pairwise_iff ids_symm).mpr hids)
  have hlist : toList M.root = toList (insertAll avlTree.empty rs).root :=
    sorted_perm_eq _ _ ((BST_iff_sorted _).mp iM.2.1) ((BST_iff_sorted _).mp iF.2.1)
      ((pM.trans hAB).trans (pF.trans hperm).symm)
  obtain ⟨q1, q2, q3⟩ := queries_of_list M _ iM iF hlist
  refine ⟨M, e1, q1, q2, ?_⟩
  intro id salary hkey
  apply q3
  have hmem : ∀ r, r ∈ as ++ bs ↔ r ∈ toList (insertAll avlTree.empty rs).root :=
    fun r => (pF.trans hperm).mem_iff.symm
  rcases hkey with ⟨r, hr, h⟩ | hno
  · exact Or.inl ⟨r, (hmem r).mp hr, h⟩
  · exact Or.inr (fun r hr => hno r ((hmem r).mpr hr))

/-- Witness for the amended C17: `A` holds `(1,10,5)`, `B` holds `(2,20,3)`. -/
theorem C17_merged_queries_witness :
    ∃ M, (insertAll avlTree.empty [⟨1, 10, 5⟩]).extend (insertAll avlTree.empty [⟨2, 20, 3⟩])
        = Except.ok M ∧
      ∀ m : Int, M.getSumGradesOfTopNodes m
        = (insertAll avlTree.empty [⟨1, 10, 5⟩, ⟨2, 20, 3⟩]).getSumGradesOfTopNodes m := by
  obtain ⟨M, h1, _, h3, _⟩ := C17_merged_queries [⟨1, 10, 5⟩] [⟨2, 20, 3⟩]
    [⟨1, 10, 5⟩, ⟨2, 20, 3⟩] (by decide) (List.Perm.refl _)
  exact ⟨M, h1, h3⟩

/-! ## The cached minimum and maximum -/

theorem minOfRoot_none (root : node_ptr) : minOfRoot root = none ↔ root = nil := by
  cases root <;> simp [minOfRoot, node_ptr.toLoc]

theorem maxOfRoot_none (root : node_ptr) : maxOfRoot root = none ↔ root = nil := by
  cases root <;> simp [maxOfRoot, node_ptr.toLoc]

/-- On a well-formed non-empty tree object `getMin()` is the first record of the in-order
sequence. -/
theorem getMin_spec (t : avlTree) (hw : WellFormed t) (hne : t.root ≠ nil) :
    ∃ mn rest, t.getMin = some mn ∧ toList t.root = mn :: rest := by
  cases hroot : t.root with
  | nil => exact absurd hroot hne
  | node l d r =>
    obtain ⟨_, _, h3⟩ := getMinAux_spec l d r []
    refine ⟨(getMinAux l d r []).d.value, (getMinAux l d r []).after, ?_, ?_⟩
    · simp [avlTree.getMin, hw.2.1, hroot, minOfRoot, node_ptr.toLoc, getMinInSubTree]
    · rw [h3]; simp [ctxRight]

/-- On a well-formed non-empty tree object `getMax()` is the last record of the in-order
sequence. -/
theorem getMax_spec (t : avlTree) (hw : WellFormed t) (hne : t.root ≠ nil) :
    ∃ mx init, t.getMax = some mx ∧ toList t.root = init ++ [mx] := by
  cases hroot : t.root with
  | nil => exact absurd hroot hne
  | node l d r =>
    obtain ⟨_, _, h3⟩ := getMaxAux_spec r l d []
    refine ⟨(getMaxAux l d r []).d.value, (getMaxAux l d r []).before, ?_, ?_⟩
    · simp [avlTree.getMax, hw.2.2, hroot, maxOfRoot, node_ptr.toLoc, getMaxInSubTree]
    · rw [h3]; simp [ctxLeft]

/-- The cached `min` and `max` are null exactly when the tree is empty, and otherwise
`getMin()` and `getMax()` are the least and the greatest stored record. -/
def CacheOK (t : avlTree) : Prop :=
  (t.min = none ↔ t.root = nil) ∧ (t.max = none ↔ t.root = nil) ∧
  (t.root ≠ nil → ∃ mn mx, t.getMin = some mn ∧ t.getMax = some mx ∧
    mn ∈ toList t.root ∧ mx ∈ toList t.root ∧
    ∀ x ∈ toList t.root, (x = mn ∨ lt mn x) ∧ (x = mx ∨ lt x mx))

theorem cacheOK_of_wellFormed (t : avlTree) (hw : WellFormed t) (hb : BST t.root) :
    CacheOK t := by
  refine ⟨by rw [hw.2.1]; exact minOfRoot_none _, by rw [hw.2.2]; exact maxOfRoot_none _, ?_⟩
  intro hne
  obtain ⟨mn, rest, g1, l1⟩ := getMin_spec t hw hne
  obtain ⟨mx, init, g2, l2⟩ := getMax_spec t hw hne
  have hs := (BST_iff_sorted t.root).mp hb
  refine ⟨mn, mx, g1, g2, by rw [l1]; simp, by rw [l2]; simp, ?_⟩
  intro x hx
  constructor
  · rw [l1] at hx hs
    rcases List.mem_cons.mp hx with h | h
    · exact Or.inl h
    · exact Or.inr ((List.pairwise_cons.mp hs).1 x h)
  · rw [l2] at hx hs
    rcases List.mem_append.mp hx with h | h
    · exact Or.inr ((List.pairwise_append.mp hs).2.2 x h mx (by simp))
    · exact Or.inl (by simpa using h)

/-- What `extend` leaves on two well-formed BST-ordered tree objects with disjoint keys:
a well-formed BST-ordered tree object. -/
theorem extend_wellFormed_BST (t other : avlTree) (hw : WellFormed t) (hb : BST t.root)
    (hwo : WellFormed other) (hbo : BST other.root)
    (hdisj : ∀ x ∈ toList t.root, ∀ y ∈ toList other.root, ¬ sameKey x y) :
    ∃ t1, t.extend other = Except.ok t1 ∧ WellFormed t1 ∧ BST t1.root := by
  obtain ⟨t1, e1, w1, _, _, c1, c2, c3⟩ := extend_spec t other hw hwo
  refine ⟨t1, e1, w1, ?_⟩
  by_cases hon : other.root = nil
  · rw [c1 hon]; exact hb
  · by_cases htn : t.root = nil
    · rw [BST_iff_sorted, c2 hon htn, ← BST_iff_sorted]; exact hbo
    · rw [BST_iff_sorted, c3 hon htn]
      exact mergeArrays_sorted _ _ ((BST_iff_sorted _).mp hb) ((BST_iff_sorted _).mp hbo) hdisj

/-- C20. The min/max cache: on a well-formed BST-ordered tree object, after `insert(r)`,
after `remove(id, salary)` and after `extend(other)` (with `other` well-formed,
BST-ordered and sharing no `(salary, id)` key with the tree), the cached `min` and `max`
are null exactly when the tree is empty, and otherwise `getMin()` and `getMax()` return
the least and the greatest stored record in the `(salary, id)` order.  The same holds for
every tree reachable from the empty tree by `insert`, `remove` and `extend`. -/
theorem C20_min_max_cache (t other : avlTree) (r : tree_t) (id salary : Int)
    (hw : WellFormed t) (hb : BST t.root) (hwo : WellFormed other) (hbo : BST other.root)
    (hdisj : ∀ x ∈ toList t.root, ∀ y ∈ toList other.root, ¬ sameKey x y) :
    CacheOK (t.insert r) ∧ CacheOK (t.remove id salary) ∧
    (∃ t1, t.extend other = Except.ok t1 ∧ CacheOK t1) ∧
    (∀ s, Reachable s → CacheOK s) := by
  refine ⟨cacheOK_of_wellFormed _ (insert_WellFormed t r hw) (insert_BST t r hb),
    cacheOK_of_wellFormed _ (remove_WellFormed t id salary hw) (remove_BST t id salary hb),
    ?_, fun s hs => cacheOK_of_wellFormed s (Reachable_inv s hs).1 (Reachable_BST s hs)⟩
  obtain ⟨t1, e1, w1, b1⟩ := extend_wellFormed_BST t other hw hb hwo hbo hdisj
  exact ⟨t1, e1, cacheOK_of_wellFormed t1 w1 b1⟩

/-- Witness for C20: the tree of the scenario, and the one-record tree as `other`. -/
theorem C20_min_max_cache_witness :
    CacheOK (scenarioTree.insert ⟨4, 12, 1⟩) ∧ CacheOK (scenarioTree.remove 3 15) ∧
    (∃ t1, scenarioTree.extend singleTree = Except.ok t1 ∧ CacheOK t1) :=
  have h := C20_min_max_cache scenarioTree singleTree ⟨4, 12, 1⟩ 3 15
    (by decide) (by decide) (by decide) (by decide) (by decide)
  ⟨h.1, h.2.1, h.2.2.1⟩

/-! ## The full range -/

/-- The trees built from the empty tree by `remove` and by `insert` of records whose id is
not stored at the time of the call. -/
inductive BuiltDistinct : avlTree → Prop where
  | empty : BuiltDistinct avlTree.empty
  | insert (t : avlTree) (r : tree_t) : BuiltDistinct t →
      (∀ x ∈ toList t.root, x.id ≠ r.id) → BuiltDistinct (t.insert r)
  | remove (t : avlTree) (id salary : Int) : BuiltDistinct t →
      BuiltDistinct (t.remove id salary)

theorem remove_DistinctIds (t : avlTree) (id salary : Int) (h : DistinctIds t.root) :
    DistinctIds (t.remove id salary).root := by
  cases hf : findNodeInSubTree t.root [] ⟨id, salary, 0⟩ with
  | none =>
    rw [remove_of_not_contained t id salary (by simp [avlTree.isContain, hf])]
    exact h
  | some c =>
    obtain ⟨h1, _⟩ := remove_spec t id salary c hf
    obtain ⟨_, hroot, _⟩ := find_spec t.root [] _ c hf
    have hsplit : toList t.root = c.before ++ c.d.value :: c.after := by
      rw [← toList_root_split, hroot]; rfl
    unfold DistinctIds at h ⊢
    rw [h1]
    rw [hsplit] at h
    have hsub : (c.before ++ c.after).Sublist (c.before ++ c.d.value :: c.after) :=
      List.Sublist.append_left (List.sublist_cons_self _ _) _
    exact h.sublist hsub

theorem BuiltDistinct_Inv (t : avlTree) (h : BuiltDistinct t) : Inv t := by
  induction h with
  | empty => exact Inv_empty
  | insert t r _ hnew ih => exact insert_Inv t r ih hnew
  | remove t id salary _ ih =>
    exact ⟨remove_WellFormed t id salary ih.1, remove_BST t id salary ih.2.1,
      remove_Aug t id salary ih.2.2.1, remove_DistinctIds t id salary ih.2.2.2⟩

/-- On a strictly ascending sequence and for `lo ≤ hi`, the border computation yields
the number of records with salary in `[lo, hi]`. -/
theorem rangeCountL_eq (L : List tree_t) (lo hi : Int) (hs : L.Pairwise lt) (hle : lo ≤ hi) :
    rangeCountL L lo hi =
      ((L.countP (fun r => decide (lo ≤ r.salary ∧ r.salary ≤ hi)) : Nat) : Int) := by
  have hrange := count_range L lo hi hle
  unfold rangeCountL
  cases hl : leftBorderL L lo with
  | none =>
    have hnone := List.find?_eq_none.mp hl
    have : L.countP (fun r => decide (lo ≤ r.salary ∧ r.salary ≤ hi)) = 0 := by
      rw [List.countP_eq_zero]
      intro x hx
      have := hnone x hx
      simp only [decide_eq_true_eq] at this ⊢
      omega
    rw [this]; simp
  | some s =>
    cases hr : rightBorderL L hi with
    | none =>
      have hnone := List.find?_eq_none.mp hr
      have : L.countP (fun r => decide (lo ≤ r.salary ∧ r.salary ≤ hi)) = 0 := by
        rw [List.countP_eq_zero]
        intro x hx
        have := hnone x (List.mem_reverse.mpr hx)
        simp only [decide_eq_true_eq] at this ⊢
        omega
      rw [this]; rfl
    | some e =>
      have c1 := count_below_left L lo s hs hl
      have c2 := count_below_right L hi e hs hr
      show ((0 : Int) + 1 + (L.countP (fun x => decide (lt x e)) : Nat))
        - (0 + 1 + (L.countP (fun x => decide (lt x s)) : Nat)) + 1 = _
      omega

/-- C18, counterexample: the tree built from the empty tree by `insert (1, 10, 2147483647)`
and `insert (2, 20, 1)` is non-empty, its ids are distinct, `getMin()` and `getMax()` have
the salaries 10 and 20, the grades of its records sum to 2147483648, and
`getSumOfGradesFromStartToEnd(10, 20)` returns -2147483648. -/
theorem C18_counterexample :
    BuiltDistinct ((avlTree.empty.insert ⟨1, 10, 2147483647⟩).insert ⟨2, 20, 1⟩) ∧
    ((avlTree.empty.insert ⟨1, 10, 2147483647⟩).insert ⟨2, 20, 1⟩).root ≠ nil ∧
    ((avlTree.empty.insert ⟨1, 10, 2147483647⟩).insert ⟨2, 20, 1⟩).getMin
      = some ⟨1, 10, 2147483647⟩ ∧
    ((avlTree.empty.insert ⟨1, 10, 2147483647⟩).insert ⟨2, 20, 1⟩).getMax = some ⟨2, 20, 1⟩ ∧
    gradeSum (toList ((avlTree.empty.insert ⟨1, 10, 2147483647⟩).insert ⟨2, 20, 1⟩).root)
      = 2147483648 ∧
    ((avlTree.empty.insert ⟨1, 10, 2147483647⟩).insert
      ⟨2, 20, 1⟩).getSumOfGradesFromStartToEnd 10 20 = -2147483648 := by
  refine ⟨BuiltDistinct.insert _ ⟨2, 20, 1⟩
    (BuiltDistinct.insert _ ⟨1, 10, 2147483647⟩ BuiltDistinct.empty (by decide))
    (by rw [insert_of_fuel 1 avlTree.empty ⟨1, 10, 2147483647⟩
      (node nil ⟨⟨1, 10, 2147483647⟩, 0, 2147483647, 1⟩ nil) (by decide) (by decide)]; decide),
    ?_⟩
  rw [overflow_build]
  exact ⟨by decide, by decide, by decide, by decide, by decide⟩

/-- C18, amended. Full-range round trip: on every non-empty tree built from the empty tree
by inserting records whose id is not stored yet, and by removes,
`getSumOfNodesFromStartToEnd(getMin().salary, getMax().salary)` equals `getSize()` and
`getSumOfGradesFromStartToEnd(getMin().salary, getMax().salary)` equals the sum of the
grades of all stored records reduced modulo 2^32 into the range of `int`; it equals the
sum itself whenever that sum lies in the range of `int`. -/
theorem C18_full_range (t : avlTree) (h : BuiltDistinct t) (hne : t.root ≠ nil) :
    ∃ mn mx, t.getMin = some mn ∧ t.getMax = some mx ∧
      t.getSumOfNodesFromStartToEnd mn.salary mx.salary = t.getSize ∧
      t.getSumOfGradesFromStartToEnd mn.salary mx.salary
        = wrap32 (gradeSum (toList t.root)) ∧
      (-2147483648 ≤ gradeSum (toList t.root) → gradeSum (toList t.root) < 2147483648 →
        t.getSumOfGradesFromStartToEnd mn.salary mx.salary = gradeSum (toList t.root)) := by
  obtain ⟨hw, hb, ha, hd⟩ := BuiltDistinct_Inv t h
  obtain ⟨_, _, hc⟩ := cacheOK_of_wellFormed t hw hb
  obtain ⟨mn, mx, g1, g2, m1, m2, hall⟩ := hc hne
  have hs := (BST_iff_sorted t.root).mp hb
  have hin : ∀ x ∈ toList t.root, mn.salary ≤ x.salary ∧ x.salary ≤ mx.salary := by
    intro x hx
    obtain ⟨h1, h2⟩ := hall x hx
    constructor
    · rcases h1 with h1 | h1
      · rw [h1]
      · exact lt_salary_le h1
    · rcases h2 with h2 | h2
      · rw [h2]
      · exact lt_salary_le h2
  have hle : mn.salary ≤ mx.salary := (hin mn m1).2
  have hg : t.getSumOfGradesFromStartToEnd mn.salary mx.salary
      = wrap32 (gradeSum (toList t.root)) := by
    rw [getSumOfGrades_list t _ _ hb ha hd, rangeSumL_eq _ _ _ hs hle,
      filter_all _ _ (fun x hx => decide_eq_true (hin x hx))]
  refine ⟨mn, mx, g1, g2, ?_, hg, fun h1 h2 => hg.trans (wrap32_of_range _ h1 h2)⟩
  rw [getSumOfNodes_list t _ _ hb ha hd, rangeCountL_eq _ _ _ hs hle]
  have : (toList t.root).countP (fun r => decide (mn.salary ≤ r.salary ∧ r.salary ≤ mx.salary))
      = (toList t.root).length := by
    rw [List.countP_eq_length]
    intro x hx
    exact decide_eq_true (hin x hx)
  rw [this, avlTree.getSize, hw.1, numNodes_eq_length]

/-- Witness for the amended C18: on the tree of the scenario, built by its three inserts,
the count over the full range is 3 and the sum of grades is 15. -/
theorem C18_full_range_witness :
    ∃ mn mx, (((avlTree.empty.insert ⟨1, 10, 5⟩).insert ⟨2, 20, 3⟩).insert ⟨3, 15, 7⟩).getMin
        = some mn ∧
      (((avlTree.empty.insert ⟨1, 10, 5⟩).insert ⟨2, 20, 3⟩).insert ⟨3, 15, 7⟩).getMax
        = some mx ∧
      (((avlTree.empty.insert ⟨1, 10, 5⟩).insert ⟨2, 20, 3⟩).insert
        ⟨3, 15, 7⟩).getSumOfNodesFromStartToEnd mn.salary mx.salary = 3 ∧
      (((avlTree.empty.insert ⟨1, 10, 5⟩).insert ⟨2, 20, 3⟩).insert
        ⟨3, 15, 7⟩).getSumOfGradesFromStartToEnd mn.salary mx.salary = 15 := by
  obtain ⟨mn, mx, h1, h2, h3, _, h5⟩ := C18_full_range _
    (BuiltDistinct.insert _ ⟨3, 15, 7⟩
      (BuiltDistinct.insert _ ⟨2, 20, 3⟩
        (BuiltDistinct.insert _ ⟨1, 10, 5⟩ BuiltDistinct.empty (by decide))
        (by rw [insert_of_fuel 1 avlTree.empty ⟨1, 10, 5⟩ (node nil ⟨⟨1, 10, 5⟩, 0, 5, 1⟩ nil)
          (by decide) (by decide)]; decide))
      (by rw [insert_of_fuel 1 avlTree.empty ⟨1, 10, 5⟩ (node nil ⟨⟨1, 10, 5⟩, 0, 5, 1⟩ nil)
          (by decide) (by decide), insert_of_fuel 2 _ ⟨2, 20, 3⟩
          (node nil ⟨⟨1, 10, 5⟩, 1, 8, 2⟩ (node nil ⟨⟨2, 20, 3⟩, 0, 3, 1⟩ nil))
          (by decide) (by decide)]; decide))
    (by rw [scenario_build]; decide)
  refine ⟨mn, mx, h1, h2, ?_, ?_⟩
  · rw [h3, scenario_build]
    rfl
  · rw [h5 (by rw [scenario_build]; decide) (by rw [scenario_build]; decide), scenario_build]
    decide

/-! ## The empty tree -/

/-- Removing the only record of a well-formed tree object leaves the empty tree object. -/
theorem remove_last (t0 : avlTree) (id salary : Int) (hw : WellFormed t0)
    (hone : numNodes t0.root = 1) (hc : t0.isContain id salary = true) :
    t0.remove id salary = avlTree.empty := by
  have hw1 := remove_WellFormed t0 id salary hw
  cases hf : findNodeInSubTree t0.root [] ⟨id, salary, 0⟩ with
  | none => simp [avlTree.isContain, hf] at hc
  | some c =>
    obtain ⟨_, hsize⟩ := remove_spec t0 id salary c hf
    have hz : (t0.remove id salary).size = 0 := by rw [hsize, hw.1, hone]; rfl
    have hroot : (t0.remove id salary).root = nil := by
      rw [← numNodes_eq_zero]
      have := hw1.1
      omega
    have hmin : (t0.remove id salary).min = none := by rw [hw1.2.1, hroot]; rfl
    have hmax : (t0.remove id salary).max = none := by rw [hw1.2.2, hroot]; rfl
    cases hr : t0.remove id salary with
    | mk root size mx mn =>
      rw [hr] at hz hroot hmin hmax
      simp only at hz hroot hmin hmax
      subst hz hroot hmin hmax
      rfl

/-- C19. Empty-tree edge cases: on the tree object that is freshly constructed, or left
by `reset()`, or left by removing the only record of a well-formed tree object, for all
`lo`, `hi`, `id`, `salary` both range queries return 0, `isContain` returns false, `find`
throws `elementNotExsist`, and `begin()` equals `end()`, so the iteration yields no
record. -/
theorem C19_empty_tree (t : avlTree)
    (h : t = avlTree.empty ∨ (∃ t0 : avlTree, t = t0.reset) ∨
      (∃ (t0 : avlTree) (id salary : Int), WellFormed t0 ∧ numNodes t0.root = 1 ∧
        t0.isContain id salary = true ∧ t = t0.remove id salary))
    (lo hi id salary : Int) :
    t.getSumOfGradesFromStartToEnd lo hi = 0 ∧ t.getSumOfNodesFromStartToEnd lo hi = 0 ∧
    t.isContain id salary = false ∧
    t.find id salary = Except.error Error.elementNotExsist ∧
    iteratorEq t.begin t.endIt = true ∧ t.iterate = [] := by
  have he : t = avlTree.empty := by
    rcases h with h | ⟨t0, h⟩ | ⟨t0, i, s, hw, hone, hc, h⟩
    · exact h
    · rw [h]; rfl
    · rw [h]; exact remove_last t0 i s hw hone hc
  subst he
  exact ⟨rfl, rfl, rfl, rfl, rfl, rfl⟩

/-- Witness for C19: the tree left by removing the only record `(1,10,5)`. -/
theorem C19_empty_tree_witness :
    ((insertAll avlTree.empty [⟨1, 10, 5⟩]).remove 1 10).getSumOfNodesFromStartToEnd 0 100 = 0 ∧
    ((insertAll avlTree.empty [⟨1, 10, 5⟩]).remove 1 10).isContain 1 10 = false ∧
    ((insertAll avlTree.empty [⟨1, 10, 5⟩]).remove 1 10).iterate = [] :=
  have h := C19_empty_tree ((insertAll avlTree.empty [⟨1, 10, 5⟩]).remove 1 10)
    (Or.inr (Or.inr ⟨insertAll avlTree.empty [⟨1, 10, 5⟩], 1, 10,
      by rw [single_build]; decide, by rw [single_build]; decide,
      by rw [single_build]; decide, rfl⟩)) 0 100 1 10
  ⟨h.2.1, h.2.2.1, h.2.2.2.2.2⟩

/-! ## Rank descent -/

/-- Every node's count aggregate `w2` is one plus the `w2` of its children (0 for an
absent child). -/
def CountOK : node_ptr → Prop
  | nil => True
  | node l d r => CountOK l ∧ CountOK r ∧ d.w2 = 1 + l.w2Or + r.w2Or

instance CountOK.dec : (t : node_ptr) → Decidable (CountOK t)
  | nil => isTrue trivial
  | node l d r =>
    let _ := CountOK.dec l
    let _ := CountOK.dec r
    (inferInstance : Decidable (CountOK l ∧ CountOK r ∧ d.w2 = 1 + l.w2Or + r.w2Or))

theorem CountOK_w2 (t : node_ptr) (h : CountOK t) : t.w2Or = ((toList t).length : Int) := by
  induction t with
  | nil => rfl
  | node l d r ihl ihr =>
    obtain ⟨hl, hr, h2⟩ := h
    show d.w2 = ((toList l ++ d.value :: toList r).length : Int)
    rw [h2, ihl hl, ihr hr]
    simp
    ring

/-- The descent of `findIndexAux` on a tree with correct counts, with the node it returns
(`nil` is the null pointer): for a rank in `[1, n]` the node holding the record at that
position of the in-order sequence, otherwise null. -/
theorem findIndex_count (t : node_ptr) : ∀ (m sum : Int), CountOK t →
    (m - sum ≤ 0 ∨ ((toList t).length : Int) < m - sum → findIndexAux t m sum = nil) ∧
    (1 ≤ m - sum → m - sum ≤ (toList t).length →
      ∃ l d r, findIndexAux t m sum = node l d r ∧
        (toList t)[(m - sum - 1).toNat]? = some d.value) := by
  induction t with
  | nil =>
    intro m sum _
    refine ⟨fun _ => rfl, fun h1 h2 => ?_⟩
    simp only [toList, List.length_nil, Nat.cast_zero] at h2
    omega
  | node l d r ihl ihr =>
    intro m sum hc
    have hw : l.w2Or = ((toList l).length : Int) := CountOK_w2 l hc.1
    have hlen : ((toList (node l d r)).length : Int) = (toList l).length + 1 + (toList r).length := by
      simp [toList]; ring
    rw [findIndexAux, hw, hlen]
    by_cases h1 : ((toList l).length : Int) + 1 = m - sum
    · rw [if_pos h1]
      refine ⟨fun h => by omega, fun _ _ => ⟨l, d, r, rfl, ?_⟩⟩
      have : (m - sum - 1).toNat = (toList l).length := by omega
      rw [this]
      simp only [toList]
      rw [List.getElem?_append_right (Nat.le_refl _)]
      simp
    · rw [if_neg h1]
      by_cases h2 : ((toList l).length : Int) + 1 < m - sum
      · rw [if_pos h2]
        obtain ⟨i1, i2⟩ := ihr m (sum + (toList l).length + 1) hc.2.1
        refine ⟨fun h => i1 (by omega), fun g1 g2 => ?_⟩
        obtain ⟨a, b, c, e1, e2⟩ := i2 (by omega) (by omega)
        refine ⟨a, b, c, e1, ?_⟩
        have e : (m - sum - 1).toNat
            = (toList l).length + ((m - (sum + (toList l).length + 1) - 1).toNat + 1) := by
          omega
        rw [e]
        simp only [toList]
        rw [List.getElem?_append_right (by omega)]
        simpa using e2
      · rw [if_neg h2, if_pos (by omega)]
        obtain ⟨i1, i2⟩ := ihl m sum hc.1
        refine ⟨fun h => i1 (by omega), fun g1 g2 => ?_⟩
        obtain ⟨a, b, c, e1, e2⟩ := i2 g1 (by omega)
        refine ⟨a, b, c, e1, ?_⟩
        simp only [toList]
        rw [List.getElem?_append_left (by omega)]
        exact e2

theorem countP_lt_getElem (L : List tree_t) (hs : L.Pairwise lt) (i : Nat) (v : tree_t)
    (hv : L[i]? = some v) : L.countP (fun x => decide (lt x v)) = i := by
  have hlen : i < L.length := (List.getElem?_eq_some_iff.mp hv).1
  rw [List.countP_eq_length_filter, filter_lt_getElem L hs i v hv, List.length_take]
  omega

/-- C27. Rank descent: on a BST-ordered tree with correct count aggregates `w2` and `n`
nodes, `findIndexAux(root, k, 0)` returns for every `1 ≤ k ≤ n` the node holding the
`k`-th record of the ascending in-order sequence, which has exactly `k - 1` stored
records below it, and returns the null pointer for every `k ≤ 0` and every `k > n`.  The
function is defined by recursion on the tree, so it returns on every tree. -/
theorem C27_rank_descent (t : node_ptr) (hbst : BST t) (hcount : CountOK t) (k : Int) :
    (1 ≤ k → k ≤ numNodes t →
      ∃ l d r, findIndexAux t k 0 = node l d r ∧
        (toList t)[(k - 1).toNat]? = some d.value ∧
        ((toList t).countP (fun x => decide (lt x d.value)) : Int) = k - 1) ∧
    (k ≤ 0 ∨ (numNodes t : Int) < k → findIndexAux t k 0 = nil) ∧
    (toList t).Pairwise lt := by
  obtain ⟨h1, h2⟩ := findIndex_count t k 0 hcount
  have hs := (BST_iff_sorted t).mp hbst
  rw [numNodes_eq_length]
  simp only [sub_zero] at h1 h2
  refine ⟨fun g1 g2 => ?_, h1, hs⟩
  obtain ⟨l, d, r, e1, e2⟩ := h2 g1 g2
  refine ⟨l, d, r, e1, e2, ?_⟩
  rw [countP_lt_getElem _ hs _ _ e2]
  omega

/-- Witness for C27: the second record of the tree of the scenario is `(3, 15, 7)`. -/
theorem C27_rank_descent_witness :
    ∃ l d r, findIndexAux scenarioRoot 2 0 = node l d r ∧
      (toList scenarioRoot)[(2 - 1 : Int).toNat]? = some d.value ∧
      ((toList scenarioRoot).countP (fun x => decide (lt x d.value)) : Int) = 2 - 1 :=
  (C27_rank_descent scenarioRoot (by decide) (by decide) 2).1 (by decide) (by decide)

/-! ## Single rotations -/

/-- The cached fields of a node are the values `updateheight`, `updateW1` and `updateW2`
compute from the cached fields of its children. -/
def Recomputed (l : node_ptr) (d : node_) (r : node_ptr) : Prop :=
  (d.height : Int) = max l.heightOr r.heightOr + 1 ∧
  d.w1 = wrap32 (wrap32 (d.value.grade + l.w1Or) + r.w1Or) ∧ d.w2 = 1 + l.w2Or + r.w2Or

theorem Recomputed_refresh (l r : node_ptr) (d : node_) :
    Recomputed l (refresh l d r) r ∧ (refresh l d r).value = d.value :=
  ⟨⟨refresh_height_cast l r d, rfl, rfl⟩, rfl⟩

theorem HeightsCorrect_node (l r : node_ptr) (d : node_) (hl : HeightsCorrect l)
    (hr : HeightsCorrect r) (h : Recomputed l d r) : HeightsCorrect (node l d r) := by
  refine ⟨hl, hr, ?_⟩
  rw [h.1, HeightsCorrect_heightOr l hl, HeightsCorrect_heightOr r hr]
  rfl

/-- C28. A single rotation keeps the order and re-establishes the cached fields.  For a
node `x` with fields `d2`, right subtree `c` and left child `l` (fields `d1`, subtrees
`a` and `b`), below the ancestors `k`: after `rotationLL(x)` the node `x` has the
subtrees `b` and `c` and is the right child of `l`, whose left subtree is `a` and whose
ancestors are `k`; the records of `x` and `l` are unchanged, the height, w1 and w2 of `x`
and then of `l` are the values recomputed from their new children; the in-order sequence
of the whole tree is unchanged; and when `a`, `b`, `c` have correct cached heights and
aggregates, so has the rotated subtree.  Symmetrically for `rotationRR`. -/
theorem C28_single_rotation (a b c : node_ptr) (d1 d2 : node_) (k : List Frame)
    (hh : HeightsCorrect a ∧ HeightsCorrect b ∧ HeightsCorrect c)
    (ha : Aug a ∧ Aug b ∧ Aug c) :
    (∃ l1 x1 : node_,
      rotationLL ⟨node a d1 b, d2, c, k⟩ = ⟨b, x1, c, Frame.inRight a l1 :: k⟩ ∧
      (rotationLL ⟨node a d1 b, d2, c, k⟩).parent = some ⟨a, l1, node b x1 c, k⟩ ∧
      x1.value = d2.value ∧ l1.value = d1.value ∧
      Recomputed b x1 c ∧ Recomputed a l1 (node b x1 c) ∧
      toList (rotationLL ⟨node a d1 b, d2, c, k⟩).root
        = toList (Loc.root ⟨node a d1 b, d2, c, k⟩) ∧
      HeightsCorrect (node a l1 (node b x1 c)) ∧ Aug (node a l1 (node b x1 c))) ∧
    (∃ x1 r1 : node_,
      rotationRR ⟨a, d1, node b d2 c, k⟩ = ⟨a, x1, b, Frame.inLeft r1 c :: k⟩ ∧
      (rotationRR ⟨a, d1, node b d2 c, k⟩).parent = some ⟨node a x1 b, r1, c, k⟩ ∧
      x1.value = d1.value ∧ r1.value = d2.value ∧
      Recomputed a x1 b ∧ Recomputed (node a x1 b) r1 c ∧
      toList (rotationRR ⟨a, d1, node b d2 c, k⟩).root
        = toList (Loc.root ⟨a, d1, node b d2 c, k⟩) ∧
      HeightsCorrect (node (node a x1 b) r1 c) ∧ Aug (node (node a x1 b) r1 c)) := by
  obtain ⟨h1, h2, h3⟩ := hh
  obtain ⟨a1, a2, a3⟩ := ha
  constructor
  · have rx := Recomputed_refresh b c d2
    have rl := Recomputed_refresh a (node b (refresh b d2 c) c) d1
    refine ⟨refresh a d1 (node b (refresh b d2 c) c), refresh b d2 c, rfl, rfl, rx.2, rl.2,
      rx.1, rl.1, toList_rotationLL _, ?_, ?_⟩
    · exact HeightsCorrect_node _ _ _ h1 (HeightsCorrect_node _ _ _ h2 h3 rx.1) rl.1
    · exact Aug_refresh _ _ _ a1 (Aug_refresh _ _ _ a2 a3)
  · have rx := Recomputed_refresh a b d1
    have rr := Recomputed_refresh (node a (refresh a d1 b) b) c d2
    refine ⟨refresh a d1 b, refresh (node a (refresh a d1 b) b) d2 c, rfl, rfl, rx.2, rr.2,
      rx.1, rr.1, toList_rotationRR _, ?_, ?_⟩
    · exact HeightsCorrect_node _ _ _ (HeightsCorrect_node _ _ _ h1 h2 rx.1) h3 rr.1
    · exact Aug_refresh _ _ _ (Aug_refresh _ _ _ a1 a2) a3

/-- Witness for C28: the rotations at the root of a three-node chain. -/
theorem C28_single_rotation_witness :
    toList (rotationLL ⟨node (node nil ⟨⟨1, 10, 5⟩, 0, 5, 1⟩ nil) ⟨⟨2, 20, 3⟩, 1, 8, 2⟩ nil,
        ⟨⟨3, 30, 1⟩, 2, 9, 3⟩, nil, []⟩).root
      = [⟨1, 10, 5⟩, ⟨2, 20, 3⟩, ⟨3, 30, 1⟩] := by
  obtain ⟨_, _, _, _, _, _, _, _, h, _⟩ :=
    (C28_single_rotation (node nil ⟨⟨1, 10, 5⟩, 0, 5, 1⟩ nil) nil nil ⟨⟨2, 20, 3⟩, 1, 8, 2⟩
      ⟨⟨3, 30, 1⟩, 2, 9, 3⟩ [] (by decide) (by decide)).1
  rw [h]
  decide

/-! ## Lookup with another salary -/

/-- C23, counterexample: in the tree holding only `(id = 1, salary = 10)` the lookup key
`(1, 99)` stops at the root, whose id is 1: `isContain(1, 99)` is true and `find(1, 99)`
returns the stored record. -/
theorem C23_counterexample :
    BST (insertAll avlTree.empty [⟨1, 10, 0⟩]).root ∧
    toList (insertAll avlTree.empty [⟨1, 10, 0⟩]).root = [⟨1, 10, 0⟩] ∧
    (insertAll avlTree.empty [⟨1, 10, 0⟩]).isContain 1 99 = true ∧
    (insertAll avlTree.empty [⟨1, 10, 0⟩]).find 1 99 = Except.ok ⟨1, 10, 0⟩ := by
  rw [single_build]
  exact ⟨by decide, by decide, by decide, rfl⟩

theorem find_result (t : avlTree) (id salary : Int) :
    (t.isContain id salary = false ∧ t.find id salary = Except.error Error.elementNotExsist) ∨
    (∃ c, findNodeInSubTree t.root [] ⟨id, salary, 0⟩ = some c ∧
      t.isContain id salary = true ∧ t.find id salary = Except.ok c.d.value) := by
  cases hf : findNodeInSubTree t.root [] ⟨id, salary, 0⟩ with
  | none => exact Or.inl (by simp [avlTree.isContain, avlTree.find, hf])
  | some c => exact Or.inr ⟨c, rfl, by simp [avlTree.isContain, avlTree.find, hf]⟩

theorem eq_of_id (L : List tree_t) (hd : L.Pairwise (fun a b => a.id ≠ b.id)) (x y : tree_t)
    (hx : x ∈ L) (hy : y ∈ L) (h : x.id = y.id) : x = y := by
  induction L with
  | nil => simp at hx
  | cons a L ih =>
    obtain ⟨h1, h2⟩ := List.pairwise_cons.mp hd
    rcases List.mem_cons.mp hx with hx | hx
    · rcases List.mem_cons.mp hy with hy | hy
      · rw [hx, hy]
      · rw [hx] at h; exact absurd h (h1 y hy)
    · rcases List.mem_cons.mp hy with hy | hy
      · rw [hy] at h; exact absurd h.symm (h1 x hx)
      · exact ih h2 hx hy

/-- C23, amended: in a tree with pairwise distinct ids that stores the record `r`, a
lookup with the id of `r` and any salary `s1`, in particular one that differs from the
salary of `r`, either finds nothing (`isContain` is false, `find` throws
`elementNotExsist`) or finds exactly `r`; it finds `r` when `r` is at the root, and it
finds nothing when `r` is in the left subtree of the root while the key is not smaller
than the root's record, or `r` is in the right subtree while the key is smaller than the
root's record. -/
theorem C23_wrong_salary_lookup (t : avlTree) (r : tree_t) (s1 : Int)
    (hids : DistinctIds t.root) (hr : r ∈ toList t.root) :
    ((t.isContain r.id s1 = false ∧ t.find r.id s1 = Except.error Error.elementNotExsist) ∨
      (t.isContain r.id s1 = true ∧ t.find r.id s1 = Except.ok r)) ∧
    (∀ l d rt, t.root = node l d rt → d.value = r →
      t.isContain r.id s1 = true ∧ t.find r.id s1 = Except.ok r) ∧
    (∀ l d rt, t.root = node l d rt →
      (r ∈ toList l ∧ ¬ lt ⟨r.id, s1, 0⟩ d.value) ∨ (r ∈ toList rt ∧ lt ⟨r.id, s1, 0⟩ d.value) →
      t.isContain r.id s1 = false ∧ t.find r.id s1 = Except.error Error.elementNotExsist) := by
  refine ⟨?_, ?_, ?_⟩
  · rcases find_result t r.id s1 with h | ⟨c, hf, h1, h2⟩
    · exact Or.inl h
    · obtain ⟨e1, _, e3⟩ := find_spec t.root [] _ c hf
      have : c.d.value = r := eq_of_id _ hids _ _ e3 hr e1
      rw [this] at h2
      exact Or.inr ⟨h1, h2⟩
  · intro l d rt hroot hd
    have hf : findNodeInSubTree t.root [] ⟨r.id, s1, 0⟩ = some ⟨l, d, rt, []⟩ := by
      rw [hroot, findNodeInSubTree, if_pos (by rw [hd]; simp [opEq])]
    simp [avlTree.isContain, avlTree.find, hf, hd]
  · intro l d rt hroot hside
    rw [hroot] at hids hr
    obtain ⟨hdl, hdr, hidl, hidr⟩ := DistinctIds_node l rt d hids
    unfold DistinctIds at hids
    simp only [toList] at hids
    have hf : findNodeInSubTree t.root [] ⟨r.id, s1, 0⟩ = none := by
      rw [hroot, findNodeInSubTree]
      rcases hside with ⟨hm, hlt⟩ | ⟨hm, hlt⟩
      · have hne : ¬ (opEq d.value ⟨r.id, s1, 0⟩ = true) := by
          rw [opEq_iff]; exact fun h => hidl r hm h.symm
        have hgt : ¬ (opGt d.value ⟨r.id, s1, 0⟩ = true) := by
          rw [opGt_iff]; exact hlt
        rw [if_neg hne, if_neg hgt]
        apply find_none_of_no_id
        intro x hx hid
        have hcross := (List.pairwise_append.mp hids).2.2 r hm x (List.mem_cons_of_mem _ hx)
        exact hcross hid.symm
      · have hne : ¬ (opEq d.value ⟨r.id, s1, 0⟩ = true) := by
          rw [opEq_iff]; exact fun h => hidr r hm h
        have hgt : opGt d.value ⟨r.id, s1, 0⟩ = true := by
          rw [opGt_iff]; exact hlt
        rw [if_neg hne, if_pos hgt]
        apply find_none_of_no_id
        intro x hx hid
        have hcross := (List.pairwise_append.mp hids).2.2 x hx r (List.mem_cons_of_mem _ hm)
        exact hcross hid
    simp [avlTree.isContain, avlTree.find, hf]

/-- Witness for the amended C23: in the tree of the scenario the record `(1, 10, 5)` is in
the left subtree of the root `(3, 15)`, and the key `(1, 99)` descends to the right. -/
theorem C23_wrong_salary_lookup_witness :
    scenarioTree.isContain 1 99 = false ∧
    scenarioTree.find 1 99 = Except.error Error.elementNotExsist :=
  (C23_wrong_salary_lookup scenarioTree ⟨1, 10, 5⟩ 99 (by decide)
    (by decide)).2.2 _ _ _ rfl (Or.inl ⟨by decide, by decide⟩)

/-! ## Inverted ranges -/

/-- C26: on the tree of the scenario (salaries 10, 15, 20, grades 5, 7, 3) the inverted
range `lo = 18`, `hi = 12` has the left border `(2, 20)` and the right border `(1, 10)`;
`getSumOfNodesFromStartToEnd(18, 12)` returns -1 and
`getSumOfGradesFromStartToEnd(18, 12)` returns -7, although no record has
`18 ≤ salary ≤ 12`. -/
theorem C26_inverted_range :
    BST scenarioTree.root ∧ Aug scenarioTree.root ∧ DistinctIds scenarioTree.root ∧
    ((avlTree.empty.insert ⟨1, 10, 5⟩).insert ⟨2, 20, 3⟩).insert ⟨3, 15, 7⟩ = scenarioTree ∧
    valueOf (findLeftBorderInSubTree scenarioTree.root 18) = some ⟨2, 20, 3⟩ ∧
    valueOf (findRightBorderInSubTree scenarioTree.root 12) = some ⟨1, 10, 5⟩ ∧
    scenarioTree.getSumOfNodesFromStartToEnd 18 12 = -1 ∧
    scenarioTree.getSumOfGradesFromStartToEnd 18 12 = -7 ∧
    (toList scenarioTree.root).filter (fun r => decide (18 ≤ r.salary ∧ r.salary ≤ 12)) = [] :=
  ⟨by decide, by decide, by decide, scenario_build, by decide, by decide, by decide, by decide,
    by decide⟩

/-! ## Cached heights after `extend` -/

/-- The root after `insert (1,10,0)`, `insert (2,20,0)`. -/
def builtRootA2 : node_ptr :=
  node nil ⟨⟨1, 10, 0⟩, 1, 0, 2⟩ (node nil ⟨⟨2, 20, 0⟩, 0, 0, 1⟩ nil)

/-- The root after `insert (3,30,0)`, `insert (4,40,0)`. -/
def builtRootB2 : node_ptr :=
  node nil ⟨⟨3, 30, 0⟩, 1, 0, 2⟩ (node nil ⟨⟨4, 40, 0⟩, 0, 0, 1⟩ nil)

/-- The root left by `extend` on these two trees: the node `(4,40)` is a leaf with cached
height 1. -/
def mergedRoot4 : node_ptr :=
  node (node (node nil ⟨⟨1, 10, 0⟩, 0, 0, 1⟩ nil) ⟨⟨2, 20, 0⟩, 1, 0, 2⟩ nil)
    ⟨⟨3, 30, 0⟩, 2, 0, 4⟩ (node nil ⟨⟨4, 40, 0⟩, 1, 0, 1⟩ nil)

theorem built_A2 :
    insertAll avlTree.empty [⟨1, 10, 0⟩, ⟨2, 20, 0⟩]
      = ⟨builtRootA2, 2, maxOfRoot builtRootA2, minOfRoot builtRootA2⟩ :=
  insertAllFuel_eq 2 _ _ _ (by decide)

theorem built_B2 :
    insertAll avlTree.empty [⟨3, 30, 0⟩, ⟨4, 40, 0⟩]
      = ⟨builtRootB2, 2, maxOfRoot builtRootB2, minOfRoot builtRootB2⟩ :=
  insertAllFuel_eq 2 _ _ _ (by decide)

theorem merged_build4 :
    (insertAll avlTree.empty [⟨1, 10, 0⟩, ⟨2, 20, 0⟩]).extend
        (insertAll avlTree.empty [⟨3, 30, 0⟩, ⟨4, 40, 0⟩])
      = Except.ok ⟨mergedRoot4, 4, maxOfRoot mergedRoot4, minOfRoot mergedRoot4⟩ := by
  rw [built_A2, built_B2]
  exact extend_eval _ _ [⟨1, 10, 0⟩, ⟨2, 20, 0⟩] [⟨3, 30, 0⟩, ⟨4, 40, 0⟩]
    [⟨1, 10, 0⟩, ⟨2, 20, 0⟩, ⟨3, 30, 0⟩, ⟨4, 40, 0⟩] [] mergedRoot4
    (by decide) (by decide) rfl rfl (by simp [mergeArrays, opGt]) rfl

/-- C24: `A` is built by inserting `(1,10,0)`, `(2,20,0)` and `B` by inserting `(3,30,0)`,
`(4,40,0)`; the two share no key.  After `A.extend(B)` the tree has the root `(3,30)`
with cached height 2, the left child `(2,20)` with the leaf `(1,10)` below it, and the
right child `(4,40)`, which is a leaf with cached height 1: the cached heights are not
the heights of the subtrees. -/
theorem C24_stale_height :
    IsIntersectionEmpty (insertAll avlTree.empty [⟨1, 10, 0⟩, ⟨2, 20, 0⟩])
      (insertAll avlTree.empty [⟨3, 30, 0⟩, ⟨4, 40, 0⟩]) = true ∧
    ∃ M, (insertAll avlTree.empty [⟨1, 10, 0⟩, ⟨2, 20, 0⟩]).extend
        (insertAll avlTree.empty [⟨3, 30, 0⟩, ⟨4, 40, 0⟩]) = Except.ok M ∧
      M.root = node (node (node nil ⟨⟨1, 10, 0⟩, 0, 0, 1⟩ nil) ⟨⟨2, 20, 0⟩, 1, 0, 2⟩ nil)
        ⟨⟨3, 30, 0⟩, 2, 0, 4⟩ (node nil ⟨⟨4, 40, 0⟩, 1, 0, 1⟩ nil) ∧
      ¬ HeightsCorrect M.root := by
  refine ⟨?_, _, merged_build4, rfl, by decide⟩
  rw [built_A2, built_B2]
  decide

/-! ## Insertion after `extend` -/

/-- The root after `insert` of `(1,10,0)`, `(2,20,0)`, `(3,30,0)`, `(4,40,0)`. -/
def builtRootA4 : node_ptr :=
  node (node nil ⟨⟨1, 10, 0⟩, 0, 0, 1⟩ nil) ⟨⟨2, 20, 0⟩, 2, 0, 4⟩
    (node nil ⟨⟨3, 30, 0⟩, 1, 0, 2⟩ (node nil ⟨⟨4, 40, 0⟩, 0, 0, 1⟩ nil))

/-- The root after `insert` of `(5,50,0)`, `(6,60,0)`, `(7,70,0)`, `(8,80,0)`. -/
def builtRootB4 : node_ptr :=
  node (node nil ⟨⟨5, 50, 0⟩, 0, 0, 1⟩ nil) ⟨⟨6, 60, 0⟩, 2, 0, 4⟩
    (node nil ⟨⟨7, 70, 0⟩, 1, 0, 2⟩ (node nil ⟨⟨8, 80, 0⟩, 0, 0, 1⟩ nil))

/-- The root left by `extend` on these two trees; `(4,40)`, `(6,60)` and `(8,80)` are
leaves with cached height 1, and `(7,70)` has cached height 2 over two leaves. -/
def mergedRoot8 : node_ptr :=
  node
    (node (node (node nil ⟨⟨1, 10, 0⟩, 0, 0, 1⟩ nil) ⟨⟨2, 20, 0⟩, 1, 0, 2⟩ nil)
      ⟨⟨3, 30, 0⟩, 2, 0, 4⟩ (node nil ⟨⟨4, 40, 0⟩, 1, 0, 1⟩ nil))
    ⟨⟨5, 50, 0⟩, 3, 0, 8⟩
    (node (node nil ⟨⟨6, 60, 0⟩, 1, 0, 1⟩ nil) ⟨⟨7, 70, 0⟩, 2, 0, 3⟩
      (node nil ⟨⟨8, 80, 0⟩, 1, 0, 1⟩ nil))

/-- The root after the further inserts `(9,35,0)`, `(10,25,0)`, `(11,5,0)`: the left
subtree of the root has height 3 and the right subtree has height 1. -/
def afterRoot11 : node_ptr :=
  node
    (node
      (node (node (node nil ⟨⟨11, 5, 0⟩, 0, 0, 1⟩ nil) ⟨⟨1, 10, 0⟩, 1, 0, 2⟩ nil)
        ⟨⟨2, 20, 0⟩, 2, 0, 4⟩ (node nil ⟨⟨10, 25, 0⟩, 0, 0, 1⟩ nil))
      ⟨⟨3, 30, 0⟩, 3, 0, 7⟩
      (node (node nil ⟨⟨9, 35, 0⟩, 0, 0, 1⟩ nil) ⟨⟨4, 40, 0⟩, 1, 0, 2⟩ nil))
    ⟨⟨5, 50, 0⟩, 4, 0, 11⟩
    (node (node nil ⟨⟨6, 60, 0⟩, 1, 0, 1⟩ nil) ⟨⟨7, 70, 0⟩, 2, 0, 3⟩
      (node nil ⟨⟨8, 80, 0⟩, 1, 0, 1⟩ nil))

theorem built_A4 :
    insertAll avlTree.empty [⟨1, 10, 0⟩, ⟨2, 20, 0⟩, ⟨3, 30, 0⟩, ⟨4, 40, 0⟩]
      = ⟨builtRootA4, 4, maxOfRoot builtRootA4, minOfRoot builtRootA4⟩ :=
  insertAllFuel_eq 4 _ _ _ (by decide)

theorem built_B4 :
    insertAll avlTree.empty [⟨5, 50, 0⟩, ⟨6, 60, 0⟩, ⟨7, 70, 0⟩, ⟨8, 80, 0⟩]
      = ⟨builtRootB4, 4, maxOfRoot builtRootB4, minOfRoot builtRootB4⟩ :=
  insertAllFuel_eq 4 _ _ _ (by decide)

theorem merged_build8 :
    (insertAll avlTree.empty [⟨1, 10, 0⟩, ⟨2, 20, 0⟩, ⟨3, 30, 0⟩, ⟨4, 40, 0⟩]).extend
        (insertAll avlTree.empty [⟨5, 50, 0⟩, ⟨6, 60, 0⟩, ⟨7, 70, 0⟩, ⟨8, 80, 0⟩])
      = Except.ok ⟨mergedRoot8, 8, maxOfRoot mergedRoot8, minOfRoot mergedRoot8⟩ := by
  rw [built_A4, built_B4]
  exact extend_eval _ _ [⟨1, 10, 0⟩, ⟨2, 20, 0⟩, ⟨3, 30, 0⟩, ⟨4, 40, 0⟩]
    [⟨5, 50, 0⟩, ⟨6, 60, 0⟩, ⟨7, 70, 0⟩, ⟨8, 80, 0⟩]
    [⟨1, 10, 0⟩, ⟨2, 20, 0⟩, ⟨3, 30, 0⟩, ⟨4, 40, 0⟩, ⟨5, 50, 0⟩, ⟨6, 60, 0⟩, ⟨7, 70, 0⟩,
      ⟨8, 80, 0⟩] [] mergedRoot8
    (by decide) (by decide) rfl rfl (by simp [mergeArrays, opGt]) rfl

theorem after_build11 :
    insertAll ⟨mergedRoot8, 8, maxOfRoot mergedRoot8, minOfRoot mergedRoot8⟩
        [⟨9, 35, 0⟩, ⟨10, 25, 0⟩, ⟨11, 5, 0⟩]
      = ⟨afterRoot11, 11, maxOfRoot afterRoot11, minOfRoot afterRoot11⟩ :=
  insertAllFuel_eq 6 _ _ _ (by decide)

/-- C25: `A` is built by inserting the salaries 10, 20, 30, 40 and `B` by inserting 50,
60, 70, 80, with id = salary / 10; the two share no key.  The tree left by `A.extend(B)`
is balanced, but after the further inserts `(9,35,0)`, `(10,25,0)`, `(11,5,0)` the left
subtree of the root has true height 3 and the right subtree true height 1: the cached
height 2 of `(7,70)`, which stands over two leaves, hides the imbalance from
`checkBfAndRotate`. -/
theorem C25_unbalanced_after_merge :
    IsIntersectionEmpty (insertAll avlTree.empty [⟨1, 10, 0⟩, ⟨2, 20, 0⟩, ⟨3, 30, 0⟩, ⟨4, 40, 0⟩])
      (insertAll avlTree.empty [⟨5, 50, 0⟩, ⟨6, 60, 0⟩, ⟨7, 70, 0⟩, ⟨8, 80, 0⟩]) = true ∧
    ∃ M, (insertAll avlTree.empty [⟨1, 10, 0⟩, ⟨2, 20, 0⟩, ⟨3, 30, 0⟩, ⟨4, 40, 0⟩]).extend
        (insertAll avlTree.empty [⟨5, 50, 0⟩, ⟨6, 60, 0⟩, ⟨7, 70, 0⟩, ⟨8, 80, 0⟩])
        = Except.ok M ∧
      Balanced M.root ∧
      (∀ x ∈ toList M.root, x.id ≠ 9 ∧ x.id ≠ 10 ∧ x.id ≠ 11) ∧
      ¬ Balanced (insertAll M [⟨9, 35, 0⟩, ⟨10, 25, 0⟩, ⟨11, 5, 0⟩]).root ∧
      (∃ l d r, (insertAll M [⟨9, 35, 0⟩, ⟨10, 25, 0⟩, ⟨11, 5, 0⟩]).root = node l d r ∧
        realHeight l = 3 ∧ realHeight r = 1) := by
  refine ⟨?_, _, merged_build8, by decide, by decide, ?_, ?_⟩
  · rw [built_A4, built_B4]
    decide
  · rw [after_build11]
    decide
  · rw [after_build11]
    exact ⟨_, _, _, rfl, by decide, by decide⟩

/-! ## The array merge with its index arithmetic -/

theorem read_ok (arr : List tree_t) (i : Nat) (h : i < arr.length) :
    myArray_.read arr i = Except.ok (arr[i]) := by
  simp [myArray_.read, List.getElem?_eq_getElem h]

theorem write_ok (m : List tree_t) (i : Nat) (v : tree_t) (h : i < m.length) :
    myArray_.write m i v = Except.ok (m.set i v) := by
  simp [myArray_.write, h]

theorem take_set_succ (m : List tree_t) (k : Nat) (v : tree_t) (h : k < m.length) :
    (m.set k v).take (k + 1) = m.take k ++ [v] := by
  induction m generalizing k with
  | nil => simp at h
  | cons a m ih =>
    cases k with
    | zero => simp
    | succ k =>
      simp only [List.length_cons, Nat.add_lt_add_iff_right] at h
      simp [List.set_cons_succ, List.take_succ_cons, ih k h]

/-- The copying loop writes the rest of `arr` behind what is already in place. -/
theorem mergeRest_spec (arr : List tree_t) (j : Nat) : ∀ (fuel i : Nat) (m : List tree_t),
    i ≤ arr.length → j + arr.length ≤ m.length → arr.length - i ≤ fuel →
    ∃ m1, myArray_.mergeRest arr fuel j i m = Except.ok (arr.length, m1) ∧
      m1.length = m.length ∧ m1.take (j + arr.length) = m.take (j + i) ++ arr.drop i := by
  intro fuel
  induction fuel with
  | zero =>
    intro i m h1 _ h3
    have : i = arr.length := by omega
    subst this
    exact ⟨m, rfl, rfl, by simp⟩
  | succ fuel ih =>
    intro i m h1 h2 h3
    rw [myArray_.mergeRest]
    by_cases hi : i < arr.length
    · rw [if_pos hi, read_ok arr i hi]
      simp only []
      rw [write_ok m (j + i) _ (by omega)]
      simp only []
      obtain ⟨m1, e1, e2, e3⟩ := ih (i + 1) (m.set (j + i) arr[i]) (by omega)
        (by simp; omega) (by omega)
      refine ⟨m1, e1, by simpa using e2, ?_⟩
      rw [e3, ← Nat.add_assoc, take_set_succ m (j + i) _ (by omega),
        List.drop_eq_getElem_cons hi]
      simp
    · rw [if_neg hi]
      have : i = arr.length := by omega
      subst this
      exact ⟨m, rfl, rfl, by simp⟩

/-- The first loop keeps the written prefix followed by the merge of the unread parts
equal to the merge of the two arrays, and stops when one array is used up. -/
theorem mergeBoth_spec (a b : List tree_t) : ∀ (fuel ia ib : Nat) (m : List tree_t),
    m.length = a.length + b.length → ia ≤ a.length → ib ≤ b.length →
    m.take (ia + ib) ++ mergeArrays (a.drop ia) (b.drop ib) = mergeArrays a b →
    (a.length - ia) + (b.length - ib) ≤ fuel →
    ∃ ia1 ib1 m1, myArray_.mergeBoth a b fuel ia ib m = Except.ok (ia1, ib1, m1) ∧
      m1.length = a.length + b.length ∧ ia1 ≤ a.length ∧ ib1 ≤ b.length ∧
      m1.take (ia1 + ib1) ++ mergeArrays (a.drop ia1) (b.drop ib1) = mergeArrays a b ∧
      (ia1 = a.length ∨ ib1 = b.length) := by
  intro fuel
  induction fuel with
  | zero =>
    intro ia ib m h1 h2 h3 h4 h5
    exact ⟨ia, ib, m, rfl, h1, h2, h3, h4, Or.inl (by omega)⟩
  | succ fuel ih =>
    intro ia ib m h1 h2 h3 h4 h5
    rw [myArray_.mergeBoth]
    by_cases hc : ia < a.length ∧ ib < b.length
    · obtain ⟨ha, hb⟩ := hc
      rw [if_pos ⟨ha, hb⟩, read_ok b ib hb, read_ok a ia ha]
      simp only []
      have hda := List.drop_eq_getElem_cons ha
      have hdb := List.drop_eq_getElem_cons hb
      by_cases hgt : opGt b[ib] a[ia] = true
      · rw [if_pos hgt, write_ok m (ia + ib) _ (by omega)]
        simp only []
        apply ih (ia + 1) ib _ (by simpa using h1) (by omega) h3 _ (by omega)
        have e : ia + 1 + ib = ia + ib + 1 := by omega
        rw [e, take_set_succ m (ia + ib) _ (by omega), ← h4, hda, hdb, mergeArrays, if_pos hgt,
          ← hdb]
        simp
      · rw [if_neg hgt, write_ok m (ia + ib) _ (by omega)]
        simp only []
        apply ih ia (ib + 1) _ (by simpa using h1) h2 (by omega) _ (by omega)
        have e : ia + (ib + 1) = ia + ib + 1 := by omega
        rw [e, take_set_succ m (ia + ib) _ (by omega), ← h4, hda, hdb, mergeArrays, if_neg hgt,
          ← hda]
        simp
    · rw [if_neg hc]
      exact ⟨ia, ib, m, rfl, h1, h2, h3, h4, by omega⟩

/-- The loops of `myArray_::mergeArrays` make no out-of-range access and compute the
two-pointer merge. -/
theorem mergeArrays_loops (a b : List tree_t) :
    myArray_.mergeArrays a b = Except.ok (mergeArrays a b) := by
  unfold myArray_.mergeArrays
  obtain ⟨ia, ib, m1, e1, l1, ha, hb, inv, hexit⟩ := mergeBoth_spec a b (a.length + b.length) 0 0
    (List.replicate (a.length + b.length) ⟨0, 0, 0⟩) (by simp) (Nat.zero_le _) (Nat.zero_le _)
    (by simp) (by omega)
  simp only [e1]
  obtain ⟨m2, e2, l2, t2⟩ := mergeRest_spec b ia b.length ib m1 hb (by omega) (by omega)
  simp only [e2]
  obtain ⟨m3, e3, l3, t3⟩ := mergeRest_spec a b.length a.length ia m2 ha (by omega) (by omega)
  simp only [e3]
  congr 1
  have hfull : m3 = m3.take (b.length + a.length) := by
    rw [List.take_of_length_le]; omega
  rw [hfull, t3, Nat.add_comm b.length ia, t2, ← inv]
  rcases hexit with h | h
  · subst h
    simp [mergeArrays]
  · subst h
    simp [mergeArrays_nil_right]

/-- The order tested by `isSorted`: the second record is not smaller than the first. -/
def le (x y : tree_t) : Prop := ¬ lt y x

instance (x y : tree_t) : Decidable (le x y) := by unfold le; infer_instance

theorem le_trans {x y z : tree_t} (h1 : le x y) (h2 : le y z) : le x z := by
  unfold le at *
  rw [lt_iff] at *
  omega

theorem le_of_lt {x y : tree_t} (h : lt x y) : le x y := lt_asymm h

theorem isSorted_iff (L : List tree_t) : isSorted L = true ↔ L.Pairwise le := by
  induction L with
  | nil => simp [isSorted]
  | cons a L ih =>
    cases L with
    | nil => simp [isSorted]
    | cons b rest =>
      rw [isSorted, List.pairwise_cons]
      by_cases hgt : opGt a b = true
      · rw [if_pos hgt]
        have hlt : lt b a := (opGt_iff a b).mp hgt
        constructor
        · intro h; cases h
        · intro h
          exact absurd hlt (h.1 b (List.mem_cons_self _ _))
      · rw [if_neg hgt, ih]
        have hab : le a b := fun h => hgt ((opGt_iff a b).mpr h)
        constructor
        · intro h
          refine ⟨?_, h⟩
          intro y hy
          rcases List.mem_cons.mp hy with hy | hy
          · rw [hy]; exact hab
          · exact le_trans hab ((List.pairwise_cons.mp h).1 y hy)
        · intro h; exact h.2

/-- Merging two ascending sequences gives an ascending sequence (ties allowed). -/
theorem mergeArrays_le_sorted : ∀ (a b : List tree_t), a.Pairwise le → b.Pairwise le →
    (mergeArrays a b).Pairwise le
  | [], b => by intro _ hb; simpa [mergeArrays] using hb
  | a :: as, [] => by intro ha _; simpa [mergeArrays] using ha
  | a :: as, b :: bs => by
    intro ha hb
    simp only [mergeArrays]
    have ha2 := List.pairwise_cons.mp ha
    have hb2 := List.pairwise_cons.mp hb
    split
    · rename_i hgt
      have hab : le a b := le_of_lt ((opGt_iff b a).mp hgt)
      refine List.pairwise_cons.mpr ⟨?_, mergeArrays_le_sorted as (b :: bs) ha2.2 hb⟩
      intro z hz
      rcases (mem_mergeArrays _ _ z).mp hz with hz | hz
      · exact ha2.1 z hz
      · rcases List.mem_cons.mp hz with hz | hz
        · rw [hz]; exact hab
        · exact le_trans hab (hb2.1 z hz)
    · rename_i hgt
      have hba : le b a := fun h => hgt ((opGt_iff b a).mpr h)
      refine List.pairwise_cons.mpr ⟨?_, mergeArrays_le_sorted (a :: as) bs ha hb2.2⟩
      intro z hz
      rcases (mem_mergeArrays _ _ z).mp hz with hz | hz
      · rcases List.mem_cons.mp hz with hz | hz
        · rw [hz]; exact hba
        · exact le_trans hba (ha2.1 z hz)
      · exact hb2.1 z hz

/-- C21. The array merge: for two arrays that are sorted ascending in the sense of
`isSorted`, `myArray_::mergeArrays(arr1, arr2)` makes no out-of-range access (no
`badIndex`) and returns an array of length `|arr1| + |arr2|` that is sorted ascending and
is a permutation of the concatenation of the two, so that every record occurs in it as
often as in `arr1` and `arr2` together. -/
theorem C21_merge_arrays (arr1 arr2 : List tree_t) (h1 : isSorted arr1 = true)
    (h2 : isSorted arr2 = true) :
    ∃ out, myArray_.mergeArrays arr1 arr2 = Except.ok out ∧
      out.length = arr1.length + arr2.length ∧ isSorted out = true ∧
      out.Perm (arr1 ++ arr2) ∧ ∀ x, out.count x = arr1.count x + arr2.count x := by
  refine ⟨mergeArrays arr1 arr2, mergeArrays_loops arr1 arr2, mergeArrays_length arr1 arr2,
    ?_, mergeArrays_perm arr1 arr2, ?_⟩
  · rw [isSorted_iff] at h1 h2 ⊢
    exact mergeArrays_le_sorted arr1 arr2 h1 h2
  · intro x
    rw [(mergeArrays_perm arr1 arr2).count_eq, List.count_append]

/-- Witness for C21: two arrays with a tie on the key `(10, 1)`. -/
theorem C21_merge_arrays_witness :
    ∃ out, myArray_.mergeArrays [⟨1, 10, 5⟩, ⟨3, 30, 1⟩] [⟨1, 10, 7⟩, ⟨2, 20, 0⟩]
        = Except.ok out ∧ out.length = 4 ∧ isSorted out = true := by
  obtain ⟨out, e1, e2, e3, _⟩ := C21_merge_arrays [⟨1, 10, 5⟩, ⟨3, 30, 1⟩]
    [⟨1, 10, 7⟩, ⟨2, 20, 0⟩] (by decide) (by decide)
  exact ⟨out, e1, e2, e3⟩

/-! ## Ties in the array merge -/

/-- C22, counterexample: `arr1` holds `(1, 10, 5)` and `arr2` holds `(1, 10, 7)`, which
tie under the record order.  The test `arr2[ib] > arr1[ia]` fails, so the record of
`arr2` is written first: in the merged array it stands at index 0 and the record of
`arr1` at index 1. -/
theorem C22_counterexample :
    isSorted [⟨1, 10, 5⟩] = true ∧ isSorted [⟨1, 10, 7⟩] = true ∧
    sameKey ⟨1, 10, 5⟩ ⟨1, 10, 7⟩ ∧
    myArray_.mergeArrays [⟨1, 10, 5⟩] [⟨1, 10, 7⟩] = Except.ok [⟨1, 10, 7⟩, ⟨1, 10, 5⟩] ∧
    ([⟨1, 10, 7⟩, ⟨1, 10, 5⟩] : List tree_t).indexOf ⟨1, 10, 5⟩ = 1 ∧
    ([⟨1, 10, 7⟩, ⟨1, 10, 5⟩] : List tree_t).indexOf ⟨1, 10, 7⟩ = 0 := by
  refine ⟨by decide, by decide, by decide, ?_, by decide, by decide⟩
  rw [mergeArrays_loops]
  simp [mergeArrays, opGt]

theorem filter_sameKey_nil (k b : tree_t) (bs : List tree_t) (hb : (b :: bs).Pairwise le)
    (hlt : lt k b) : (b :: bs).filter (fun x => decide (sameKey k x)) = [] := by
  apply filter_none
  intro x hx
  apply decide_eq_false
  intro hk
  have hbx : le b x := by
    rcases List.mem_cons.mp hx with h | h
    · rw [h]; exact fun g => lt_irrefl b g
    · exact (List.pairwise_cons.mp hb).1 x h
  unfold le at hbx
  unfold sameKey at hk
  rw [lt_iff] at hlt hbx
  omega

/-- On every class of tying records the merge puts the records of the second array, in
their order, before the records of the first array, in their order. -/
theorem mergeArrays_ties (k : tree_t) : ∀ (a b : List tree_t), b.Pairwise le →
    (mergeArrays a b).filter (fun x => decide (sameKey k x))
      = b.filter (fun x => decide (sameKey k x)) ++ a.filter (fun x => decide (sameKey k x))
  | [], b => by intro _; simp [mergeArrays]
  | a :: as, [] => by intro _; simp [mergeArrays]
  | a :: as, b :: bs => by
    intro hb
    simp only [mergeArrays]
    split
    · rename_i hgt
      have hab : lt a b := (opGt_iff b a).mp hgt
      rw [List.filter_cons, mergeArrays_ties k as (b :: bs) hb]
      by_cases hk : sameKey k a
      · have hkb : lt k b := by
          unfold sameKey at hk
          rw [lt_iff] at hab ⊢
          omega
        rw [filter_sameKey_nil k b bs hb hkb]
        simp [hk]
      · simp [hk]
    · rw [List.filter_cons, mergeArrays_ties k (a :: as) bs (List.pairwise_cons.mp hb).2]
      by_cases hk : sameKey k b
      · simp [hk]
      · simp [hk]

/-- C22, amended: for two arrays of which the second is sorted ascending in the sense of
`isSorted` (the first may be sorted too), the records of the merged array that tie with a
given record (same salary and same id) are the tying records of `arr2`, in their order,
followed by the tying records of `arr1`, in their order: on a tie the element of `arr2`
comes first. -/
theorem C22_merge_ties (arr1 arr2 : List tree_t) (h2 : isSorted arr2 = true) (k : tree_t) :
    ∃ out, myArray_.mergeArrays arr1 arr2 = Except.ok out ∧
      out.filter (fun x => decide (sameKey k x))
        = arr2.filter (fun x => decide (sameKey k x))
          ++ arr1.filter (fun x => decide (sameKey k x)) :=
  ⟨mergeArrays arr1 arr2, mergeArrays_loops arr1 arr2,
    mergeArrays_ties k arr1 arr2 ((isSorted_iff arr2).mp h2)⟩

/-- Witness for the amended C22: the records with key `(10, 1)` of the merged array. -/
theorem C22_merge_ties_witness :
    ∃ out, myArray_.mergeArrays [⟨1, 10, 5⟩, ⟨3, 30, 1⟩] [⟨1, 10, 7⟩, ⟨2, 20, 0⟩]
        = Except.ok out ∧
      out.filter (fun x => decide (sameKey ⟨1, 10, 0⟩ x)) = [⟨1, 10, 7⟩, ⟨1, 10, 5⟩] := by
  obtain ⟨out, e1, e2⟩ := C22_merge_ties [⟨1, 10, 5⟩, ⟨3, 30, 1⟩] [⟨1, 10, 7⟩, ⟨2, 20, 0⟩]
    (by decide) ⟨1, 10, 0⟩
  exact ⟨out, e1, by rw [e2]; decide⟩

end AvlRank
